import Mathlib

/-!
Verification development for the TOON <-> JSON conversion core
(src/lib/toon.ts and the API handlers).

Embedding conventions:
* JavaScript strings are modelled as Lean `String` / `List Char`
  (the parsers work on `List Char`, the cursor-passing suffix).
* JavaScript numbers are IEEE doubles in the source; this development
  models the numeric leaves as integers (`Int`), which is the fragment
  all claims exercise.  The source's fractional/exponent forms
  (converted via `parseFloat`) are outside this integer model and are
  noted at the relevant definitions.
* The source's `while (true)` parsing loops are modelled with an
  explicit fuel parameter; `parseJson`/`jsonParse` supply
  `input.length + 1` fuel, which is proved sufficient for the
  round-trip theorems (every loop step consumes input).
* JavaScript object literals (`obj[key] = value` insertion) are
  modelled as ordered association lists with in-place overwrite
  (`setKey`), matching the insertion-order semantics the spec's data
  model describes.
-/

/-- The Value Tree of the spec (section 3): the universal in-memory
representation shared by both pipelines.  Numbers are modelled as
integers (see header note). -/
inductive Value where
  | null : Value
  | bool (b : Bool) : Value
  | num (n : Int) : Value
  | str (s : String) : Value
  | arr (l : List Value) : Value
  | obj (l : List (String × Value)) : Value
deriving Repr

/-- Whitespace recognized by the model of JavaScript `String.trim`
(space, newline, tab, carriage return: the whitespace the rendered
texts contain). -/
def isWs (c : Char) : Bool :=
  c = ' ' || c = '\n' || c = '\t' || c = '\r'

/-- Drop leading whitespace (left half of JS `trim`). -/
def ltrim (l : List Char) : List Char := l.dropWhile isWs

/-- Drop trailing whitespace (right half of JS `trim`). -/
def rtrim (l : List Char) : List Char := (l.reverse.dropWhile isWs).reverse

/-- Model of JavaScript `String.prototype.trim`: strip whitespace from
both ends. -/
def trimJS (l : List Char) : List Char := rtrim (ltrim l)

/-- Decimal digit test, as in the source's regular expressions `\d`. -/
def isDigit (c : Char) : Bool := '0' ≤ c && c ≤ '9'

/-- First character of the identifier pattern `[a-zA-Z_$]`. -/
def identStart (c : Char) : Bool := c.isAlpha || c = '_' || c = '$'

/-- Subsequent identifier characters `[a-zA-Z0-9_$]`. -/
def identChar (c : Char) : Bool := identStart c || isDigit c

/-- Full-string identifier test, the source's
`/^[a-zA-Z_$][a-zA-Z0-9_$]*$/.test(key)`. -/
def isIdent (l : List Char) : Bool :=
  match l with
  | [] => false
  | c :: rest => identStart c && rest.all identChar

/-- Does the character list start with the given character? -/
def headIs (l : List Char) (c : Char) : Bool :=
  match l with
  | [] => false
  | x :: _ => x = c

/-- Prefix test on character lists (JS `String.prototype.startsWith`). -/
def startsL (p : List Char) (l : List Char) : Bool :=
  match p, l with
  | [], _ => true
  | _ :: _, [] => false
  | a :: ps, b :: cs => a = b && startsL ps cs

/-- JavaScript object insertion `obj[key] = value` on an ordered
association list: a later duplicate key overwrites the earlier entry in
place, otherwise the new pair is appended. -/
def setKey (l : List (String × Value)) (k : String) (v : Value) :
    List (String × Value) :=
  match l with
  | [] => [(k, v)]
  | (k', v') :: t => if k' = k then (k, v) :: t else (k', v') :: setKey t k v

/-- Decimal digit character for `d ≤ 9` (used by the model of JS
`Number.prototype.toString`). -/
def digitChar (d : Nat) : Char :=
  match d with
  | 0 => '0' | 1 => '1' | 2 => '2' | 3 => '3' | 4 => '4'
  | 5 => '5' | 6 => '6' | 7 => '7' | 8 => '8' | _ => '9'

/-- Decimal digits of a natural number, with explicit fuel so the
definition is structurally recursive (the fuel `n + 1` always
suffices). -/
def natCharsAux : Nat → Nat → List Char
  | 0, _ => []
  | fuel + 1, n =>
    if n < 10 then [digitChar n]
    else natCharsAux fuel (n / 10) ++ [digitChar (n % 10)]

/-- Decimal digits of a natural number (model of JS integer
`toString`). -/
def natChars (n : Nat) : List Char := natCharsAux (n + 1) n

/-- Decimal rendering of an integer, the model of the source's
`obj.toString()` on (integer-valued) numbers. -/
def numChars (n : Int) : List Char :=
  if n < 0 then '-' :: natChars n.natAbs else natChars n.natAbs

/-- Numeric value of a digit character. -/
def digitVal (c : Char) : Nat := c.toNat - 48

/-- Value of a list of decimal digits (the integer fragment of the
source's `parseFloat`). -/
def digitsVal (l : List Char) : Nat :=
  l.foldl (fun a c => 10 * a + digitVal c) 0

/-- Separator join on character lists, the model of JavaScript
`Array.prototype.join(sep)`. -/
def joinSep (sep : List Char) : List (List Char) → List Char
  | [] => []
  | [x] => x
  | x :: y :: t => x ++ sep ++ joinSep sep (y :: t)

/-- Two-space-per-level indentation, the source's `'  '.repeat(indent)`. -/
def indentChars (i : Nat) : List Char := List.replicate (2 * i) ' '

/-- Escape a single character for string rendering.  Equivalent to the
source's sequence of global replaces (backslash first, then quote,
newline, carriage return, tab). -/
def escChar (c : Char) : List Char :=
  if c = '\\' then ['\\', '\\']
  else if c = '"' then ['\\', '"']
  else if c = '\n' then ['\\', 'n']
  else if c = '\r' then ['\\', 'r']
  else if c = '\t' then ['\\', 't']
  else [c]

/-- Character-wise string escaping used by both serializers. -/
def escapeChars : List Char → List Char
  | [] => []
  | c :: t => escChar c ++ escapeChars t

/-- Double-quoted string literal rendering (both serializers'
`"${escaped}"`). -/
def strLit (s : String) : List Char := '"' :: escapeChars s.data ++ ['"']

/-- Result of one cursor-passing parsing step: the parsed value and the
unconsumed suffix (the source's `ParseResult`). -/
structure ParseResult where
  value : Value
  remaining : List Char
deriving Repr

/-- Translation of an escaped character inside a relaxed-parsed string:
`n`, `t`, `r` decode to control characters; the source's remaining
cases (backslash, the enclosing quote, and any other character) all
yield the character itself. -/
def escDecode (c : Char) : Char :=
  if c = 'n' then '\n' else if c = 't' then '\t' else if c = 'r' then '\r' else c

/-- Character scan of the source's `parseString`: walk the input with
an escape flag, accumulating the decoded value, until the matching
unescaped quote. -/
def parseStrLoop (q : Char) : List Char → Bool → List Char →
    Except String (String × List Char)
  | [], _, _ => .error "Unterminated string"
  | c :: rest, escaped, acc =>
    if escaped then parseStrLoop q rest false (acc ++ [escDecode c])
    else if c = '\\' then parseStrLoop q rest true acc
    else if c = q then .ok (String.mk acc, rest)
    else parseStrLoop q rest false (acc ++ [c])

/-- The source's `parseString`, returning the raw string (used both for
string values and for quoted object keys). -/
def parseStringRaw (input : List Char) : Except String (String × List Char) :=
  match input with
  | c :: rest =>
    if c = '"' || c = '\'' then parseStrLoop c rest false []
    else .error "Expected string to start with quote"
  | [] => .error "Expected string to start with quote"

/-- The source's `parseString` wrapped as a value-parsing step. -/
def parseStringP (input : List Char) : Except String ParseResult :=
  match parseStringRaw input with
  | .error e => .error e
  | .ok (s, rem) => .ok ⟨.str s, rem⟩

/-- Dispatch test of the source's number branch: the anchored pattern
`-?\d+...` matches iff the input starts with a digit or a minus sign
followed by a digit. -/
def numStart (l : List Char) : Bool :=
  match l with
  | [] => false
  | c :: rest =>
    if c = '-' then
      match rest with
      | [] => false
      | c2 :: _ => isDigit c2
    else isDigit c

/-- The source's `parseNumber` on the integer fragment: consume an
optional minus sign and a maximal run of digits and convert them.  (The
source's regular expression additionally consumes an optional fraction
and exponent and converts with `parseFloat` on IEEE doubles; those
forms are outside this development's integer model.) -/
def parseNumberP (l : List Char) : Except String (Int × List Char) :=
  if headIs l '-' then
    if ((l.drop 1).takeWhile isDigit) = [] then .error "Expected number"
    else .ok (-(digitsVal ((l.drop 1).takeWhile isDigit) : Int),
      (l.drop 1).dropWhile isDigit)
  else
    if (l.takeWhile isDigit) = [] then .error "Expected number"
    else .ok ((digitsVal (l.takeWhile isDigit) : Int), l.dropWhile isDigit)

/-- Key match of the source's `parseObject` unquoted branch: the
regular expression `/^([a-zA-Z_$][a-zA-Z0-9_$]*)\s*:/` — a maximal
identifier run, optional whitespace, and the colon; returns the key and
the suffix after the colon. -/
def extractIdentKey (l : List Char) : Option (String × List Char) :=
  match l with
  | [] => none
  | c :: rest =>
    if identStart c then
      let k := c :: rest.takeWhile identChar
      let after := (rest.dropWhile identChar).dropWhile isWs
      match after with
      | ':' :: r2 => some (String.mk k, r2)
      | _ => none
    else none

mutual

/-- The source's `parseValue`: trim, then dispatch on the first
character (object, array, string, number, `true`, `false`, `null`, or
an unexpected-token error naming the first 20 offending characters).
The fuel argument models the recursion (see header note). -/
def parseValueF : Nat → List Char → Except String ParseResult
  | 0, _ => .error "recursion limit"
  | fuel + 1, input =>
    let t := trimJS input
    if headIs t '\x7b' then parseObjectF fuel t
    else if headIs t '[' then parseArrayF fuel t
    else if headIs t '"' || headIs t '\'' then parseStringP t
    else if numStart t then
      match parseNumberP t with
      | .error e => .error e
      | .ok (n, rem) => .ok ⟨.num n, rem⟩
    else if startsL "true".data t then .ok ⟨.bool true, t.drop 4⟩
    else if startsL "false".data t then .ok ⟨.bool false, t.drop 5⟩
    else if startsL "null".data t then .ok ⟨.null, t.drop 4⟩
    else .error ("Unexpected token: " ++ String.mk (t.take 20))

/-- Head of the source's `parseObject`: consume the opening brace,
trim, return the empty object on an immediate closing brace, otherwise
enter the entry loop. -/
def parseObjectF : Nat → List Char → Except String ParseResult
  | 0, _ => .error "recursion limit"
  | fuel + 1, input =>
    if headIs input '\x7b' then
      let r := trimJS (input.drop 1)
      if headIs r '\x7d' then .ok ⟨.obj [], r.drop 1⟩
      else parseObjectLoopF fuel r []
    else .error "Expected object to start with \x7b"

/-- Body of the source's `parseObject` `while (true)` loop, from the
loop top: trim; an exhausted input is an implicit end of the object;
otherwise parse a quoted or unquoted key (with its colon) and hand over
to the entry tail. -/
def parseObjectLoopF : Nat → List Char → List (String × Value) →
    Except String ParseResult
  | 0, _, _ => .error "recursion limit"
  | fuel + 1, remaining, obj =>
    let r := trimJS remaining
    if r.isEmpty then .ok ⟨.obj obj, r⟩
    else if headIs r '"' || headIs r '\'' then
      match parseStringRaw r with
      | .error e => .error e
      | .ok (key, rem1) =>
        let rem2 := trimJS rem1
        if headIs rem2 ':' then
          parseEntryTailF fuel (trimJS (rem2.drop 1)) obj key
        else .error ("Expected ':' after key, got: " ++ String.mk (rem2.take 30))
    else
      match extractIdentKey r with
      | none => .error ("Expected key, got: " ++ String.mk (r.take 30))
      | some (key, rest) => parseEntryTailF fuel (trimJS rest) obj key

/-- Tail of one `parseObject` loop iteration: parse the entry's value,
store it (overwriting a duplicate key), then require `}` (return), `,`
(continue), tolerate an exhausted input as an implicit end, and fail on
anything else. -/
def parseEntryTailF : Nat → List Char → List (String × Value) → String →
    Except String ParseResult
  | 0, _, _, _ => .error "recursion limit"
  | fuel + 1, rem, obj, key =>
    match parseValueF fuel rem with
    | .error e => .error e
    | .ok res =>
      let obj2 := setKey obj key res.value
      let r2 := trimJS res.remaining
      if headIs r2 '\x7d' then .ok ⟨.obj obj2, r2.drop 1⟩
      else if headIs r2 ',' then parseObjectLoopF fuel (trimJS (r2.drop 1)) obj2
      else if r2.isEmpty then .ok ⟨.obj obj2, r2⟩
      else .error ("Expected ',' or '\x7d', got: " ++ String.mk (r2.take 30))

/-- Head of the source's `parseArray`: consume the opening bracket,
trim, return the empty array on an immediate closing bracket, otherwise
enter the element loop. -/
def parseArrayF : Nat → List Char → Except String ParseResult
  | 0, _ => .error "recursion limit"
  | fuel + 1, input =>
    if headIs input '[' then
      let r := trimJS (input.drop 1)
      if headIs r ']' then .ok ⟨.arr [], r.drop 1⟩
      else parseArrayLoopF fuel r []
    else .error "Expected array to start with ["

/-- Body of the source's `parseArray` loop: parse an element, then
require `]` (return) or `,` (continue); anything else — including an
exhausted input — is a missing-delimiter error naming the first 20
offending characters. -/
def parseArrayLoopF : Nat → List Char → List Value →
    Except String ParseResult
  | 0, _, _ => .error "recursion limit"
  | fuel + 1, remaining, acc =>
    let r := trimJS remaining
    match parseValueF fuel r with
    | .error e => .error e
    | .ok res =>
      let acc2 := acc ++ [res.value]
      let r2 := trimJS res.remaining
      if headIs r2 ']' then .ok ⟨.arr acc2, r2.drop 1⟩
      else if headIs r2 ',' then parseArrayLoopF fuel (trimJS (r2.drop 1)) acc2
      else .error ("Expected ',' or ']', got: " ++ String.mk (r2.take 20))

end

/-- The source's `parseJson`, the relaxed parser's public entry point:
reject empty or whitespace-only input, parse one value, and reject
trailing non-whitespace content (naming its first 20 characters). -/
def parseJson (input : String) : Except String Value :=
  let t := trimJS input.data
  if t.isEmpty then .error "Empty input"
  else
    match parseValueF (input.length + 1) t with
    | .error e => .error e
    | .ok res =>
      if (trimJS res.remaining).isEmpty then .ok res.value
      else .error ("Unexpected characters after parsed value: " ++
        String.mk (res.remaining.take 20))

mutual

/-- Key rendering of `toJson`: unquoted when the key is a valid
identifier, otherwise quoted via the string rule. -/
def keyRender (k : String) : List Char :=
  if isIdent k.data then k.data else strLit k

/-- The source's `toJson` (the serializer with unquoted identifier
keys), producing a character list: scalars render canonically, strings
are escaped and double-quoted, non-empty arrays and objects render one
element per line at the next indent level. -/
def toJsonChars : Value → Nat → List Char
  | .null, _ => "null".data
  | .bool b, _ => if b then "true".data else "false".data
  | .num n, _ => numChars n
  | .str s, _ => strLit s
  | .arr [], _ => "[]".data
  | .arr (v :: t), i =>
    "[\n".data ++ joinSep ",\n".data (jsonItems (v :: t) (i + 1)) ++
      '\n' :: indentChars i ++ "]".data
  | .obj [], _ => "\x7b\x7d".data
  | .obj (p :: t), i =>
    "\x7b\n".data ++ joinSep ",\n".data (jsonPairs (p :: t) (i + 1)) ++
      '\n' :: indentChars i ++ "\x7d".data

/-- Rendered lines of an array's elements in `toJson` (the source's
`obj.map(item => nextIndentStr + toJson(item, nextIndent))`). -/
def jsonItems : List Value → Nat → List (List Char)
  | [], _ => []
  | v :: t, i => (indentChars i ++ toJsonChars v i) :: jsonItems t i

/-- Rendered lines of an object's entries in `toJson`: the key is left
unquoted when it is a valid identifier, otherwise it is rendered as a
quoted string. -/
def jsonPairs : List (String × Value) → Nat → List (List Char)
  | [], _ => []
  | (k, v) :: t, i =>
    (indentChars i ++ keyRender k ++ ": ".data ++ toJsonChars v i) :: jsonPairs t i

end

/-- The source's `toJson` as a string-valued function. -/
def toJson (v : Value) (indent : Nat) : String := String.mk (toJsonChars v indent)

/-- Scalar test of the source's compactness heuristics
(string/number/boolean/null). -/
def isScalar : Value → Bool
  | .null => true
  | .bool _ => true
  | .num _ => true
  | .str _ => true
  | _ => false

/-- The source's `isCompactArray` element test: every element is a
non-array object with at most 5 keys whose values are all scalars. -/
def isCompactArrB (l : List Value) : Bool :=
  l.all fun item =>
    match item with
    | .obj p => p.length ≤ 5 && p.all (fun kv => isScalar kv.2)
    | _ => false

/-- The source's `isCompactObject` test on a (root) object's entries:
at most 5 keys, each value a scalar or an array of length at most 10. -/
def isCompactObjB (l : List (String × Value)) : Bool :=
  l.length ≤ 5 && l.all fun kv =>
    isScalar kv.2 ||
      (match kv.2 with
       | .arr m => m.length ≤ 10
       | _ => false)

mutual

/-- The source's `toToon` (the serializer with always-quoted keys and
the compactness heuristics), producing a character list.  Object keys
are rendered raw inside double quotes (the source's template literal
performs no escaping). -/
def toToonChars : Value → Nat → List Char
  | .null, _ => "null".data
  | .bool b, _ => if b then "true".data else "false".data
  | .num n, _ => numChars n
  | .str s, _ => strLit s
  | .arr [], _ => "[]".data
  | .arr (v :: t), i =>
    if isCompactArrB (v :: t) then
      "[\n".data ++ indentChars (i + 1) ++
        joinSep (',' :: '\n' :: indentChars (i + 1)) (compactBlocks (v :: t)) ++
        '\n' :: indentChars i ++ "]".data
    else
      "[\n".data ++ joinSep ",\n".data (toonItems (v :: t) (i + 1)) ++
        '\n' :: indentChars i ++ "]".data
  | .obj [], _ => "\x7b\x7d".data
  | .obj (p :: t), i =>
    if isCompactObjB (p :: t) && i == 0 then
      "\x7b\n".data ++ indentChars (i + 1) ++
        joinSep (',' :: '\n' :: indentChars (i + 1)) (rootPairs (p :: t) i) ++
        '\n' :: indentChars i ++ "\x7d".data
    else
      "\x7b\n".data ++ joinSep ",\n".data (toonPairs (p :: t) (i + 1)) ++
        '\n' :: indentChars i ++ "\x7d".data

/-- Rendered lines of an array's elements in `toToon`'s non-compact
branch. -/
def toonItems : List Value → Nat → List (List Char)
  | [], _ => []
  | v :: t, i => (indentChars i ++ toToonChars v i) :: toonItems t i

/-- Single-line compact brace blocks for the elements of a compact
array (the source's `{ ${pairs.join(', ')} }`); under the guards every
element is an object.  (For a non-object element — unreachable under
the source's guards — the block degenerates to the empty-pairs form.) -/
def compactBlocks : List Value → List (List Char)
  | [] => []
  | .obj p :: t =>
    ("\x7b ".data ++ joinSep ", ".data (compactPairs p) ++ " \x7d".data) ::
      compactBlocks t
  | _ :: t => "\x7b  \x7d".data :: compactBlocks t

/-- Key/value texts inside a compact brace block: keys raw inside
double quotes, values rendered at indent 0. -/
def compactPairs : List (String × Value) → List (List Char)
  | [] => []
  | (k, v) :: t =>
    ('"' :: k.data ++ '"' :: ':' :: ' ' :: toToonChars v 0) :: compactPairs t

/-- Items of an array value rendered inline in the root-compact object
branch: objects become compact brace blocks, anything else renders
normally at indent 0. -/
def rootItems : List Value → List (List Char)
  | [] => []
  | .obj p :: t =>
    ("\x7b ".data ++ joinSep ", ".data (compactPairs p) ++ " \x7d".data) ::
      rootItems t
  | v :: t => toToonChars v 0 :: rootItems t

/-- Entry lines of the root-compact object branch: keys raw inside
double quotes; a non-empty array value is rendered inline with
`rootItems`, any other value renders at indent 0. -/
def rootPairs : List (String × Value) → Nat → List (List Char)
  | [], _ => []
  | (k, .arr (x :: m)) :: t, i =>
    ('"' :: k.data ++ '"' :: ':' :: ' ' ::
      ("[\n".data ++ indentChars (i + 1) ++
        joinSep (',' :: '\n' :: indentChars (i + 1)) (rootItems (x :: m)) ++
        '\n' :: indentChars i ++ "]".data)) :: rootPairs t i
  | (k, v) :: t, i =>
    ('"' :: k.data ++ '"' :: ':' :: ' ' :: toToonChars v 0) :: rootPairs t i

/-- Entry lines of `toToon`'s general object branch: keys raw inside
double quotes, values at the next indent level. -/
def toonPairs : List (String × Value) → Nat → List (List Char)
  | [], _ => []
  | (k, v) :: t, i =>
    (indentChars i ++ '"' :: k.data ++ '"' :: ':' :: ' ' ::
      toToonChars v i) :: toonPairs t i

end

/-- The source's `toToon` as a string-valued function. -/
def toToon (v : Value) (indent : Nat) : String := String.mk (toToonChars v indent)

/-- JSON whitespace (RFC 8259: space, tab, newline, carriage return). -/
def jsonWs (c : Char) : Bool :=
  c = ' ' || c = '\t' || c = '\n' || c = '\r'

/-- Skip JSON whitespace. -/
def jws (l : List Char) : List Char := l.dropWhile jsonWs

/-- Hexadecimal digit test. -/
def isHexDigit (c : Char) : Bool :=
  isDigit c || ('a' ≤ c && c ≤ 'f') || ('A' ≤ c && c ≤ 'F')

/-- Numeric value of a hexadecimal digit character. -/
def hexVal (c : Char) : Nat :=
  if isDigit c then c.toNat - 48
  else if 'a' ≤ c && c ≤ 'f' then c.toNat - 87
  else c.toNat - 55

/-- Decoding of a simple (non-`u`) JSON string escape. -/
def jEscDecode (c : Char) : Option Char :=
  if c = '"' then some '"'
  else if c = '\\' then some '\\'
  else if c = '/' then some '/'
  else if c = 'b' then some '\x08'
  else if c = 'f' then some '\x0c'
  else if c = 'n' then some '\n'
  else if c = 'r' then some '\r'
  else if c = 't' then some '\t'
  else none

/-- Modelled from the spec: body scan of a standard-conformant JSON
string (the strict path delegates to `JSON.parse`, which is not part of
the repository).  Runs from just after the opening double quote;
decodes the escapes `\" \\ \/ \b \f \n \r \t \uXXXX` and rejects
unescaped control characters, per the JSON grammar.  (Surrogate-pair
combination of consecutive `\uXXXX` escapes is not modelled.) -/
def jStrLoop : List Char → List Char → Except String (String × List Char)
  | [], _ => .error "Unterminated string"
  | c :: rest, acc =>
    if c = '"' then .ok (String.mk acc, rest)
    else if c = '\\' then
      match rest with
      | [] => .error "Unterminated string"
      | e :: r2 =>
        if e = 'u' then
          match r2 with
          | h1 :: h2 :: h3 :: h4 :: r3 =>
            if isHexDigit h1 && isHexDigit h2 && isHexDigit h3 && isHexDigit h4 then
              jStrLoop r3 (acc ++
                [Char.ofNat (((hexVal h1 * 16 + hexVal h2) * 16 + hexVal h3) * 16 + hexVal h4)])
            else .error "Invalid unicode escape"
          | _ => .error "Invalid unicode escape"
        else
          match jEscDecode e with
          | some d => jStrLoop r2 (acc ++ [d])
          | none => .error "Invalid escape"
    else if c.toNat < 32 then .error "Unescaped control character"
    else jStrLoop rest (acc ++ [c])

/-- Modelled from the spec: integer fragment of the JSON number
grammar — optional minus, then digits with no superfluous leading zero.
Fractions and exponents (IEEE-double territory) are outside this
development's integer model and are rejected. -/
def jNumber (l : List Char) : Except String (Int × List Char) :=
  let core : List Char → Except String (Nat × List Char) := fun m =>
    match m.takeWhile isDigit with
    | [] => .error "Invalid number"
    | d :: ds =>
      if d = '0' && !ds.isEmpty then .error "Leading zero in number"
      else
        let rem := m.dropWhile isDigit
        if headIs rem '.' || headIs rem 'e' || headIs rem 'E' then
          .error "Non-integer number outside model"
        else .ok (digitsVal (d :: ds), rem)
  if headIs l '-' then
    match core (l.drop 1) with
    | .error e => .error e
    | .ok (n, rem) => .ok (-(n : Int), rem)
  else
    match core l with
    | .error e => .error e
    | .ok (n, rem) => .ok ((n : Int), rem)

mutual

/-- Modelled from the spec: value parser of a standard-conformant JSON
parser (the strict parser `parseToon` delegates to `JSON.parse`).
Skips whitespace, then dispatches on object, array, string, literal or
number; anything else is an error. -/
def jValueF : Nat → List Char → Except String (Value × List Char)
  | 0, _ => .error "recursion limit"
  | fuel + 1, input =>
    let t := jws input
    if headIs t '\x7b' then
      let r := jws (t.drop 1)
      if headIs r '\x7d' then .ok (.obj [], r.drop 1)
      else jObjLoopF fuel r []
    else if headIs t '[' then
      let r := jws (t.drop 1)
      if headIs r ']' then .ok (.arr [], r.drop 1)
      else jArrLoopF fuel r []
    else if headIs t '"' then
      match jStrLoop (t.drop 1) [] with
      | .error e => .error e
      | .ok (s, rem) => .ok (.str s, rem)
    else if startsL "true".data t then .ok (.bool true, t.drop 4)
    else if startsL "false".data t then .ok (.bool false, t.drop 5)
    else if startsL "null".data t then .ok (.null, t.drop 4)
    else if headIs t '-' || numStart t then
      match jNumber t with
      | .error e => .error e
      | .ok (n, rem) => .ok (.num n, rem)
    else .error "Unexpected token"

/-- Modelled from the spec: member loop of a conformant JSON object —
a double-quoted key, a colon, a value, then a comma (continue) or a
closing brace; duplicate keys overwrite in place (`setKey`), matching
standard last-wins JSON-parser behavior. -/
def jObjLoopF : Nat → List Char → List (String × Value) →
    Except String (Value × List Char)
  | 0, _, _ => .error "recursion limit"
  | fuel + 1, input, acc =>
    if headIs input '"' then
      match jStrLoop (input.drop 1) [] with
      | .error e => .error e
      | .ok (k, r1) =>
        let r2 := jws r1
        if headIs r2 ':' then
          match jValueF fuel (jws (r2.drop 1)) with
          | .error e => .error e
          | .ok (v, r3) =>
            let acc2 := setKey acc k v
            let r4 := jws r3
            if headIs r4 '\x7d' then .ok (.obj acc2, r4.drop 1)
            else if headIs r4 ',' then jObjLoopF fuel (jws (r4.drop 1)) acc2
            else .error "Expected comma or closing brace in object"
        else .error "Expected colon in object"
    else .error "Expected string key in object"

/-- Modelled from the spec: element loop of a conformant JSON array —
a value, then a comma (continue) or a closing bracket. -/
def jArrLoopF : Nat → List Char → List Value →
    Except String (Value × List Char)
  | 0, _, _ => .error "recursion limit"
  | fuel + 1, input, acc =>
    match jValueF fuel input with
    | .error e => .error e
    | .ok (v, r1) =>
      let acc2 := acc ++ [v]
      let r2 := jws r1
      if headIs r2 ']' then .ok (.arr acc2, r2.drop 1)
      else if headIs r2 ',' then jArrLoopF fuel (jws (r2.drop 1)) acc2
      else .error "Expected comma or closing bracket in array"

end

/-- Modelled from the spec: top level of a standard-conformant JSON
parser — one value surrounded by optional whitespace and nothing
else. -/
def jsonParse (input : String) : Except String Value :=
  match jValueF (input.length + 1) (jws input.data) with
  | .error e => .error e
  | .ok (v, rem) =>
    if (jws rem).isEmpty then .ok v
    else .error "Unexpected trailing characters"

/-- The source's `parseToon`: delegate to the (modelled) standard JSON
parser, re-signalling any failure with the wrapping message. -/
def parseToon (input : String) : Except String Value :=
  match jsonParse input with
  | .ok v => .ok v
  | .error e => .error ("Invalid TOON format: " ++ e)

/-- The json-to-toon API handler's conversion core: relaxed-parse the
text, then render it strictly; a parse failure propagates as the
handler's error response. -/
def jsonToToon (text : String) : Except String String :=
  match parseJson text with
  | .ok v => .ok (toToon v 0)
  | .error e => .error e

/-- Keys of an association list are pairwise distinct. -/
def nodupKeys : List (String × Value) → Bool
  | [] => true
  | (k, _) :: t => t.all (fun p => !(p.1 == k)) && nodupKeys t

mutual

/-- Well-formed Value Tree per the spec's data model: every object has
unique keys (section 3's invariant). -/
def wfV : Value → Bool
  | .null => true
  | .bool _ => true
  | .num _ => true
  | .str _ => true
  | .arr l => wfL l
  | .obj l => nodupKeys l && wfP l

/-- Well-formedness of a list of values. -/
def wfL : List Value → Bool
  | [] => true
  | v :: t => wfV v && wfL t

/-- Well-formedness of an object's entries. -/
def wfP : List (String × Value) → Bool
  | [] => true
  | p :: t => wfV p.2 && wfP t

end

/-- A character that survives raw (unescaped) inside a JSON string
literal: printable and neither the quote nor the backslash. -/
def safeKeyChar (c : Char) : Bool :=
  32 ≤ c.toNat && c ≠ '"' && c ≠ '\\'

/-- A string-value character the serializers can transport to a
conformant JSON parser: printable, or one of the three control
characters the serializers escape. -/
def safeStrChar (c : Char) : Bool :=
  32 ≤ c.toNat || c = '\n' || c = '\r' || c = '\t'

mutual

/-- Strict-serializability: object keys contain only characters that
need no JSON escaping (the source's `toToon` interpolates keys raw),
and strings contain no control characters other than the newline,
carriage-return and tab that `toToon` escapes. -/
def safeV : Value → Bool
  | .null => true
  | .bool _ => true
  | .num _ => true
  | .str s => s.data.all safeStrChar
  | .arr l => safeL l
  | .obj l => safeP l

/-- Strict-serializability of a list of values. -/
def safeL : List Value → Bool
  | [] => true
  | v :: t => safeV v && safeL t

/-- Strict-serializability of an object's entries. -/
def safeP : List (String × Value) → Bool
  | [] => true
  | (k, v) :: t => k.data.all safeKeyChar && safeV v && safeP t

end

theorem mk_data (s : String) : String.mk s.data = s := rfl

theorem ws_cases (c : Char) (h : isWs c = true) :
    c = ' ' ∨ c = '\n' ∨ c = '\t' ∨ c = '\r' := by
  simp only [isWs, Bool.or_eq_true, decide_eq_true_eq] at h
  tauto

theorem identStart_not_ws (c : Char) (h : identStart c = true) : isWs c = false := by
  cases hws : isWs c with
  | false => rfl
  | true =>
    rcases ws_cases c hws with h' | h' | h' | h' <;> subst h' <;> exact absurd h (by decide)

theorem isDigit_not_ws (c : Char) (h : isDigit c = true) : isWs c = false := by
  cases hws : isWs c with
  | false => rfl
  | true =>
    rcases ws_cases c hws with h' | h' | h' | h' <;> subst h' <;> exact absurd h (by decide)

theorem identChar_not_ws (c : Char) (h : identChar c = true) : isWs c = false := by
  simp only [identChar, Bool.or_eq_true] at h
  rcases h with h | h
  · exact identStart_not_ws c h
  · exact isDigit_not_ws c h

theorem identStart_ne (c d : Char) (h : identStart c = true)
    (hd : identStart d = false) : c ≠ d := by
  intro he; subst he; rw [h] at hd; cases hd

theorem identChar_ne (c d : Char) (h : identChar c = true)
    (hd : identChar d = false) : c ≠ d := by
  intro he; subst he; rw [h] at hd; cases hd

theorem isDigit_ne (c d : Char) (h : isDigit c = true)
    (hd : isDigit d = false) : c ≠ d := by
  intro he; subst he; rw [h] at hd; cases hd

theorem ltrim_nil : ltrim [] = [] := rfl

theorem ltrim_cons_ws (c : Char) (l : List Char) (h : isWs c = true) :
    ltrim (c :: l) = ltrim l := by
  simp [ltrim, List.dropWhile_cons, h]

theorem ltrim_cons_not (c : Char) (l : List Char) (h : isWs c = false) :
    ltrim (c :: l) = c :: l := by
  simp [ltrim, List.dropWhile_cons, h]

theorem ltrim_indent (n : Nat) (l : List Char) :
    ltrim (indentChars n ++ l) = ltrim l := by
  induction n with
  | zero => simp [indentChars]
  | succ n ih =>
    have h2 : 2 * (n + 1) = (2 * n) + 1 + 1 := by omega
    simp only [indentChars, h2, List.replicate_succ, List.cons_append]
    rw [ltrim_cons_ws _ _ (by decide), ltrim_cons_ws _ _ (by decide)]
    simpa [indentChars] using ih

theorem rtrim_nil : rtrim [] = [] := rfl

theorem dw_len (p : Char → Bool) (l : List Char) :
    (List.dropWhile p l).length ≤ l.length := by
  induction l with
  | nil => simp
  | cons c t ih =>
    rw [List.dropWhile_cons]
    split
    · simp only [List.length_cons]; omega
    · simp

theorem rt_cons (c : Char) (s : List Char) (hc : isWs c = false)
    (hs : rtrim s = s) : rtrim (c :: s) = c :: s := by
  cases hrv : s.reverse with
  | nil =>
    have hs0 : s = [] := by simpa using congrArg List.reverse hrv
    subst hs0
    simp [rtrim, List.dropWhile_cons, hc]
  | cons e u =>
    have hrev : List.dropWhile isWs (e :: u) = e :: u := by
      have h0 := congrArg List.reverse hs
      simp only [rtrim, List.reverse_reverse] at h0
      rw [hrv] at h0
      exact h0
    have he : isWs e = false := by
      by_contra hbad
      rw [List.dropWhile_cons, eq_true_of_ne_false hbad, if_pos rfl] at hrev
      have h1 := congrArg List.length hrev
      have h2 := dw_len isWs u
      simp only [List.length_cons] at h1
      omega
    have hx : (c :: s).reverse = e :: (u ++ [c]) := by simp [hrv]
    have h3 : List.dropWhile isWs (e :: (u ++ [c])) = e :: (u ++ [c]) := by
      simp [List.dropWhile_cons, he]
    have h4 : (e :: (u ++ [c])).reverse = c :: (e :: u).reverse := by simp
    simp only [rtrim, hx, h3, h4, ← hrv, List.reverse_reverse]

theorem rt_append (a s : List Char) (hne : s ≠ []) (hs : rtrim s = s) :
    rtrim (a ++ s) = a ++ s := by
  cases hrv : s.reverse with
  | nil => exact absurd (by simpa using congrArg List.reverse hrv) hne
  | cons e u =>
    have hrev : List.dropWhile isWs (e :: u) = e :: u := by
      have h0 := congrArg List.reverse hs
      simp only [rtrim, List.reverse_reverse] at h0
      rw [hrv] at h0
      exact h0
    have he : isWs e = false := by
      by_contra hbad
      rw [List.dropWhile_cons, eq_true_of_ne_false hbad, if_pos rfl] at hrev
      have h1 := congrArg List.length hrev
      have h2 := dw_len isWs u
      simp only [List.length_cons] at h1
      omega
    have hx : (a ++ s).reverse = e :: (u ++ a.reverse) := by simp [hrv]
    have h3 : List.dropWhile isWs (e :: (u ++ a.reverse)) = e :: (u ++ a.reverse) := by
      simp [List.dropWhile_cons, he]
    have h4 : (e :: (u ++ a.reverse)).reverse = a ++ (e :: u).reverse := by simp
    simp only [rtrim, hx, h3, h4, ← hrv, List.reverse_reverse]

theorem trimJS_nil : trimJS [] = [] := rfl

theorem trimJS_cons_ws (c : Char) (l : List Char) (h : isWs c = true) :
    trimJS (c :: l) = trimJS l := by
  simp [trimJS, ltrim_cons_ws c l h]

theorem trimJS_indent (n : Nat) (l : List Char) :
    trimJS (indentChars n ++ l) = trimJS l := by
  simp [trimJS, ltrim_indent]

theorem trimJS_eq_self (c : Char) (r : List Char) (hc : isWs c = false)
    (hr : rtrim (c :: r) = c :: r) : trimJS (c :: r) = c :: r := by
  simp [trimJS, ltrim_cons_not c r hc, hr]

theorem digitChar_lt (d : Nat) (h : d < 10) :
    isDigit (digitChar d) = true ∧ digitVal (digitChar d) = d ∧
      isWs (digitChar d) = false := by
  interval_cases d <;> exact ⟨by decide, by decide, by decide⟩

theorem tw_append (p : Char → Bool) (l s : List Char)
    (hl : l.all p = true) (hs : ∀ c t, s = c :: t → p c = false) :
    (l ++ s).takeWhile p = l ∧ (l ++ s).dropWhile p = s := by
  induction l with
  | nil =>
    cases s with
    | nil => exact ⟨rfl, rfl⟩
    | cons c t =>
      have hc := hs c t rfl
      constructor
      · simp [List.takeWhile_cons, hc]
      · simp [List.dropWhile_cons, hc]
  | cons c t ih =>
    simp only [List.all_cons, Bool.and_eq_true] at hl
    have h2 := ih hl.2
    constructor
    · simp [List.takeWhile_cons, hl.1, h2.1]
    · simp [List.dropWhile_cons, hl.1, h2.2]

theorem natCharsAux_spec (fuel n : Nat) (h : n < fuel) :
    natCharsAux fuel n ≠ [] ∧ (natCharsAux fuel n).all isDigit = true ∧
      digitsVal (natCharsAux fuel n) = n := by
  induction fuel generalizing n with
  | zero => omega
  | succ fuel ih =>
    by_cases h10 : n < 10
    · simp only [natCharsAux, if_pos h10]
      obtain ⟨hd, hv, _⟩ := digitChar_lt n h10
      refine ⟨by simp, by simp [hd], ?_⟩
      have h1 : digitsVal [digitChar n] = digitVal (digitChar n) := by
        simp [digitsVal]
      rw [h1, hv]
    · simp only [natCharsAux, if_neg h10]
      have hrec : n / 10 < fuel := by
        have := Nat.div_lt_self (by omega : 0 < n) (by omega : 1 < 10)
        omega
      obtain ⟨hne, hall, hval⟩ := ih (n / 10) hrec
      obtain ⟨hd, hv, _⟩ := digitChar_lt (n % 10) (Nat.mod_lt n (by omega))
      refine ⟨by simp, ?_, ?_⟩
      · simp [List.all_append, hall, hd]
      · have hfold : digitsVal (natCharsAux fuel (n / 10) ++ [digitChar (n % 10)]) =
            10 * digitsVal (natCharsAux fuel (n / 10)) + digitVal (digitChar (n % 10)) := by
          simp [digitsVal, List.foldl_append]
        rw [hfold, hval, hv]
        omega

theorem natChars_spec (n : Nat) :
    natChars n ≠ [] ∧ (natChars n).all isDigit = true ∧
      digitsVal (natChars n) = n :=
  natCharsAux_spec (n + 1) n (by omega)

/-- Admissible first characters of the unconsumed suffix in the
round-trip lemmas: the characters that can follow a rendered value in
the serializers' output (or the end of input). -/
def headOkR : List Char → Bool
  | [] => true
  | c :: _ => c = ',' || c = '\n' || c = ']' || c = '\x7d'

theorem headOkR_cases (s : List Char) (h : headOkR s = true) :
    s = [] ∨ ∃ t, s = ',' :: t ∨ s = '\n' :: t ∨ s = ']' :: t ∨ s = '\x7d' :: t := by
  cases s with
  | nil => exact Or.inl rfl
  | cons c t =>
    right
    refine ⟨t, ?_⟩
    have h' : c = ',' ∨ c = '\n' ∨ c = ']' ∨ c = '\x7d' := by
      simpa [headOkR, or_assoc] using h
    rcases h' with h0 | h0 | h0 | h0 <;> subst h0 <;> tauto

theorem headOkR_no_digit (s : List Char) (h : headOkR s = true) :
    ∀ c t, s = c :: t → isDigit c = false := by
  intro c t hct
  rcases headOkR_cases s h with h0 | ⟨u, h0 | h0 | h0 | h0⟩ <;> rw [h0] at hct <;>
    cases hct <;> decide

theorem parseNum_render (n : Int) (s : List Char)
    (hs : ∀ c t, s = c :: t → isDigit c = false) :
    parseNumberP (numChars n ++ s) = .ok (n, s) := by
  by_cases hn : n < 0
  · obtain ⟨hne, hall, hval⟩ := natChars_spec n.natAbs
    have htw := tw_append isDigit (natChars n.natAbs) s hall hs
    simp only [numChars, if_pos hn, List.cons_append]
    rw [parseNumberP,
      if_pos (show headIs ('-' :: (natChars n.natAbs ++ s)) '-' = true from rfl)]
    simp only [List.drop_succ_cons, List.drop_zero]
    rw [htw.1, if_neg hne, htw.2, hval]
    have hcast : -((n.natAbs : Nat) : Int) = n := by omega
    rw [hcast]
  · obtain ⟨hne, hall, hval⟩ := natChars_spec n.natAbs
    have htw := tw_append isDigit (natChars n.natAbs) s hall hs
    obtain ⟨c, t, hct⟩ := List.exists_cons_of_ne_nil hne
    have hcd : isDigit c = true := by
      have h2 := hall
      rw [hct] at h2
      simp only [List.all_cons, Bool.and_eq_true] at h2
      exact h2.1
    have hcm : c ≠ '-' := isDigit_ne c '-' hcd (by decide)
    have hhead : headIs (natChars n.natAbs ++ s) '-' = false := by
      rw [hct]
      simp only [List.cons_append, headIs, decide_eq_false_iff_not]
      exact hcm
    simp only [numChars, if_neg hn]
    rw [parseNumberP, if_neg (by rw [hhead]; simp)]
    rw [htw.1, if_neg hne, htw.2, hval]
    have hcast : ((n.natAbs : Nat) : Int) = n := by omega
    rw [hcast]

theorem strLoop_esc_step (c : Char) (rest acc : List Char) :
    parseStrLoop '"' (escChar c ++ rest) false acc =
      parseStrLoop '"' rest false (acc ++ [c]) := by
  by_cases h1 : c = '\\'
  · subst h1
    simp [escChar, parseStrLoop, escDecode]
  · by_cases h2 : c = '"'
    · subst h2
      simp [escChar, parseStrLoop, escDecode]
    · by_cases h3 : c = '\n'
      · subst h3
        simp [escChar, parseStrLoop, escDecode]
      · by_cases h4 : c = '\r'
        · subst h4
          simp [escChar, parseStrLoop, escDecode]
        · by_cases h5 : c = '\t'
          · subst h5
            simp [escChar, parseStrLoop, escDecode]
          · simp only [escChar, if_neg h1, if_neg h2, if_neg h3, if_neg h4, if_neg h5,
              List.singleton_append]
            rw [parseStrLoop]
            simp [h1, h2]

theorem esc_rt (l : List Char) : ∀ (rest acc : List Char),
    parseStrLoop '"' (escapeChars l ++ '"' :: rest) false acc =
      .ok (String.mk (acc ++ l), rest) := by
  induction l with
  | nil =>
    intro rest acc
    simp [escapeChars, parseStrLoop]
  | cons c t ih =>
    intro rest acc
    simp only [escapeChars, List.append_assoc]
    rw [strLoop_esc_step, ih rest (acc ++ [c])]
    simp

/-- A character list that ends in a non-whitespace character. -/
def endsOk (X : List Char) : Prop :=
  ∃ a c, X = a ++ [c] ∧ isWs c = false

theorem endsOk_rt (X : List Char) (h : endsOk X) : rtrim X = X := by
  obtain ⟨a, c, hx, hc⟩ := h
  subst hx
  exact rt_append a [c] (by simp) (rt_cons c [] hc rtrim_nil)

theorem endsOk_append (X Y : List Char) (h : endsOk Y) : endsOk (X ++ Y) := by
  obtain ⟨a, c, hy, hc⟩ := h
  exact ⟨X ++ a, c, by rw [hy, List.append_assoc], hc⟩

theorem endsOk_cons (c : Char) (X : List Char) (h : endsOk X) : endsOk (c :: X) := by
  have := endsOk_append [c] X h
  simpa using this

theorem endsOk_single (c : Char) (hc : isWs c = false) : endsOk [c] :=
  ⟨[], c, rfl, hc⟩

theorem rt_concat (X s : List Char) (hX : endsOk X) (hs : rtrim s = s) :
    rtrim (X ++ s) = X ++ s := by
  cases s with
  | nil => rw [List.append_nil]; exact endsOk_rt X hX
  | cons c t => exact rt_append X (c :: t) (by simp) hs

theorem numChars_head (n : Int) :
    ∃ c r, numChars n = c :: r ∧ isWs c = false := by
  by_cases hn : n < 0
  · exact ⟨'-', natChars n.natAbs, by simp [numChars, hn], by decide⟩
  · obtain ⟨hne, hall, _⟩ := natChars_spec n.natAbs
    obtain ⟨c, t, hct⟩ := List.exists_cons_of_ne_nil hne
    have hcd : isDigit c = true := by
      rw [hct] at hall
      simp only [List.all_cons, Bool.and_eq_true] at hall
      exact hall.1
    exact ⟨c, t, by simp [numChars, hn, hct], isDigit_not_ws c hcd⟩

theorem natChars_last (n : Nat) :
    ∃ a d, natChars n = a ++ [d] ∧ isDigit d = true := by
  rw [natChars, natCharsAux]
  by_cases h10 : n < 10
  · rw [if_pos h10]
    exact ⟨[], digitChar n, rfl, (digitChar_lt n h10).1⟩
  · rw [if_neg h10]
    exact ⟨natCharsAux (n + 1 - 1) (n / 10), digitChar (n % 10), rfl,
      (digitChar_lt (n % 10) (Nat.mod_lt n (by omega))).1⟩

theorem numChars_endsOk (n : Int) : endsOk (numChars n) := by
  obtain ⟨a, d, hnd, hd⟩ := natChars_last n.natAbs
  by_cases hn : n < 0
  · refine ⟨'-' :: a, d, ?_, isDigit_not_ws d hd⟩
    simp [numChars, hn, hnd]
  · exact ⟨a, d, by simp [numChars, hn, hnd], isDigit_not_ws d hd⟩

theorem strLit_endsOk (s : String) : endsOk (strLit s) := by
  refine ⟨'"' :: escapeChars s.data, '"', ?_, by decide⟩
  simp [strLit]

theorem keyRender_head (k : String) :
    ∃ c r, keyRender k = c :: r ∧ isWs c = false ∧ (c = '\x7d') = False ∧
      (c = ']') = False := by
  rw [keyRender]
  by_cases hid : isIdent k.data
  · rw [if_pos hid]
    rcases hk : k.data with _ | ⟨c, t⟩
    · rw [hk] at hid; exact absurd hid (by decide)
    · have hcs : identStart c = true := by
        rw [hk] at hid
        simp only [isIdent, Bool.and_eq_true] at hid
        exact hid.1
      exact ⟨c, t, rfl, identStart_not_ws c hcs,
        by simp [identStart_ne c '\x7d' hcs (by decide)],
        by simp [identStart_ne c ']' hcs (by decide)]⟩
  · rw [if_neg hid]
    exact ⟨'"', escapeChars k.data ++ ['"'], rfl, by decide, by decide, by decide⟩

theorem keyRender_endsOk (k : String) : endsOk (keyRender k) := by
  rw [keyRender]
  by_cases hid : isIdent k.data
  · rw [if_pos hid]
    rcases hk : k.data.reverse with _ | ⟨c, t⟩
    · have : k.data = [] := by simpa using congrArg List.reverse hk
      rw [this] at hid; exact absurd hid (by decide)
    · have hkd : k.data = t.reverse ++ [c] := by
        have := congrArg List.reverse hk
        simpa using this
      have hic : identChar c = true := by
        have hall : k.data.all identChar = true := by
          rcases hk2 : k.data with _ | ⟨x, u⟩
          · rw [hk2] at hid; exact absurd hid (by decide)
          · rw [hk2] at hid
            simp only [isIdent, Bool.and_eq_true] at hid
            simp only [List.all_cons, Bool.and_eq_true]
            exact ⟨by simp [identChar, hid.1], hid.2⟩
        rw [hkd] at hall
        simp only [List.all_append, List.all_cons, Bool.and_eq_true] at hall
        exact hall.2.1
      exact ⟨t.reverse, c, hkd, identChar_not_ws c hic⟩
  · rw [if_neg hid]
    exact strLit_endsOk k

@[simp] theorem data_lbn : "[\n".data = ['[', '\n'] := rfl
@[simp] theorem data_rb : "]".data = [']'] := rfl
@[simp] theorem data_lbrb : "[]".data = ['[', ']'] := rfl
@[simp] theorem data_obn : "\x7b\n".data = ['\x7b', '\n'] := rfl
@[simp] theorem data_obcb : "\x7b\x7d".data = ['\x7b', '\x7d'] := rfl
@[simp] theorem data_commanl : ",\n".data = [',', '\n'] := rfl
@[simp] theorem data_colonsp : ": ".data = [':', ' '] := rfl
@[simp] theorem data_commasp : ", ".data = [',', ' '] := rfl
@[simp] theorem data_obsp : "\x7b ".data = ['\x7b', ' '] := rfl
@[simp] theorem data_spcb : " \x7d".data = [' ', '\x7d'] := rfl
@[simp] theorem data_obscb : "\x7b  \x7d".data = ['\x7b', ' ', ' ', '\x7d'] := rfl
@[simp] theorem data_null : "null".data = ['n', 'u', 'l', 'l'] := rfl
@[simp] theorem data_true : "true".data = ['t', 'r', 'u', 'e'] := rfl
@[simp] theorem data_false : "false".data = ['f', 'a', 'l', 's', 'e'] := rfl

theorem numChars_head2 (n : Int) :
    ∃ c r, numChars n = c :: r ∧ (c = '-' ∨ isDigit c = true) := by
  by_cases hn : n < 0
  · exact ⟨'-', natChars n.natAbs, by simp [numChars, hn], Or.inl rfl⟩
  · obtain ⟨hne, hall, _⟩ := natChars_spec n.natAbs
    obtain ⟨c, t, hct⟩ := List.exists_cons_of_ne_nil hne
    have hcd : isDigit c = true := by
      rw [hct] at hall
      simp only [List.all_cons, Bool.and_eq_true] at hall
      exact hall.1
    exact ⟨c, t, by simp [numChars, hn, hct], Or.inr hcd⟩

theorem toJson_head (V : Value) (i : Nat) :
    ∃ c r, toJsonChars V i = c :: r ∧ isWs c = false ∧ (c = ']') = False ∧
      (c = '\x7d') = False := by
  cases V with
  | null => exact ⟨'n', ['u', 'l', 'l'], by simp [toJsonChars], by decide, by decide, by decide⟩
  | bool b =>
    cases b
    · exact ⟨'f', ['a', 'l', 's', 'e'], by simp [toJsonChars], by decide, by decide, by decide⟩
    · exact ⟨'t', ['r', 'u', 'e'], by simp [toJsonChars], by decide, by decide, by decide⟩
  | num n =>
    obtain ⟨c, r, h, hc⟩ := numChars_head2 n
    refine ⟨c, r, by simp [toJsonChars, h], ?_, ?_, ?_⟩
    · rcases hc with hc | hc
      · subst hc; decide
      · exact isDigit_not_ws c hc
    · rcases hc with hc | hc
      · subst hc; decide
      · simp [isDigit_ne c ']' hc (by decide)]
    · rcases hc with hc | hc
      · subst hc; decide
      · simp [isDigit_ne c '\x7d' hc (by decide)]
  | str s =>
    exact ⟨'"', escapeChars s.data ++ ['"'], by simp [toJsonChars, strLit],
      by decide, by decide, by decide⟩
  | arr l =>
    cases l with
    | nil => exact ⟨'[', [']'], by simp [toJsonChars], by decide, by decide, by decide⟩
    | cons v t =>
      exact ⟨'[', '\n' :: (joinSep [',', '\n'] (jsonItems (v :: t) (i + 1)) ++
        '\n' :: (indentChars i ++ [']'])), by simp [toJsonChars],
        by decide, by decide, by decide⟩
  | obj l =>
    cases l with
    | nil => exact ⟨'\x7b', ['\x7d'], by simp [toJsonChars], by decide, by decide, by decide⟩
    | cons p t =>
      exact ⟨'\x7b', '\n' :: (joinSep [',', '\n'] (jsonPairs (p :: t) (i + 1)) ++
        '\n' :: (indentChars i ++ ['\x7d'])), by simp [toJsonChars],
        by decide, by decide, by decide⟩

theorem toJson_endsOk (V : Value) (i : Nat) : endsOk (toJsonChars V i) := by
  have hrb : endsOk [']'] := endsOk_single ']' (by decide)
  have hcb : endsOk ['\x7d'] := endsOk_single '\x7d' (by decide)
  cases V with
  | null => exact ⟨['n', 'u', 'l'], 'l', by simp [toJsonChars], by decide⟩
  | bool b =>
    cases b
    · exact ⟨['f', 'a', 'l', 's'], 'e', by simp [toJsonChars], by decide⟩
    · exact ⟨['t', 'r', 'u'], 'e', by simp [toJsonChars], by decide⟩
  | num n =>
    have := numChars_endsOk n
    obtain ⟨a, c, h, hc⟩ := this
    exact ⟨a, c, by simp [toJsonChars, h], hc⟩
  | str s =>
    obtain ⟨a, c, h, hc⟩ := strLit_endsOk s
    exact ⟨a, c, by simp [toJsonChars, h], hc⟩
  | arr l =>
    cases l with
    | nil => exact ⟨['['], ']', by simp [toJsonChars], by decide⟩
    | cons v t =>
      have h1 : toJsonChars (.arr (v :: t)) i =
          ['[', '\n'] ++ (joinSep [',', '\n'] (jsonItems (v :: t) (i + 1)) ++
            '\n' :: (indentChars i ++ [']'])) := by
        simp [toJsonChars]
      rw [h1]
      exact endsOk_append _ _ (endsOk_append _ _ (endsOk_cons _ _
        (endsOk_append _ _ hrb)))
  | obj l =>
    cases l with
    | nil => exact ⟨['\x7b'], '\x7d', by simp [toJsonChars], by decide⟩
    | cons p t =>
      have h1 : toJsonChars (.obj (p :: t)) i =
          ['\x7b', '\n'] ++ (joinSep [',', '\n'] (jsonPairs (p :: t) (i + 1)) ++
            '\n' :: (indentChars i ++ ['\x7d'])) := by
        simp [toJsonChars]
      rw [h1]
      exact endsOk_append _ _ (endsOk_append _ _ (endsOk_cons _ _
        (endsOk_append _ _ hcb)))

/-- Text of the rendered entries of a `toJson` object from the current
key position to just past the closing brace, followed by the suffix
`s` (the loop-position view of the rendered object body). -/
def objTailR : List (String × Value) → Nat → List Char → List Char
  | [], i, s => '\n' :: indentChars i ++ '\x7d' :: s
  | [(k, v)], i, s =>
    keyRender k ++ ':' :: ' ' :: toJsonChars v (i + 1) ++
      '\n' :: indentChars i ++ '\x7d' :: s
  | (k, v) :: q :: t, i, s =>
    keyRender k ++ ':' :: ' ' :: toJsonChars v (i + 1) ++
      ',' :: '\n' :: indentChars (i + 1) ++ objTailR (q :: t) i s

/-- Text following an entry's rendered value inside a `toJson`
object. -/
def objValSep : List (String × Value) → Nat → List Char → List Char
  | [], i, s => '\n' :: indentChars i ++ '\x7d' :: s
  | q :: t, i, s => ',' :: '\n' :: indentChars (i + 1) ++ objTailR (q :: t) i s

theorem objTailR_cons (k : String) (v : Value) (t : List (String × Value))
    (i : Nat) (s : List Char) :
    objTailR ((k, v) :: t) i s =
      keyRender k ++ ':' :: ' ' :: toJsonChars v (i + 1) ++ objValSep t i s := by
  cases t <;> simp [objTailR, objValSep]

/-- Text of the rendered elements of a `toJson` array from the current
element position to just past the closing bracket, followed by the
suffix `s`. -/
def arrTailR : List Value → Nat → List Char → List Char
  | [], i, s => '\n' :: indentChars i ++ ']' :: s
  | [v], i, s =>
    toJsonChars v (i + 1) ++ '\n' :: indentChars i ++ ']' :: s
  | v :: w :: t, i, s =>
    toJsonChars v (i + 1) ++ ',' :: '\n' :: indentChars (i + 1) ++ arrTailR (w :: t) i s

/-- Text following an element's rendered value inside a `toJson`
array. -/
def arrValSep : List Value → Nat → List Char → List Char
  | [], i, s => '\n' :: indentChars i ++ ']' :: s
  | w :: t, i, s => ',' :: '\n' :: indentChars (i + 1) ++ arrTailR (w :: t) i s

theorem arrTailR_cons (v : Value) (t : List Value) (i : Nat) (s : List Char) :
    arrTailR (v :: t) i s = toJsonChars v (i + 1) ++ arrValSep t i s := by
  cases t <;> simp [arrTailR, arrValSep]

theorem objTailR_ends (l : List (String × Value)) (i : Nat) (s : List Char) :
    ∃ a, objTailR l i s = a ++ '\x7d' :: s := by
  induction l with
  | nil => exact ⟨'\n' :: indentChars i, rfl⟩
  | cons p t ih =>
    obtain ⟨k, v⟩ := p
    cases t with
    | nil =>
      exact ⟨keyRender k ++ ':' :: ' ' :: toJsonChars v (i + 1) ++
        '\n' :: indentChars i, by simp [objTailR, List.append_assoc]⟩
    | cons q u =>
      obtain ⟨a, ha⟩ := ih
      refine ⟨keyRender k ++ ':' :: ' ' :: toJsonChars v (i + 1) ++
        ',' :: '\n' :: indentChars (i + 1) ++ a, ?_⟩
      simp [objTailR, ha, List.append_assoc]

theorem arrTailR_ends (l : List Value) (i : Nat) (s : List Char) :
    ∃ a, arrTailR l i s = a ++ ']' :: s := by
  induction l with
  | nil => exact ⟨'\n' :: indentChars i, rfl⟩
  | cons v t ih =>
    cases t with
    | nil =>
      exact ⟨toJsonChars v (i + 1) ++ '\n' :: indentChars i,
        by simp [arrTailR, List.append_assoc]⟩
    | cons w u =>
      obtain ⟨a, ha⟩ := ih
      refine ⟨toJsonChars v (i + 1) ++ ',' :: '\n' :: indentChars (i + 1) ++ a, ?_⟩
      simp [arrTailR, ha, List.append_assoc]

theorem joinSep_two (sep x y : List Char) (t : List (List Char)) :
    joinSep sep (x :: y :: t) = x ++ sep ++ joinSep sep (y :: t) := by
  simp [joinSep]

theorem joinSep_cons_ne (sep x : List Char) (L : List (List Char)) (h : L ≠ []) :
    joinSep sep (x :: L) = x ++ sep ++ joinSep sep L := by
  cases L with
  | nil => exact absurd rfl h
  | cons y t => exact joinSep_two sep x y t

theorem jsonPairs_ne (q : String × Value) (u : List (String × Value)) (i : Nat) :
    jsonPairs (q :: u) i ≠ [] := by
  obtain ⟨k, v⟩ := q
  simp [jsonPairs]

theorem jsonItems_ne (w : Value) (u : List Value) (i : Nat) :
    jsonItems (w :: u) i ≠ [] := by
  simp [jsonItems]

theorem joinSep_one (sep x : List Char) : joinSep sep [x] = x := by
  simp [joinSep]

theorem bridge_obj (p : String × Value) (t : List (String × Value)) (i : Nat)
    (s : List Char) :
    toJsonChars (.obj (p :: t)) i ++ s =
      '\x7b' :: '\n' :: indentChars (i + 1) ++ objTailR (p :: t) i s := by
  have aux : ∀ (t : List (String × Value)) (p : String × Value),
      joinSep [',', '\n'] (jsonPairs (p :: t) (i + 1)) ++
        '\n' :: indentChars i ++ '\x7d' :: s =
      indentChars (i + 1) ++ objTailR (p :: t) i s := by
    intro t
    induction t with
    | nil =>
      intro p
      obtain ⟨k, v⟩ := p
      simp [jsonPairs, joinSep, objTailR, List.append_assoc]
    | cons q u ih =>
      intro p
      obtain ⟨k, v⟩ := p
      have h1 : jsonPairs ((k, v) :: q :: u) (i + 1) =
          (indentChars (i + 1) ++ keyRender k ++ [':', ' '] ++
            toJsonChars v (i + 1)) :: jsonPairs (q :: u) (i + 1) := by
        simp [jsonPairs]
      rw [h1, joinSep_cons_ne _ _ _ (jsonPairs_ne q u (i + 1))]
      have h2 : objTailR ((k, v) :: q :: u) i s =
          keyRender k ++ ':' :: ' ' :: toJsonChars v (i + 1) ++
            ',' :: '\n' :: indentChars (i + 1) ++ objTailR (q :: u) i s := rfl
      rw [h2]
      have h3 := ih q
      simp only [List.append_assoc, List.cons_append] at h3 ⊢
      rw [h3]
      simp
  have h0 : toJsonChars (.obj (p :: t)) i =
      ['\x7b', '\n'] ++ (joinSep [',', '\n'] (jsonPairs (p :: t) (i + 1)) ++
        '\n' :: indentChars i ++ ['\x7d']) := by
    simp [toJsonChars, List.append_assoc]
  rw [h0]
  have h4 := aux t p
  simp only [List.append_assoc, List.cons_append, List.nil_append] at h4 ⊢
  rw [h4]

theorem bridge_arr (v : Value) (t : List Value) (i : Nat) (s : List Char) :
    toJsonChars (.arr (v :: t)) i ++ s =
      '[' :: '\n' :: indentChars (i + 1) ++ arrTailR (v :: t) i s := by
  have aux : ∀ (t : List Value) (v : Value),
      joinSep [',', '\n'] (jsonItems (v :: t) (i + 1)) ++
        '\n' :: indentChars i ++ ']' :: s =
      indentChars (i + 1) ++ arrTailR (v :: t) i s := by
    intro t
    induction t with
    | nil =>
      intro v
      simp [jsonItems, joinSep, arrTailR, List.append_assoc]
    | cons w u ih =>
      intro v
      have h1 : jsonItems (v :: w :: u) (i + 1) =
          (indentChars (i + 1) ++ toJsonChars v (i + 1)) :: jsonItems (w :: u) (i + 1) := by
        simp [jsonItems]
      rw [h1, joinSep_cons_ne _ _ _ (jsonItems_ne w u (i + 1))]
      have h2 : arrTailR (v :: w :: u) i s =
          toJsonChars v (i + 1) ++
            ',' :: '\n' :: indentChars (i + 1) ++ arrTailR (w :: u) i s := rfl
      rw [h2]
      have h3 := ih w
      simp only [List.append_assoc, List.cons_append] at h3 ⊢
      rw [h3]
      simp
  have h0 : toJsonChars (.arr (v :: t)) i =
      ['[', '\n'] ++ (joinSep [',', '\n'] (jsonItems (v :: t) (i + 1)) ++
        '\n' :: indentChars i ++ [']']) := by
    simp [toJsonChars, List.append_assoc]
  rw [h0]
  have h4 := aux t v
  simp only [List.append_assoc, List.cons_append, List.nil_append] at h4 ⊢
  rw [h4]

theorem startsL_append (p s : List Char) : startsL p (p ++ s) = true := by
  induction p with
  | nil => rfl
  | cons c t ih => simp [startsL, ih]

theorem extractIdent_render (k : String) (hid : isIdent k.data = true)
    (r : List Char) : extractIdentKey (k.data ++ ':' :: r) = some (k, r) := by
  rcases hk : k.data with _ | ⟨c, t⟩
  · rw [hk] at hid; exact absurd hid (by decide)
  · have h := hid
    rw [hk] at h
    simp only [isIdent, Bool.and_eq_true] at h
    have htw := tw_append identChar t (':' :: r) h.2
      (by intro c' t' he; cases he; decide)
    rw [List.cons_append]
    simp only [extractIdentKey, if_pos h.1, htw.1, htw.2]
    have hdw : List.dropWhile isWs (':' :: r) = ':' :: r := by
      rw [List.dropWhile_cons, if_neg (by decide)]
    rw [hdw]
    have hmk : String.mk (c :: t) = k := by rw [← hk]
    simp [hmk]

theorem esc_of_ident (l : List Char) (h : l.all identChar = true) :
    escapeChars l = l := by
  induction l with
  | nil => rfl
  | cons c t ih =>
    simp only [List.all_cons, Bool.and_eq_true] at h
    have hc : escChar c = [c] := by
      rw [escChar, if_neg (identChar_ne c '\\' h.1 (by decide)),
        if_neg (identChar_ne c '"' h.1 (by decide)),
        if_neg (identChar_ne c '\n' h.1 (by decide)),
        if_neg (identChar_ne c '\r' h.1 (by decide)),
        if_neg (identChar_ne c '\t' h.1 (by decide))]
    simp [escapeChars, hc, ih h.2]

theorem setKey_append (l : List (String × Value)) (k : String) (v : Value)
    (h : ∀ p ∈ l, p.1 ≠ k) : setKey l k v = l ++ [(k, v)] := by
  induction l with
  | nil => rfl
  | cons p t ih =>
    obtain ⟨k', v'⟩ := p
    have hk' : k' ≠ k := h (k', v') (by simp)
    simp only [setKey, if_neg hk', List.cons_append, List.cons.injEq, true_and]
    exact ih (fun q hq => h q (by simp [hq]))

theorem nodup_mid (acc : List (String × Value)) (k : String) (v : Value)
    (rest : List (String × Value))
    (h : nodupKeys (acc ++ (k, v) :: rest) = true) : ∀ p ∈ acc, p.1 ≠ k := by
  induction acc with
  | nil => intro p hp; cases hp
  | cons q t ih =>
    obtain ⟨k0, v0⟩ := q
    simp only [List.cons_append, nodupKeys, Bool.and_eq_true] at h
    intro p hp
    rcases List.mem_cons.mp hp with hp | hp
    · subst hp
      have hmem : ((k, v) : String × Value) ∈ t ++ (k, v) :: rest := by simp
      have := List.all_eq_true.mp h.1 (k, v) hmem
      simp only [Bool.not_eq_eq_eq_not, Bool.not_true, beq_eq_false_iff_ne] at this
      simp only [ne_eq] at this
      exact fun he => this he.symm
    · exact ih h.2 p hp

theorem objValSep_ends (t : List (String × Value)) (i : Nat) (s : List Char) :
    ∃ a, objValSep t i s = a ++ '\x7d' :: s := by
  cases t with
  | nil => exact ⟨'\n' :: indentChars i, rfl⟩
  | cons q u =>
    obtain ⟨a, ha⟩ := objTailR_ends (q :: u) i s
    exact ⟨',' :: '\n' :: indentChars (i + 1) ++ a,
      by simp [objValSep, ha, List.append_assoc]⟩

theorem arrValSep_ends (t : List Value) (i : Nat) (s : List Char) :
    ∃ a, arrValSep t i s = a ++ ']' :: s := by
  cases t with
  | nil => exact ⟨'\n' :: indentChars i, rfl⟩
  | cons w u =>
    obtain ⟨a, ha⟩ := arrTailR_ends (w :: u) i s
    exact ⟨',' :: '\n' :: indentChars (i + 1) ++ a,
      by simp [arrValSep, ha, List.append_assoc]⟩

theorem objValSep_headOk (t : List (String × Value)) (i : Nat) (s : List Char) :
    headOkR (objValSep t i s) = true := by
  cases t <;> simp [objValSep, headOkR]

theorem arrValSep_headOk (t : List Value) (i : Nat) (s : List Char) :
    headOkR (arrValSep t i s) = true := by
  cases t <;> simp [arrValSep, headOkR]

theorem numStart_render (n : Int) (s : List Char) :
    numStart (numChars n ++ s) = true := by
  by_cases hn : n < 0
  · obtain ⟨hne, hall, _⟩ := natChars_spec n.natAbs
    obtain ⟨c, t, hct⟩ := List.exists_cons_of_ne_nil hne
    have hcd : isDigit c = true := by
      rw [hct] at hall
      simp only [List.all_cons, Bool.and_eq_true] at hall
      exact hall.1
    rw [show numChars n = '-' :: natChars n.natAbs by simp [numChars, hn], hct]
    simp [numStart, hcd]
  · obtain ⟨c, r, hcr, hc⟩ := numChars_head2 n
    rcases hc with hc | hc
    · exfalso
      simp only [numChars, if_neg hn] at hcr
      obtain ⟨_, hall, _⟩ := natChars_spec n.natAbs
      rw [hcr] at hall
      simp only [List.all_cons, Bool.and_eq_true] at hall
      rw [hc] at hall
      exact absurd hall.1 (by decide)
    · rw [hcr, List.cons_append]
      simp [numStart, isDigit_ne c '-' hc (by decide), hc]

theorem trimJS_nl_ind (m : Nat) (X : List Char) (c : Char) (r : List Char)
    (hX : X = c :: r) (hc : isWs c = false) (hrt : rtrim X = X) :
    trimJS ('\n' :: (indentChars m ++ X)) = X := by
  rw [trimJS_cons_ws '\n' _ (by decide), trimJS_indent, hX]
  exact trimJS_eq_self c r hc (hX ▸ hrt)

/-- Round-trip statement for `parseValueF` on `toJson` output. -/
def StmtA (fuel : Nat) : Prop :=
  ∀ V i s, wfV V = true → rtrim s = s → headOkR s = true →
    (toJsonChars V i).length + s.length + 1 ≤ fuel →
    parseValueF fuel (toJsonChars V i ++ s) = .ok ⟨V, s⟩

/-- Round-trip statement for the object-entry loop on `toJson` output. -/
def StmtB (fuel : Nat) : Prop :=
  ∀ (l : List (String × Value)) acc i s, l ≠ [] → wfP l = true →
    nodupKeys (acc ++ l) = true → rtrim s = s → headOkR s = true →
    (objTailR l i s).length + 1 ≤ fuel →
    parseObjectLoopF fuel (objTailR l i s) acc = .ok ⟨.obj (acc ++ l), s⟩

/-- Round-trip statement for the entry tail (value and delimiter) on
`toJson` output. -/
def StmtT (fuel : Nat) : Prop :=
  ∀ (k : String) v (t : List (String × Value)) acc i s, wfV v = true →
    wfP t = true → nodupKeys (acc ++ (k, v) :: t) = true → rtrim s = s →
    headOkR s = true →
    (toJsonChars v (i + 1)).length + (objValSep t i s).length + 2 ≤ fuel →
    parseEntryTailF fuel (toJsonChars v (i + 1) ++ objValSep t i s) acc k =
      .ok ⟨.obj (acc ++ (k, v) :: t), s⟩

/-- Round-trip statement for the array-element loop on `toJson`
output. -/
def StmtC (fuel : Nat) : Prop :=
  ∀ (l : List Value) acc i s, l ≠ [] → wfL l = true → rtrim s = s →
    headOkR s = true → (arrTailR l i s).length + 2 ≤ fuel →
    parseArrayLoopF fuel (arrTailR l i s) acc = .ok ⟨.arr (acc ++ l), s⟩

theorem stepA (fuel : Nat) (ihB : ∀ g, g < fuel → StmtB g)
    (ihC : ∀ g, g < fuel → StmtC g) : StmtA fuel := by
  intro V i s hwf hrt hok hfl
  cases fuel with
  | zero => omega
  | succ f =>
  have hrt2 : rtrim (toJsonChars V i ++ s) = toJsonChars V i ++ s :=
    rt_concat _ s (toJson_endsOk V i) hrt
  cases V with
  | null =>
    have htext : toJsonChars .null i ++ s = 'n' :: 'u' :: 'l' :: 'l' :: s := by
      simp [toJsonChars]
    rw [htext] at hrt2 ⊢
    have htr := trimJS_eq_self 'n' ('u' :: 'l' :: 'l' :: s) (by decide) hrt2
    simp only [parseValueF]
    rw [htr]
    simp [headIs, numStart, startsL, parseStringP, List.drop,
      show isDigit 'n' = false from by decide]
  | bool b =>
    cases b with
    | false =>
      have htext : toJsonChars (.bool false) i ++ s =
          'f' :: 'a' :: 'l' :: 's' :: 'e' :: s := by
        simp [toJsonChars]
      rw [htext] at hrt2 ⊢
      have htr := trimJS_eq_self 'f' _ (by decide) hrt2
      simp only [parseValueF]
      rw [htr]
      simp [headIs, numStart, startsL, parseStringP, List.drop,
        show isDigit 'f' = false from by decide]
    | true =>
      have htext : toJsonChars (.bool true) i ++ s =
          't' :: 'r' :: 'u' :: 'e' :: s := by
        simp [toJsonChars]
      rw [htext] at hrt2 ⊢
      have htr := trimJS_eq_self 't' _ (by decide) hrt2
      simp only [parseValueF]
      rw [htr]
      simp [headIs, numStart, startsL, parseStringP, List.drop,
        show isDigit 't' = false from by decide]
  | num n =>
    obtain ⟨c, r, hcr, hon⟩ := numChars_head2 n
    have hcws : isWs c = false := by
      rcases hon with h | h
      · subst h; decide
      · exact isDigit_not_ws c h
    have hne : ∀ d : Char, isDigit d = false → d ≠ '-' → c ≠ d := by
      intro d hd1 hd2 he
      rcases hon with h | h
      · apply hd2; rw [← he]; exact h
      · subst he; rw [h] at hd1; cases hd1
    have htext : toJsonChars (.num n) i ++ s = c :: (r ++ s) := by
      simp [toJsonChars, hcr]
    have hnum := parseNum_render n s (headOkR_no_digit s hok)
    have hns := numStart_render n s
    have htext2 : numChars n ++ s = c :: (r ++ s) := by simp [hcr]
    rw [htext2] at hnum hns
    rw [htext] at hrt2 ⊢
    have htr := trimJS_eq_self c (r ++ s) hcws hrt2
    simp only [parseValueF]
    rw [htr]
    rw [if_neg (by simp [headIs, hne '\x7b' (by decide) (by decide)])]
    rw [if_neg (by simp [headIs, hne '[' (by decide) (by decide)])]
    rw [if_neg (by
      simp [headIs, hne '"' (by decide) (by decide), hne '\'' (by decide) (by decide)])]
    rw [if_pos hns, hnum]
  | str s0 =>
    have htext : toJsonChars (.str s0) i ++ s =
        '"' :: (escapeChars s0.data ++ '"' :: s) := by
      simp [toJsonChars, strLit]
    rw [htext] at hrt2 ⊢
    have htr := trimJS_eq_self '"' _ (by decide) hrt2
    simp only [parseValueF]
    rw [htr]
    rw [if_neg (by simp [headIs]), if_neg (by simp [headIs]),
      if_pos (by simp [headIs])]
    simp only [parseStringP, parseStringRaw]
    rw [esc_rt]
    simp [mk_data]
  | arr l =>
    cases l with
    | nil =>
      have htext : toJsonChars (.arr []) i ++ s = '[' :: ']' :: s := by
        simp [toJsonChars]
      rw [htext] at hrt2 ⊢
      have htr := trimJS_eq_self '[' _ (by decide) hrt2
      have hlen2 : (toJsonChars (Value.arr []) i).length = 2 := by
        simp [toJsonChars]
      cases f with
      | zero => omega
      | succ f2 =>
      simp only [parseValueF]
      rw [htr]
      rw [if_neg (by simp [headIs]), if_pos (by simp [headIs])]
      simp only [parseArrayF]
      rw [if_pos (by simp [headIs])]
      have hdrop : ('[' :: ']' :: s).drop 1 = ']' :: s := rfl
      rw [hdrop]
      have hrt3 : rtrim (']' :: s) = ']' :: s := rt_cons ']' s (by decide) hrt
      rw [trimJS_eq_self ']' s (by decide) hrt3]
      rw [if_pos (by simp [headIs])]
      simp [List.drop]
    | cons v t =>
      have hbr := bridge_arr v t i s
      have hlen := congrArg List.length hbr
      simp only [List.length_append, List.length_cons, indentChars,
        List.length_replicate] at hlen
      obtain ⟨ha, hends⟩ := arrTailR_ends (v :: t) i s
      have hrta : rtrim (arrTailR (v :: t) i s) = arrTailR (v :: t) i s := by
        rw [hends]
        exact rt_append ha _ (by simp) (rt_cons ']' s (by decide) hrt)
      obtain ⟨c, r, hcr, hcws, hcrb, hccb⟩ := toJson_head v (i + 1)
      have hhead : arrTailR (v :: t) i s = c :: (r ++ arrValSep t i s) := by
        rw [arrTailR_cons, hcr, List.cons_append]
      cases f with
      | zero => omega
      | succ f2 =>
      rw [hbr] at hrt2 ⊢
      simp only [List.cons_append] at hrt2 ⊢
      have htr := trimJS_eq_self '[' _ (by decide) hrt2
      simp only [parseValueF]
      rw [htr]
      rw [if_neg (by simp [headIs]), if_pos (by simp [headIs])]
      simp only [parseArrayF]
      rw [if_pos (by simp [headIs])]
      have hdrop : ('[' :: '\n' :: (indentChars (i + 1) ++ arrTailR (v :: t) i s)).drop 1 =
          '\n' :: (indentChars (i + 1) ++ arrTailR (v :: t) i s) := rfl
      rw [hdrop, trimJS_nl_ind (i + 1) _ c (r ++ arrValSep t i s) hhead hcws hrta]
      rw [if_neg (by rw [hhead]; simp [headIs, hcrb])]
      have hwfl : wfL (v :: t) = true := by
        simp only [wfV] at hwf
        exact hwf
      have := ihC f2 (by omega) (v :: t) [] i s (by simp) hwfl hrt hok (by omega)
      rw [this]
      simp
  | obj l =>
    cases l with
    | nil =>
      have htext : toJsonChars (.obj []) i ++ s = '\x7b' :: '\x7d' :: s := by
        simp [toJsonChars]
      rw [htext] at hrt2 ⊢
      have htr := trimJS_eq_self '\x7b' _ (by decide) hrt2
      have hlen2 : (toJsonChars (Value.obj []) i).length = 2 := by
        simp [toJsonChars]
      cases f with
      | zero => omega
      | succ f2 =>
      simp only [parseValueF]
      rw [htr]
      rw [if_pos (by simp [headIs])]
      simp only [parseObjectF]
      rw [if_pos (by simp [headIs])]
      have hdrop : ('\x7b' :: '\x7d' :: s).drop 1 = '\x7d' :: s := rfl
      rw [hdrop]
      have hrt3 : rtrim ('\x7d' :: s) = '\x7d' :: s := rt_cons '\x7d' s (by decide) hrt
      rw [trimJS_eq_self '\x7d' s (by decide) hrt3]
      rw [if_pos (by simp [headIs])]
      simp [List.drop]
    | cons p t =>
      have hbr := bridge_obj p t i s
      have hlen := congrArg List.length hbr
      simp only [List.length_append, List.length_cons, indentChars,
        List.length_replicate] at hlen
      obtain ⟨ha, hends⟩ := objTailR_ends (p :: t) i s
      have hrta : rtrim (objTailR (p :: t) i s) = objTailR (p :: t) i s := by
        rw [hends]
        exact rt_append ha _ (by simp) (rt_cons '\x7d' s (by decide) hrt)
      obtain ⟨k, v⟩ := p
      obtain ⟨c, r, hcr, hcws, hcrb, hccb⟩ := keyRender_head k
      have hhead : objTailR ((k, v) :: t) i s =
          c :: (r ++ ':' :: ' ' :: toJsonChars v (i + 1) ++ objValSep t i s) := by
        rw [objTailR_cons, hcr]
        simp [List.append_assoc]
      cases f with
      | zero => omega
      | succ f2 =>
      rw [hbr] at hrt2 ⊢
      simp only [List.cons_append] at hrt2 ⊢
      have htr := trimJS_eq_self '\x7b' _ (by decide) hrt2
      simp only [parseValueF]
      rw [htr]
      rw [if_pos (by simp [headIs])]
      simp only [parseObjectF]
      rw [if_pos (by simp [headIs])]
      have hdrop : ('\x7b' :: '\n' :: (indentChars (i + 1) ++ objTailR ((k, v) :: t) i s)).drop 1 =
          '\n' :: (indentChars (i + 1) ++ objTailR ((k, v) :: t) i s) := rfl
      rw [hdrop, trimJS_nl_ind (i + 1) _ c _ hhead hcws hrta]
      rw [if_neg (by rw [hhead]; simp [headIs, hcrb])]
      have hwfo : nodupKeys ((k, v) :: t) = true ∧ wfP ((k, v) :: t) = true := by
        simp only [wfV, Bool.and_eq_true] at hwf
        exact hwf
      have := ihB f2 (by omega) ((k, v) :: t) [] i s (by simp) hwfo.2
        (by simpa using hwfo.1) hrt hok (by omega)
      rw [this]
      simp

theorem stepB (fuel : Nat) (ihT : ∀ g, g < fuel → StmtT g) : StmtB fuel := by
  intro l acc i s hl hwfp hnd hrt hok hfl
  cases fuel with
  | zero => omega
  | succ g =>
  rcases l with _ | ⟨⟨k, v⟩, t⟩
  · exact absurd rfl hl
  obtain ⟨c, r, hcr, hcws, hcrb, hccb⟩ := keyRender_head k
  obtain ⟨ha, hends⟩ := objTailR_ends ((k, v) :: t) i s
  have hrta : rtrim (objTailR ((k, v) :: t) i s) = objTailR ((k, v) :: t) i s := by
    rw [hends]
    exact rt_append ha _ (by simp) (rt_cons '\x7d' s (by decide) hrt)
  have hhead : objTailR ((k, v) :: t) i s =
      c :: (r ++ (':' :: ' ' :: toJsonChars v (i + 1) ++ objValSep t i s)) := by
    rw [objTailR_cons, hcr]
    simp [List.append_assoc]
  have hvw : wfV v = true ∧ wfP t = true := by
    simp only [wfP, Bool.and_eq_true] at hwfp
    exact hwfp
  obtain ⟨a2, hends2⟩ := objValSep_ends t i s
  obtain ⟨c2, r2, hcr2, hc2ws, _, _⟩ := toJson_head v (i + 1)
  have hvs : toJsonChars v (i + 1) ++ objValSep t i s =
      c2 :: (r2 ++ objValSep t i s) := by
    rw [hcr2]; simp
  have hrtvs : rtrim (toJsonChars v (i + 1) ++ objValSep t i s) =
      toJsonChars v (i + 1) ++ objValSep t i s := by
    rw [hends2, ← List.append_assoc]
    exact rt_append _ ('\x7d' :: s) (by simp) (rt_cons '\x7d' s (by decide) hrt)
  have hX : trimJS (' ' :: (toJsonChars v (i + 1) ++ objValSep t i s)) =
      toJsonChars v (i + 1) ++ objValSep t i s := by
    rw [trimJS_cons_ws ' ' _ (by decide), hvs]
    exact trimJS_eq_self c2 _ hc2ws (hvs ▸ hrtvs)
  have hlen := congrArg List.length (objTailR_cons k v t i s)
  simp only [List.length_append, List.length_cons] at hlen
  have hkl : 1 ≤ (keyRender k).length := by rw [hcr]; simp
  have htr : trimJS (objTailR ((k, v) :: t) i s) = objTailR ((k, v) :: t) i s := by
    rw [hhead]
    exact trimJS_eq_self c _ hcws (hhead ▸ hrta)
  simp only [parseObjectLoopF]
  rw [htr]
  rw [if_neg (by rw [hhead]; simp)]
  by_cases hid : isIdent k.data = true
  · have hkr : keyRender k = k.data := by rw [keyRender, if_pos hid]
    have hcs : identStart c = true := by
      rw [hkr] at hcr
      rw [hcr] at hid
      simp only [isIdent, Bool.and_eq_true] at hid
      exact hid.1
    rw [if_neg (by
      rw [hhead]
      simp [headIs, identStart_ne c '"' hcs (by decide),
        identStart_ne c '\'' hcs (by decide)])]
    have hsh : objTailR ((k, v) :: t) i s =
        k.data ++ ':' :: (' ' :: (toJsonChars v (i + 1) ++ objValSep t i s)) := by
      rw [objTailR_cons, hkr]
      simp [List.append_assoc]
    rw [hsh, extractIdent_render k hid]
    simp only []
    rw [hX]
    have hkdl : (keyRender k).length = k.data.length := by rw [hkr]
    exact ihT g (by omega) k v t acc i s hvw.1 hvw.2 hnd hrt hok (by omega)
  · have hkr : keyRender k = strLit k := by rw [keyRender, if_neg hid]
    have hsh : objTailR ((k, v) :: t) i s =
        '"' :: (escapeChars k.data ++ '"' ::
          (':' :: ' ' :: (toJsonChars v (i + 1) ++ objValSep t i s))) := by
      rw [objTailR_cons, hkr]
      simp [strLit, List.append_assoc]
    rw [if_pos (by rw [hsh]; simp [headIs])]
    rw [hsh]
    simp only [parseStringRaw]
    rw [if_pos (by simp)]
    rw [esc_rt]
    simp only [List.nil_append, mk_data]
    have hrtc : rtrim (':' :: ' ' :: (toJsonChars v (i + 1) ++ objValSep t i s)) =
        ':' :: ' ' :: (toJsonChars v (i + 1) ++ objValSep t i s) := by
      have h1 : rtrim (' ' :: (toJsonChars v (i + 1) ++ objValSep t i s)) =
          ' ' :: (toJsonChars v (i + 1) ++ objValSep t i s) := by
        rw [hends2, ← List.cons_append, ← List.append_assoc]
        exact rt_append _ ('\x7d' :: s) (by simp) (rt_cons '\x7d' s (by decide) hrt)
      exact rt_cons ':' _ (by decide) h1
    rw [trimJS_eq_self ':' _ (by decide) hrtc]
    rw [if_pos (by simp [headIs])]
    have hdrop : (':' :: ' ' :: (toJsonChars v (i + 1) ++ objValSep t i s)).drop 1 =
        ' ' :: (toJsonChars v (i + 1) ++ objValSep t i s) := rfl
    rw [hdrop, hX]
    have hkdl : (keyRender k).length = 2 + (escapeChars k.data).length := by
      rw [hkr]
      simp [strLit]
      omega
    exact ihT g (by omega) k v t acc i s hvw.1 hvw.2 hnd hrt hok (by omega)

theorem rt_via_ends (X a : List Char) (c : Char) (s' : List Char)
    (hX : X = a ++ c :: s') (hc : isWs c = false) (hs : rtrim s' = s') :
    rtrim X = X := by
  rw [hX]
  exact rt_append a _ (by simp) (rt_cons c s' hc hs)

theorem stepT (fuel : Nat) (ihA : ∀ g, g < fuel → StmtA g)
    (ihB : ∀ g, g < fuel → StmtB g) : StmtT fuel := by
  intro k v t acc i s hwv hwt hnd hrt hok hfl
  cases fuel with
  | zero => omega
  | succ h =>
  simp only [parseEntryTailF]
  obtain ⟨a2, hends2⟩ := objValSep_ends t i s
  have hrts : rtrim (objValSep t i s) = objValSep t i s :=
    rt_via_ends _ a2 '\x7d' s hends2 (by decide) hrt
  have hA := ihA h (by omega) v (i + 1) (objValSep t i s) hwv hrts
    (objValSep_headOk t i s) (by omega)
  rw [hA]
  simp only []
  have hsk : setKey acc k v = acc ++ [(k, v)] :=
    setKey_append acc k v (nodup_mid acc k v t hnd)
  rw [hsk]
  cases t with
  | nil =>
    have h1 : objValSep ([] : List (String × Value)) i s =
        '\n' :: (indentChars i ++ '\x7d' :: s) := by
      simp [objValSep]
    rw [h1]
    have h2 : trimJS ('\n' :: (indentChars i ++ '\x7d' :: s)) = '\x7d' :: s := by
      rw [trimJS_cons_ws '\n' _ (by decide), trimJS_indent]
      exact trimJS_eq_self '\x7d' s (by decide) (rt_cons '\x7d' s (by decide) hrt)
    rw [h2]
    rw [if_pos (by simp [headIs])]
    simp [List.drop]
  | cons q t' =>
    have h1 : objValSep (q :: t') i s =
        ',' :: ('\n' :: (indentChars (i + 1) ++ objTailR (q :: t') i s)) := by
      simp [objValSep]
    obtain ⟨ha, hendsq⟩ := objTailR_ends (q :: t') i s
    have hrtq : rtrim (objTailR (q :: t') i s) = objTailR (q :: t') i s :=
      rt_via_ends _ ha '\x7d' s hendsq (by decide) hrt
    have h2 : trimJS (',' :: ('\n' :: (indentChars (i + 1) ++ objTailR (q :: t') i s))) =
        ',' :: ('\n' :: (indentChars (i + 1) ++ objTailR (q :: t') i s)) := by
      apply trimJS_eq_self ',' _ (by decide)
      apply rt_via_ends _ (',' :: '\n' :: (indentChars (i + 1) ++ ha)) '\x7d' s _
        (by decide) hrt
      rw [hendsq]
      simp [List.append_assoc]
    rw [h1, h2]
    rw [if_neg (by simp [headIs]), if_pos (by simp [headIs])]
    obtain ⟨k2, v2⟩ := q
    obtain ⟨c3, r3, hcr3, hc3ws, _, _⟩ := keyRender_head k2
    have hw : objTailR ((k2, v2) :: t') i s =
        c3 :: (r3 ++ (':' :: ' ' :: toJsonChars v2 (i + 1) ++ objValSep t' i s)) := by
      rw [objTailR_cons, hcr3]
      simp [List.append_assoc]
    have hdrop : (',' :: ('\n' :: (indentChars (i + 1) ++ objTailR ((k2, v2) :: t') i s))).drop 1 =
        '\n' :: (indentChars (i + 1) ++ objTailR ((k2, v2) :: t') i s) := rfl
    rw [hdrop, trimJS_nl_ind (i + 1) _ c3 _ hw hc3ws hrtq]
    have hlen1 := congrArg List.length h1
    simp only [List.length_cons, List.length_append] at hlen1
    have hnd2 : nodupKeys ((acc ++ [(k, v)]) ++ (k2, v2) :: t') = true := by
      rw [List.append_assoc]
      simpa using hnd
    have hB := ihB h (by omega) ((k2, v2) :: t') (acc ++ [(k, v)]) i s (by simp)
      hwt hnd2 hrt hok (by omega)
    rw [hB]
    simp

theorem stepC (fuel : Nat) (ihA : ∀ g, g < fuel → StmtA g)
    (ihC : ∀ g, g < fuel → StmtC g) : StmtC fuel := by
  intro l acc i s hl hwfl hrt hok hfl
  cases fuel with
  | zero => omega
  | succ g =>
  rcases l with _ | ⟨v, t⟩
  · exact absurd rfl hl
  have hwv : wfV v = true ∧ wfL t = true := by
    simp only [wfL, Bool.and_eq_true] at hwfl
    exact hwfl
  obtain ⟨a2, hends2⟩ := arrValSep_ends t i s
  have hrts : rtrim (arrValSep t i s) = arrValSep t i s :=
    rt_via_ends _ a2 ']' s hends2 (by decide) hrt
  obtain ⟨c2, r2, hcr2, hc2ws, hc2rb, _⟩ := toJson_head v (i + 1)
  have hvs : arrTailR (v :: t) i s = c2 :: (r2 ++ arrValSep t i s) := by
    rw [arrTailR_cons, hcr2]
    simp
  have hrtvs : rtrim (arrTailR (v :: t) i s) = arrTailR (v :: t) i s := by
    obtain ⟨ha, hends⟩ := arrTailR_ends (v :: t) i s
    exact rt_via_ends _ ha ']' s hends (by decide) hrt
  have htr : trimJS (arrTailR (v :: t) i s) = arrTailR (v :: t) i s := by
    rw [hvs]
    exact trimJS_eq_self c2 _ hc2ws (hvs ▸ hrtvs)
  simp only [parseArrayLoopF]
  rw [htr, arrTailR_cons]
  have hlen := congrArg List.length (arrTailR_cons v t i s)
  simp only [List.length_append] at hlen
  have hA := ihA g (by omega) v (i + 1) (arrValSep t i s) hwv.1 hrts
    (arrValSep_headOk t i s) (by omega)
  rw [hA]
  simp only []
  cases t with
  | nil =>
    have h1 : arrValSep ([] : List Value) i s =
        '\n' :: (indentChars i ++ ']' :: s) := by
      simp [arrValSep]
    rw [h1]
    have h2 : trimJS ('\n' :: (indentChars i ++ ']' :: s)) = ']' :: s := by
      rw [trimJS_cons_ws '\n' _ (by decide), trimJS_indent]
      exact trimJS_eq_self ']' s (by decide) (rt_cons ']' s (by decide) hrt)
    rw [h2, if_pos (by simp [headIs])]
    simp [List.drop]
  | cons w t' =>
    have h1 : arrValSep (w :: t') i s =
        ',' :: ('\n' :: (indentChars (i + 1) ++ arrTailR (w :: t') i s)) := by
      simp [arrValSep]
    obtain ⟨ha, hendsw⟩ := arrTailR_ends (w :: t') i s
    have hrtw : rtrim (arrTailR (w :: t') i s) = arrTailR (w :: t') i s :=
      rt_via_ends _ ha ']' s hendsw (by decide) hrt
    have h2 : trimJS (',' :: ('\n' :: (indentChars (i + 1) ++ arrTailR (w :: t') i s))) =
        ',' :: ('\n' :: (indentChars (i + 1) ++ arrTailR (w :: t') i s)) := by
      apply trimJS_eq_self ',' _ (by decide)
      apply rt_via_ends _ (',' :: '\n' :: (indentChars (i + 1) ++ ha)) ']' s _
        (by decide) hrt
      rw [hendsw]
      simp [List.append_assoc]
    rw [h1, h2]
    rw [if_neg (by simp [headIs]), if_pos (by simp [headIs])]
    obtain ⟨c3, r3, hcr3, hc3ws, _, _⟩ := toJson_head w (i + 1)
    have hw : arrTailR (w :: t') i s = c3 :: (r3 ++ arrValSep t' i s) := by
      rw [arrTailR_cons, hcr3]
      simp
    have hdrop : (',' :: ('\n' :: (indentChars (i + 1) ++ arrTailR (w :: t') i s))).drop 1 =
        '\n' :: (indentChars (i + 1) ++ arrTailR (w :: t') i s) := rfl
    rw [hdrop, trimJS_nl_ind (i + 1) _ c3 _ hw hc3ws hrtw]
    have hlen1 := congrArg List.length h1
    simp only [List.length_cons, List.length_append] at hlen1
    have hC := ihC g (by omega) (w :: t') (acc ++ [v]) i s (by simp) hwv.2
      hrt hok (by omega)
    rw [hC]
    simp

theorem masterR (fuel : Nat) :
    StmtA fuel ∧ StmtB fuel ∧ StmtT fuel ∧ StmtC fuel := by
  induction fuel using Nat.strong_induction_on with
  | _ fuel ih =>
    refine ⟨stepA fuel (fun g hg => (ih g hg).2.1) (fun g hg => (ih g hg).2.2.2),
      stepB fuel (fun g hg => (ih g hg).2.2.1),
      stepT fuel (fun g hg => (ih g hg).1) (fun g hg => (ih g hg).2.1),
      stepC fuel (fun g hg => (ih g hg).1) (fun g hg => (ih g hg).2.2.2)⟩

theorem parseJson_render (V : Value) (hwf : wfV V = true) :
    parseJson (toJson V 0) = .ok V := by
  have hlen : (String.mk (toJsonChars V 0)).length = (toJsonChars V 0).length := rfl
  have hA := (masterR ((String.mk (toJsonChars V 0)).length + 1)).1 V 0 []
    hwf rtrim_nil rfl (by rw [hlen]; simp)
  rw [List.append_nil] at hA
  obtain ⟨c, r, hcr, hcws, _, _⟩ := toJson_head V 0
  have hrt : rtrim (toJsonChars V 0) = toJsonChars V 0 :=
    endsOk_rt _ (toJson_endsOk V 0)
  have htr : trimJS (toJsonChars V 0) = toJsonChars V 0 := by
    rw [hcr] at hrt ⊢
    exact trimJS_eq_self c r hcws hrt
  rw [toJson, parseJson]
  have hdata : (String.mk (toJsonChars V 0)).data = toJsonChars V 0 := rfl
  rw [hdata, htr]
  rw [if_neg (by rw [hcr]; simp)]
  rw [hA]
  simp [trimJS_nil]

theorem compactPairs_map (p : List (String × Value)) :
    compactPairs p = p.map (fun kv =>
      '"' :: kv.1.data ++ '"' :: ':' :: ' ' :: toToonChars kv.2 0) := by
  induction p with
  | nil => rfl
  | cons q t ih =>
    obtain ⟨k, v⟩ := q
    simp [compactPairs, ih]

theorem toonItems_map (l : List Value) (i : Nat) :
    toonItems l i = l.map (fun v => indentChars i ++ toToonChars v i) := by
  induction l with
  | nil => rfl
  | cons v t ih => simp [toonItems, ih]

theorem jsonItems_map (l : List Value) (i : Nat) :
    jsonItems l i = l.map (fun v => indentChars i ++ toJsonChars v i) := by
  induction l with
  | nil => rfl
  | cons v t ih => simp [jsonItems, ih]

theorem jsonPairs_map (l : List (String × Value)) (i : Nat) :
    jsonPairs l i = l.map (fun kv =>
      indentChars i ++ keyRender kv.1 ++ ':' :: ' ' :: toJsonChars kv.2 i) := by
  induction l with
  | nil => rfl
  | cons q t ih =>
    obtain ⟨k, v⟩ := q
    simp [jsonPairs, ih]

theorem compactBlocks_map (l : List Value) (h : isCompactArrB l = true) :
    compactBlocks l = l.map (fun v =>
      match v with
      | .obj p => '\x7b' :: ' ' ::
          (joinSep [',', ' '] (p.map fun kv =>
            '"' :: kv.1.data ++ '"' :: ':' :: ' ' :: toToonChars kv.2 0) ++
            [' ', '\x7d'])
      | _ => []) := by
  induction l with
  | nil => rfl
  | cons v t ih =>
    simp only [isCompactArrB, List.all_cons, Bool.and_eq_true] at h
    have ht : isCompactArrB t = true := by
      simpa [isCompactArrB] using h.2
    cases v with
    | obj p =>
      simp only [compactBlocks, List.map_cons, ih ht]
      simp [compactPairs_map, List.append_assoc]
    | null => simp at h
    | bool b => simp at h
    | num n => simp at h
    | str s => simp at h
    | arr m => simp at h

theorem setKey_keys_sub (l : List (String × Value)) (k : String) (v : Value) :
    ∀ p ∈ setKey l k v, p.1 = k ∨ ∃ q ∈ l, p.1 = q.1 := by
  induction l with
  | nil =>
    intro p hp
    simp only [setKey, List.mem_singleton] at hp
    subst hp
    exact Or.inl rfl
  | cons q t ih =>
    obtain ⟨k', v'⟩ := q
    intro p hp
    simp only [setKey] at hp
    by_cases he : k' = k
    · rw [if_pos he] at hp
      rcases List.mem_cons.mp hp with hp | hp
      · subst hp; exact Or.inl rfl
      · exact Or.inr ⟨p, List.mem_cons_of_mem _ hp, rfl⟩
    · rw [if_neg he] at hp
      rcases List.mem_cons.mp hp with hp | hp
      · subst hp; exact Or.inr ⟨(k', v'), by simp, rfl⟩
      · rcases ih p hp with h | ⟨q2, hq2, he2⟩
        · exact Or.inl h
        · exact Or.inr ⟨q2, List.mem_cons_of_mem _ hq2, he2⟩

theorem setKey_nodup (l : List (String × Value)) (k : String) (v : Value)
    (h : nodupKeys l = true) : nodupKeys (setKey l k v) = true := by
  induction l with
  | nil => rfl
  | cons q t ih =>
    obtain ⟨k', v'⟩ := q
    simp only [nodupKeys, Bool.and_eq_true] at h
    by_cases he : k' = k
    · simp only [setKey, if_pos he]
      simp only [nodupKeys, Bool.and_eq_true]
      refine ⟨?_, h.2⟩
      rw [List.all_eq_true]
      intro p hp
      have := List.all_eq_true.mp h.1 p hp
      subst he
      exact this
    · simp only [setKey, if_neg he]
      simp only [nodupKeys, Bool.and_eq_true]
      refine ⟨?_, ih h.2⟩
      rw [List.all_eq_true]
      intro p hp
      rcases setKey_keys_sub t k v p hp with h1 | ⟨q2, hq2, he2⟩
      · simp only [Bool.not_eq_eq_eq_not, Bool.not_true, beq_eq_false_iff_ne]
        rw [h1]
        exact fun hh => he hh.symm
      · have := List.all_eq_true.mp h.1 q2 hq2
        simp only [Bool.not_eq_eq_eq_not, Bool.not_true, beq_eq_false_iff_ne] at this ⊢
        rw [he2]
        exact this

theorem setKey_vals (l : List (String × Value)) (k : String) (v : Value)
    (hl : ∀ p ∈ l, wfV p.2 = true) (hv : wfV v = true) :
    ∀ p ∈ setKey l k v, wfV p.2 = true := by
  induction l with
  | nil =>
    intro p hp
    simp only [setKey, List.mem_singleton] at hp
    subst hp
    exact hv
  | cons q t ih =>
    obtain ⟨k', v'⟩ := q
    intro p hp
    simp only [setKey] at hp
    by_cases he : k' = k
    · rw [if_pos he] at hp
      rcases List.mem_cons.mp hp with hp | hp
      · subst hp; exact hv
      · exact hl p (List.mem_cons_of_mem _ hp)
    · rw [if_neg he] at hp
      rcases List.mem_cons.mp hp with hp | hp
      · subst hp; exact hl (k', v') (by simp)
      · exact ih (fun q2 hq2 => hl q2 (List.mem_cons_of_mem _ hq2)) p hp

theorem wfP_of_forall (l : List (String × Value))
    (h : ∀ p ∈ l, wfV p.2 = true) : wfP l = true := by
  induction l with
  | nil => rfl
  | cons q t ih =>
    simp only [wfP, Bool.and_eq_true]
    exact ⟨h q (by simp), ih (fun p hp => h p (List.mem_cons_of_mem _ hp))⟩

theorem wfL_of_forall (l : List Value)
    (h : ∀ v ∈ l, wfV v = true) : wfL l = true := by
  induction l with
  | nil => rfl
  | cons v t ih =>
    simp only [wfL, Bool.and_eq_true]
    exact ⟨h v (by simp), ih (fun w hw => h w (List.mem_cons_of_mem _ hw))⟩

/-- Invariant: every value produced by `parseValueF` is well-formed
(unique keys in every object). -/
def InvA (fuel : Nat) : Prop :=
  ∀ input res, parseValueF fuel input = .ok res → wfV res.value = true

/-- Invariant for the object loop. -/
def InvB (fuel : Nat) : Prop :=
  ∀ rem acc res, (∀ p ∈ acc, wfV p.2 = true) → nodupKeys acc = true →
    parseObjectLoopF fuel rem acc = .ok res → wfV res.value = true

/-- Invariant for the entry tail. -/
def InvT (fuel : Nat) : Prop :=
  ∀ rem acc k res, (∀ p ∈ acc, wfV p.2 = true) → nodupKeys acc = true →
    parseEntryTailF fuel rem acc k = .ok res → wfV res.value = true

/-- Invariant for the array loop. -/
def InvC (fuel : Nat) : Prop :=
  ∀ rem acc res, (∀ v ∈ acc, wfV v = true) →
    parseArrayLoopF fuel rem acc = .ok res → wfV res.value = true

theorem invStepA (fuel : Nat) (ihB : ∀ g, g < fuel → InvB g)
    (ihC : ∀ g, g < fuel → InvC g) : InvA fuel := by
  intro input res h
  cases fuel with
  | zero => simp only [parseValueF] at h; exact Except.noConfusion h
  | succ f =>
  simp only [parseValueF] at h
  split at h
  · cases f with
    | zero => simp only [parseObjectF] at h; exact Except.noConfusion h
    | succ f2 =>
      simp only [parseObjectF] at h
      split at h
      · split at h
        · obtain rfl : (⟨.obj [], _⟩ : ParseResult) = res := by injection h
          rfl
        · exact ihB f2 (by omega) _ [] res (by simp) rfl h
      · contradiction
  · split at h
    · cases f with
      | zero => simp only [parseArrayF] at h; exact Except.noConfusion h
      | succ f2 =>
        simp only [parseArrayF] at h
        split at h
        · split at h
          · obtain rfl : (⟨.arr [], _⟩ : ParseResult) = res := by injection h
            rfl
          · exact ihC f2 (by omega) _ [] res (by simp) h
        · contradiction
    · split at h
      · simp only [parseStringP] at h
        split at h
        · exact Except.noConfusion h
        · obtain rfl : (⟨.str _, _⟩ : ParseResult) = res := by injection h
          rfl
      · split at h
        · split at h
          · exact Except.noConfusion h
          · obtain rfl : (⟨.num _, _⟩ : ParseResult) = res := by injection h
            rfl
        · split at h
          · obtain rfl : (⟨.bool true, _⟩ : ParseResult) = res := by injection h
            rfl
          · split at h
            · obtain rfl : (⟨.bool false, _⟩ : ParseResult) = res := by injection h
              rfl
            · split at h
              · obtain rfl : (⟨.null, _⟩ : ParseResult) = res := by injection h
                rfl
              · exact Except.noConfusion h

theorem invStepB (fuel : Nat) (ihT : ∀ g, g < fuel → InvT g) : InvB fuel := by
  intro rem acc res hacc hnd h
  cases fuel with
  | zero => simp only [parseObjectLoopF] at h; exact Except.noConfusion h
  | succ f =>
  simp only [parseObjectLoopF] at h
  split at h
  · obtain rfl : (⟨.obj acc, _⟩ : ParseResult) = res := by injection h
    simp only [ParseResult.value, wfV, Bool.and_eq_true]
    exact ⟨hnd, wfP_of_forall acc hacc⟩
  · split at h
    · split at h
      · exact Except.noConfusion h
      · split at h
        · exact ihT f (by omega) _ acc _ res hacc hnd h
        · exact Except.noConfusion h
    · split at h
      · exact Except.noConfusion h
      · exact ihT f (by omega) _ acc _ res hacc hnd h

theorem invStepT (fuel : Nat) (ihA : ∀ g, g < fuel → InvA g)
    (ihB : ∀ g, g < fuel → InvB g) : InvT fuel := by
  intro rem acc k res hacc hnd h
  cases fuel with
  | zero => simp only [parseEntryTailF] at h; exact Except.noConfusion h
  | succ f =>
  simp only [parseEntryTailF] at h
  split at h
  · exact Except.noConfusion h
  · rename_i res1 heq
    have hv : wfV res1.value = true := ihA f (by omega) rem res1 heq
    have hacc2 := setKey_vals acc k res1.value hacc hv
    have hnd2 := setKey_nodup acc k res1.value hnd
    split at h
    · obtain rfl : (⟨.obj (setKey acc k res1.value), _⟩ : ParseResult) = res := by
        injection h
      simp only [ParseResult.value, wfV, Bool.and_eq_true]
      exact ⟨hnd2, wfP_of_forall _ hacc2⟩
    · split at h
      · exact ihB f (by omega) _ _ res hacc2 hnd2 h
      · split at h
        · obtain rfl : (⟨.obj (setKey acc k res1.value), _⟩ : ParseResult) = res := by
            injection h
          simp only [ParseResult.value, wfV, Bool.and_eq_true]
          exact ⟨hnd2, wfP_of_forall _ hacc2⟩
        · exact Except.noConfusion h

theorem invStepC (fuel : Nat) (ihA : ∀ g, g < fuel → InvA g)
    (ihC : ∀ g, g < fuel → InvC g) : InvC fuel := by
  intro rem acc res hacc h
  cases fuel with
  | zero => simp only [parseArrayLoopF] at h; exact Except.noConfusion h
  | succ f =>
  simp only [parseArrayLoopF] at h
  split at h
  · exact Except.noConfusion h
  · rename_i res1 heq
    have hv : wfV res1.value = true := ihA f (by omega) _ res1 heq
    have hacc2 : ∀ v ∈ acc ++ [res1.value], wfV v = true := by
      intro v hv2
      rcases List.mem_append.mp hv2 with hv2 | hv2
      · exact hacc v hv2
      · rw [List.mem_singleton.mp hv2]
        exact hv
    split at h
    · obtain rfl : (⟨.arr (acc ++ [res1.value]), _⟩ : ParseResult) = res := by
        injection h
      simp only [ParseResult.value, wfV]
      exact wfL_of_forall _ hacc2
    · split at h
      · exact ihC f (by omega) _ _ res hacc2 h
      · exact Except.noConfusion h

theorem invMaster (fuel : Nat) : InvA fuel ∧ InvB fuel ∧ InvT fuel ∧ InvC fuel := by
  induction fuel using Nat.strong_induction_on with
  | _ fuel ih =>
    refine ⟨invStepA fuel (fun g hg => (ih g hg).2.1) (fun g hg => (ih g hg).2.2.2),
      invStepB fuel (fun g hg => (ih g hg).2.2.1),
      invStepT fuel (fun g hg => (ih g hg).1) (fun g hg => (ih g hg).2.1),
      invStepC fuel (fun g hg => (ih g hg).1) (fun g hg => (ih g hg).2.2.2)⟩

theorem parseJson_wf (input : String) (v : Value) (h : parseJson input = .ok v) :
    wfV v = true := by
  rw [parseJson] at h
  split at h
  · cases h
  · split at h
    · cases h
    · rename_i res heq
      split at h
      · cases h.symm
        exact (invMaster (input.length + 1)).1 _ res heq
      · cases h

/-- Invariant: every value produced by the modelled JSON parser is
well-formed. -/
def JInvA (fuel : Nat) : Prop :=
  ∀ input res, jValueF fuel input = .ok res → wfV res.1 = true

/-- Invariant for the modelled JSON object loop. -/
def JInvB (fuel : Nat) : Prop :=
  ∀ rem acc res, (∀ p ∈ acc, wfV p.2 = true) → nodupKeys acc = true →
    jObjLoopF fuel rem acc = .ok res → wfV res.1 = true

/-- Invariant for the modelled JSON array loop. -/
def JInvC (fuel : Nat) : Prop :=
  ∀ rem acc res, (∀ v ∈ acc, wfV v = true) →
    jArrLoopF fuel rem acc = .ok res → wfV res.1 = true

theorem jInvStepA (fuel : Nat) (ihB : ∀ g, g < fuel → JInvB g)
    (ihC : ∀ g, g < fuel → JInvC g) : JInvA fuel := by
  intro input res h
  cases fuel with
  | zero => simp only [jValueF] at h; exact Except.noConfusion h
  | succ f =>
  simp only [jValueF] at h
  split at h
  · split at h
    · obtain rfl : ((.obj [], _) : Value × List Char) = res := by injection h
      rfl
    · exact ihB f (by omega) _ [] res (by simp) rfl h
  · split at h
    · split at h
      · obtain rfl : ((.arr [], _) : Value × List Char) = res := by injection h
        rfl
      · exact ihC f (by omega) _ [] res (by simp) h
    · split at h
      · split at h
        · exact Except.noConfusion h
        · obtain rfl : ((.str _, _) : Value × List Char) = res := by injection h
          rfl
      · split at h
        · obtain rfl : ((.bool true, _) : Value × List Char) = res := by injection h
          rfl
        · split at h
          · obtain rfl : ((.bool false, _) : Value × List Char) = res := by injection h
            rfl
          · split at h
            · obtain rfl : ((.null, _) : Value × List Char) = res := by injection h
              rfl
            · split at h
              · split at h
                · exact Except.noConfusion h
                · obtain rfl : ((.num _, _) : Value × List Char) = res := by injection h
                  rfl
              · exact Except.noConfusion h

theorem jInvStepB (fuel : Nat) (ihA : ∀ g, g < fuel → JInvA g)
    (ihB : ∀ g, g < fuel → JInvB g) : JInvB fuel := by
  intro rem acc res hacc hnd h
  cases fuel with
  | zero => simp only [jObjLoopF] at h; exact Except.noConfusion h
  | succ f =>
  simp only [jObjLoopF] at h
  split at h
  · split at h
    · exact Except.noConfusion h
    · split at h
      · split at h
        · exact Except.noConfusion h
        · rename_i hq x1 k r1 hks hcolon x2 v r3 heq
          have hv : wfV v = true := by
            have := ihA f (by omega) _ (v, r3) heq
            exact this
          have hacc2 := setKey_vals acc k v hacc hv
          have hnd2 := setKey_nodup acc k v hnd
          split at h
          · obtain rfl : ((.obj (setKey acc k v), _) : Value × List Char) = res := by
              injection h
            simp only [wfV, Bool.and_eq_true]
            exact ⟨hnd2, wfP_of_forall _ hacc2⟩
          · split at h
            · exact ihB f (by omega) _ _ res hacc2 hnd2 h
            · exact Except.noConfusion h
      · exact Except.noConfusion h
  · exact Except.noConfusion h

theorem jInvStepC (fuel : Nat) (ihA : ∀ g, g < fuel → JInvA g)
    (ihC : ∀ g, g < fuel → JInvC g) : JInvC fuel := by
  intro rem acc res hacc h
  cases fuel with
  | zero => simp only [jArrLoopF] at h; exact Except.noConfusion h
  | succ f =>
  simp only [jArrLoopF] at h
  split at h
  · exact Except.noConfusion h
  · rename_i x v r1 heq
    have hv : wfV v = true := by
      have := ihA f (by omega) _ (v, r1) heq
      exact this
    have hacc2 : ∀ w ∈ acc ++ [v], wfV w = true := by
      intro w hw
      rcases List.mem_append.mp hw with hw | hw
      · exact hacc w hw
      · rw [List.mem_singleton.mp hw]
        exact hv
    split at h
    · obtain rfl : ((.arr (acc ++ [v]), _) : Value × List Char) = res := by
        injection h
      simp only [wfV]
      exact wfL_of_forall _ hacc2
    · split at h
      · exact ihC f (by omega) _ _ res hacc2 h
      · exact Except.noConfusion h

theorem jInvMaster (fuel : Nat) : JInvA fuel ∧ JInvB fuel ∧ JInvC fuel := by
  induction fuel using Nat.strong_induction_on with
  | _ fuel ih =>
    refine ⟨jInvStepA fuel (fun g hg => (ih g hg).2.1) (fun g hg => (ih g hg).2.2),
      jInvStepB fuel (fun g hg => (ih g hg).1) (fun g hg => (ih g hg).2.1),
      jInvStepC fuel (fun g hg => (ih g hg).1) (fun g hg => (ih g hg).2.2)⟩

theorem parseToon_wf (input : String) (v : Value) (h : parseToon input = .ok v) :
    wfV v = true := by
  rw [parseToon] at h
  split at h
  · rename_i v2 heq
    obtain rfl : v2 = v := by injection h
    rw [jsonParse] at heq
    split at heq
    · exact Except.noConfusion heq
    · rename_i w rem heq2
      split at heq
      · obtain rfl : w = v2 := by injection heq
        exact (jInvMaster (input.length + 1)).1 _ (w, rem) heq2
      · exact Except.noConfusion heq
  · exact Except.noConfusion h

theorem jsonWs_eq (c : Char) : jsonWs c = isWs c := by
  by_cases h1 : c = ' ' <;> by_cases h2 : c = '\t' <;> by_cases h3 : c = '\n' <;>
    by_cases h4 : c = '\r' <;> simp [jsonWs, isWs, h1, h2, h3, h4]

theorem jws_eq (l : List Char) : jws l = ltrim l := by
  rw [jws, ltrim, funext jsonWs_eq]

theorem jws_cons_not (c : Char) (r : List Char) (hc : isWs c = false) :
    jws (c :: r) = c :: r := by
  rw [jws_eq]
  exact ltrim_cons_not c r hc

theorem jws_nl_ind (m : Nat) (X : List Char) (c : Char) (r : List Char)
    (hX : X = c :: r) (hc : isWs c = false) :
    jws ('\n' :: (indentChars m ++ X)) = X := by
  rw [jws_eq, ltrim_cons_ws '\n' _ (by decide), ltrim_indent, hX]
  exact ltrim_cons_not c r hc

theorem jws_sp (X : List Char) (c : Char) (r : List Char)
    (hX : X = c :: r) (hc : isWs c = false) :
    jws (' ' :: X) = X := by
  rw [jws_eq, ltrim_cons_ws ' ' _ (by decide), hX]
  exact ltrim_cons_not c r hc

theorem jws_sp2 (Z : List Char) : jws (' ' :: ' ' :: '\x7d' :: Z) = '\x7d' :: Z := by
  rw [jws_eq, ltrim_cons_ws ' ' _ (by decide), ltrim_cons_ws ' ' _ (by decide)]
  exact ltrim_cons_not '\x7d' Z (by decide)

/-- Admissible first characters of the unconsumed suffix in the
strict-side round-trip lemmas: the characters that can follow a
rendered value in `toToon`'s output (or the end of input). -/
def jheadOk : List Char → Bool
  | [] => true
  | c :: _ => c = ',' || c = '\n' || c = ' ' || c = ']' || c = '\x7d'

theorem jheadOk_cases (s : List Char) (h : jheadOk s = true) :
    s = [] ∨ ∃ t, s = ',' :: t ∨ s = '\n' :: t ∨ s = ' ' :: t ∨ s = ']' :: t ∨
      s = '\x7d' :: t := by
  cases s with
  | nil => exact Or.inl rfl
  | cons c t =>
    right
    refine ⟨t, ?_⟩
    have h' : c = ',' ∨ c = '\n' ∨ c = ' ' ∨ c = ']' ∨ c = '\x7d' := by
      simpa [jheadOk, or_assoc] using h
    rcases h' with h0 | h0 | h0 | h0 | h0 <;> subst h0 <;> tauto

theorem jheadOk_no_digit (s : List Char) (h : jheadOk s = true) :
    ∀ c t, s = c :: t → isDigit c = false := by
  intro c t hct
  rcases jheadOk_cases s h with h0 | ⟨u, h0 | h0 | h0 | h0 | h0⟩ <;> rw [h0] at hct <;>
    cases hct <;> decide

theorem jheadOk_heads (s : List Char) (h : jheadOk s = true) :
    headIs s '.' = false ∧ headIs s 'e' = false ∧ headIs s 'E' = false := by
  rcases jheadOk_cases s h with h0 | ⟨u, h0 | h0 | h0 | h0 | h0⟩ <;> subst h0 <;>
    exact ⟨rfl, rfl, rfl⟩

theorem jStrLoop_cons (c : Char) (rest acc : List Char) :
    jStrLoop (c :: rest) acc =
      if c = '"' then .ok (String.mk acc, rest)
      else if c = '\\' then
        match rest with
        | [] => .error "Unterminated string"
        | e :: r2 =>
          if e = 'u' then
            match r2 with
            | h1 :: h2 :: h3 :: h4 :: r3 =>
              if isHexDigit h1 && isHexDigit h2 && isHexDigit h3 && isHexDigit h4 then
                jStrLoop r3 (acc ++
                  [Char.ofNat (((hexVal h1 * 16 + hexVal h2) * 16 + hexVal h3) * 16 + hexVal h4)])
              else .error "Invalid unicode escape"
            | _ => .error "Invalid unicode escape"
          else
            match jEscDecode e with
            | some d => jStrLoop r2 (acc ++ [d])
            | none => .error "Invalid escape"
      else if c.toNat < 32 then .error "Unescaped control character"
      else jStrLoop rest (acc ++ [c]) := by
  rw [jStrLoop.eq_def]

theorem jstr_raw (cs : List Char) : ∀ (acc rest : List Char),
    cs.all safeKeyChar = true →
    jStrLoop (cs ++ '"' :: rest) acc = .ok (String.mk (acc ++ cs), rest) := by
  induction cs with
  | nil =>
    intro acc rest _
    rw [List.nil_append, jStrLoop_cons, if_pos rfl, List.append_nil]
  | cons c t ih =>
    intro acc rest hall
    simp only [List.all_cons, Bool.and_eq_true] at hall
    have hc := hall.1
    simp only [safeKeyChar, Bool.and_eq_true, decide_eq_true_eq] at hc
    obtain ⟨⟨hge, hq⟩, hb⟩ := hc
    rw [List.cons_append, jStrLoop_cons, if_neg hq, if_neg hb,
      if_neg (by omega : ¬c.toNat < 32), ih (acc ++ [c]) rest hall.2]
    simp

theorem jstr_esc_step (c : Char) (X acc : List Char) (hc : safeStrChar c = true) :
    jStrLoop (escChar c ++ X) acc = jStrLoop X (acc ++ [c]) := by
  by_cases h1 : c = '\\'
  · subst h1
    simp [escChar, jStrLoop_cons, jEscDecode]
  · by_cases h2 : c = '"'
    · subst h2
      simp [escChar, jStrLoop_cons, jEscDecode]
    · by_cases h3 : c = '\n'
      · subst h3
        simp [escChar, jStrLoop_cons, jEscDecode]
      · by_cases h4 : c = '\r'
        · subst h4
          simp [escChar, jStrLoop_cons, jEscDecode]
        · by_cases h5 : c = '\t'
          · subst h5
            simp [escChar, jStrLoop_cons, jEscDecode]
          · have hge : 32 ≤ c.toNat := by
              have h' : 32 ≤ c.toNat ∨ c = '\n' ∨ c = '\r' ∨ c = '\t' := by
                simpa [safeStrChar, or_assoc] using hc
              rcases h' with h' | h' | h' | h'
              · exact h'
              · exact absurd h' h3
              · exact absurd h' h4
              · exact absurd h' h5
            simp only [escChar, if_neg h1, if_neg h2, if_neg h3, if_neg h4, if_neg h5,
              List.singleton_append]
            rw [jStrLoop_cons, if_neg h2, if_neg h1, if_neg (by omega : ¬c.toNat < 32)]

theorem jstr_esc (cs : List Char) : ∀ (acc rest : List Char),
    cs.all safeStrChar = true →
    jStrLoop (escapeChars cs ++ '"' :: rest) acc = .ok (String.mk (acc ++ cs), rest) := by
  induction cs with
  | nil =>
    intro acc rest _
    rw [escapeChars, List.nil_append, jStrLoop_cons, if_pos rfl, List.append_nil]
  | cons c t ih =>
    intro acc rest hall
    simp only [List.all_cons, Bool.and_eq_true] at hall
    simp only [escapeChars, List.append_assoc]
    rw [jstr_esc_step c _ acc hall.1, ih (acc ++ [c]) rest hall.2]
    simp

theorem natCharsAux_zero (fuel : Nat) : ∀ n ds, n < fuel →
    natCharsAux fuel n = '0' :: ds → n = 0 ∧ ds = [] := by
  induction fuel with
  | zero => intro n ds h; omega
  | succ g ih =>
    intro n ds hlt heq
    rw [natCharsAux] at heq
    by_cases h10 : n < 10
    · rw [if_pos h10] at heq
      have hd : digitChar n = '0' ∧ ds = [] := by
        refine ⟨?_, ?_⟩
        · injection heq
        · injection heq with h1 h2
          exact h2.symm
      have hn : n = 0 := by
        interval_cases n <;> simp_all [digitChar]
      exact ⟨hn, hd.2⟩
    · rw [if_neg h10] at heq
      exfalso
      have hdl : n / 10 < n := Nat.div_lt_self (by omega) (by omega)
      have hlt2 : n / 10 < g := by omega
      obtain ⟨hne, _, _⟩ := natCharsAux_spec g (n / 10) hlt2
      rcases hh : natCharsAux g (n / 10) with _ | ⟨c, cs⟩
      · exact hne hh
      · rw [hh, List.cons_append] at heq
        have hc0 : c = '0' := by injection heq
        subst hc0
        have := (ih (n / 10) cs hlt2 hh).1
        omega

theorem natChars_zero (n : Nat) (ds : List Char) (h : natChars n = '0' :: ds) :
    ds = [] := by
  have := natCharsAux_zero (n + 1) n ds (by omega) h
  exact this.2

theorem jNum_render (n : Int) (s : List Char) (hok : jheadOk s = true) :
    jNumber (numChars n ++ s) = .ok (n, s) := by
  obtain ⟨hds, hes, hEs⟩ := jheadOk_heads s hok
  obtain ⟨hne, hall, hval⟩ := natChars_spec n.natAbs
  have htw := tw_append isDigit (natChars n.natAbs) s hall (jheadOk_no_digit s hok)
  obtain ⟨d, ds, hct⟩ := List.exists_cons_of_ne_nil hne
  have hdd : isDigit d = true := by
    rw [hct] at hall
    simp only [List.all_cons, Bool.and_eq_true] at hall
    exact hall.1
  have hz : (d = '0' && !ds.isEmpty) = false := by
    by_cases hd0 : d = '0'
    · have : ds = [] := natChars_zero n.natAbs ds (by rw [hct, hd0])
      subst this
      simp [hd0]
    · simp [hd0]
  by_cases hn : n < 0
  · have htext : numChars n ++ s = '-' :: (natChars n.natAbs ++ s) := by
      simp [numChars, hn]
    rw [htext]
    simp only [jNumber]
    rw [if_pos (show headIs ('-' :: (natChars n.natAbs ++ s)) '-' = true from rfl)]
    simp only [List.drop_succ_cons, List.drop_zero]
    rw [htw.1, hct]
    simp only [hz, Bool.false_eq_true, if_false, if_neg]
    rw [← hct, htw.2, hds, hes, hEs]
    simp only [Bool.or_self, Bool.false_eq_true, if_false, ← hct, hval]
    have hcast : -((n.natAbs : Nat) : Int) = n := by omega
    rw [hcast]
  · have hdm : d ≠ '-' := isDigit_ne d '-' hdd (by decide)
    have htext : numChars n ++ s = natChars n.natAbs ++ s := by
      simp [numChars, hn]
    rw [htext]
    have hhm : headIs (natChars n.natAbs ++ s) '-' = false := by
      rw [hct]
      simp [headIs, hdm]
    simp only [jNumber]
    rw [hhm]
    simp only [Bool.false_eq_true, if_false]
    rw [htw.1, hct]
    simp only [hz, Bool.false_eq_true, if_false, if_neg]
    rw [← hct, htw.2, hds, hes, hEs]
    simp only [Bool.or_self, Bool.false_eq_true, if_false, ← hct, hval]
    have hcast : ((n.natAbs : Nat) : Int) = n := by omega
    rw [hcast]

theorem toToon_head (V : Value) (i : Nat) :
    ∃ c r, toToonChars V i = c :: r ∧ isWs c = false ∧ (c = ']') = False ∧
      (c = '\x7d') = False := by
  cases V with
  | null => exact ⟨'n', ['u', 'l', 'l'], by simp [toToonChars], by decide, by decide, by decide⟩
  | bool b =>
    cases b
    · exact ⟨'f', ['a', 'l', 's', 'e'], by simp [toToonChars], by decide, by decide, by decide⟩
    · exact ⟨'t', ['r', 'u', 'e'], by simp [toToonChars], by decide, by decide, by decide⟩
  | num n =>
    obtain ⟨c, r, h, hc⟩ := numChars_head2 n
    refine ⟨c, r, by simp [toToonChars, h], ?_, ?_, ?_⟩
    · rcases hc with hc | hc
      · subst hc; decide
      · exact isDigit_not_ws c hc
    · rcases hc with hc | hc
      · subst hc; decide
      · simp [isDigit_ne c ']' hc (by decide)]
    · rcases hc with hc | hc
      · subst hc; decide
      · simp [isDigit_ne c '\x7d' hc (by decide)]
  | str s =>
    exact ⟨'"', escapeChars s.data ++ ['"'], by simp [toToonChars, strLit],
      by decide, by decide, by decide⟩
  | arr l =>
    cases l with
    | nil => exact ⟨'[', [']'], by simp [toToonChars], by decide, by decide, by decide⟩
    | cons v t =>
      rcases Bool.eq_false_or_eq_true (isCompactArrB (v :: t)) with hC | hC
      · exact ⟨'[', '\n' :: (indentChars (i + 1) ++
          (joinSep (',' :: '\n' :: indentChars (i + 1)) (compactBlocks (v :: t)) ++
            '\n' :: (indentChars i ++ [']']))), by simp [toToonChars, hC],
          by decide, by decide, by decide⟩
      · exact ⟨'[', '\n' :: (joinSep [',', '\n'] (toonItems (v :: t) (i + 1)) ++
          '\n' :: (indentChars i ++ [']'])), by simp [toToonChars, hC],
          by decide, by decide, by decide⟩
  | obj l =>
    cases l with
    | nil => exact ⟨'\x7b', ['\x7d'], by simp [toToonChars], by decide, by decide, by decide⟩
    | cons p t =>
      rcases Bool.eq_false_or_eq_true (isCompactObjB (p :: t) && i == 0) with hC | hC
      · exact ⟨'\x7b', '\n' :: (indentChars (i + 1) ++
          (joinSep (',' :: '\n' :: indentChars (i + 1)) (rootPairs (p :: t) i) ++
            '\n' :: (indentChars i ++ ['\x7d']))), by simp [toToonChars, hC],
          by decide, by decide, by decide⟩
      · exact ⟨'\x7b', '\n' :: (joinSep [',', '\n'] (toonPairs (p :: t) (i + 1)) ++
          '\n' :: (indentChars i ++ ['\x7d'])), by simp [toToonChars, hC],
          by decide, by decide, by decide⟩

/-- Single-line rendering of an element of an inline array in the
compact branches of `toToon`: objects become compact brace blocks,
anything else renders normally at indent 0 (the common core of
`compactBlocks` and `rootItems`). -/
def rootItemRender : Value → List Char
  | .obj p => "\x7b ".data ++ joinSep ", ".data (compactPairs p) ++ " \x7d".data
  | v => toToonChars v 0

theorem rootItemRender_eq (v : Value) (h : ∀ p, v ≠ .obj p) :
    rootItemRender v = toToonChars v 0 := by
  cases v with
  | obj p => exact absurd rfl (h p)
  | null => rfl
  | bool b => rfl
  | num n => rfl
  | str s => rfl
  | arr l => rfl

theorem rootItems_cons (v : Value) (t : List Value) :
    rootItems (v :: t) = rootItemRender v :: rootItems t := by
  cases v <;> simp [rootItems, rootItemRender]

theorem rootItems_ne (v : Value) (t : List Value) : rootItems (v :: t) ≠ [] := by
  rw [rootItems_cons]
  simp

theorem compactBlocks_eq (l : List Value) (h : isCompactArrB l = true) :
    compactBlocks l = rootItems l := by
  induction l with
  | nil => rfl
  | cons v t ih =>
    simp only [isCompactArrB, List.all_cons, Bool.and_eq_true] at h
    cases v with
    | obj p =>
      rw [compactBlocks, rootItems_cons, rootItemRender]
      rw [ih (by simp [isCompactArrB, h.2])]
    | null => simp at h
    | bool b => simp at h
    | num n => simp at h
    | str s => simp at h
    | arr m => simp at h

theorem rootItemRender_head (v : Value) :
    ∃ c r, rootItemRender v = c :: r ∧ isWs c = false ∧ (c = ']') = False ∧
      (c = '\x7d') = False := by
  cases v with
  | obj p =>
    exact ⟨'\x7b', ' ' :: (joinSep ", ".data (compactPairs p) ++ " \x7d".data),
      by simp [rootItemRender], by decide, by decide, by decide⟩
  | null =>
    obtain ⟨c, r, h1, h2, h3, h4⟩ := toToon_head .null 0
    exact ⟨c, r, h1, h2, h3, h4⟩
  | bool b =>
    obtain ⟨c, r, h1, h2, h3, h4⟩ := toToon_head (.bool b) 0
    exact ⟨c, r, h1, h2, h3, h4⟩
  | num n =>
    obtain ⟨c, r, h1, h2, h3, h4⟩ := toToon_head (.num n) 0
    exact ⟨c, r, h1, h2, h3, h4⟩
  | str s =>
    obtain ⟨c, r, h1, h2, h3, h4⟩ := toToon_head (.str s) 0
    exact ⟨c, r, h1, h2, h3, h4⟩
  | arr m =>
    obtain ⟨c, r, h1, h2, h3, h4⟩ := toToon_head (.arr m) 0
    exact ⟨c, r, h1, h2, h3, h4⟩

/-- Text of the rendered entries of a non-compact `toToon` object from
the current key position to just past the closing brace, followed by
the suffix `s`. -/
def objTailT : List (String × Value) → Nat → List Char → List Char
  | [], i, s => '\n' :: indentChars i ++ '\x7d' :: s
  | [(k, v)], i, s =>
    '"' :: k.data ++ '"' :: ':' :: ' ' :: toToonChars v (i + 1) ++
      '\n' :: indentChars i ++ '\x7d' :: s
  | (k, v) :: q :: t, i, s =>
    '"' :: k.data ++ '"' :: ':' :: ' ' :: toToonChars v (i + 1) ++
      ',' :: '\n' :: indentChars (i + 1) ++ objTailT (q :: t) i s

/-- Text following an entry's rendered value inside a non-compact
`toToon` object. -/
def objValSepT : List (String × Value) → Nat → List Char → List Char
  | [], i, s => '\n' :: indentChars i ++ '\x7d' :: s
  | q :: t, i, s => ',' :: '\n' :: indentChars (i + 1) ++ objTailT (q :: t) i s

theorem objTailT_cons (k : String) (v : Value) (t : List (String × Value))
    (i : Nat) (s : List Char) :
    objTailT ((k, v) :: t) i s =
      '"' :: k.data ++ '"' :: ':' :: ' ' :: toToonChars v (i + 1) ++
        objValSepT t i s := by
  cases t <;> simp [objTailT, objValSepT]

/-- Text of the rendered elements of a non-compact `toToon` array from
the current element position to just past the closing bracket, followed
by the suffix `s`. -/
def arrTailT : List Value → Nat → List Char → List Char
  | [], i, s => '\n' :: indentChars i ++ ']' :: s
  | [v], i, s => toToonChars v (i + 1) ++ '\n' :: indentChars i ++ ']' :: s
  | v :: w :: t, i, s =>
    toToonChars v (i + 1) ++ ',' :: '\n' :: indentChars (i + 1) ++
      arrTailT (w :: t) i s

/-- Text following an element's rendered value inside a non-compact
`toToon` array. -/
def arrValSepT : List Value → Nat → List Char → List Char
  | [], i, s => '\n' :: indentChars i ++ ']' :: s
  | w :: t, i, s => ',' :: '\n' :: indentChars (i + 1) ++ arrTailT (w :: t) i s

theorem arrTailT_cons (v : Value) (t : List Value) (i : Nat) (s : List Char) :
    arrTailT (v :: t) i s = toToonChars v (i + 1) ++ arrValSepT t i s := by
  cases t <;> simp [arrTailT, arrValSepT]

/-- Text of the key/value pairs of a compact brace block from the
current key position to just past the closing brace, followed by the
suffix `s`. -/
def cPairTail : List (String × Value) → List Char → List Char
  | [], s => '\x7d' :: s
  | [(k, v)], s =>
    '"' :: k.data ++ '"' :: ':' :: ' ' :: toToonChars v 0 ++ ' ' :: '\x7d' :: s
  | (k, v) :: q :: t, s =>
    '"' :: k.data ++ '"' :: ':' :: ' ' :: toToonChars v 0 ++
      ',' :: ' ' :: cPairTail (q :: t) s

/-- Text following a pair's rendered value inside a compact brace
block. -/
def cValSepT : List (String × Value) → List Char → List Char
  | [], s => ' ' :: '\x7d' :: s
  | q :: t, s => ',' :: ' ' :: cPairTail (q :: t) s

theorem cPairTail_cons (k : String) (v : Value) (t : List (String × Value))
    (s : List Char) :
    cPairTail ((k, v) :: t) s =
      '"' :: k.data ++ '"' :: ':' :: ' ' :: toToonChars v 0 ++ cValSepT t s := by
  cases t <;> simp [cPairTail, cValSepT]

/-- Text of the inline elements of an array in `toToon`'s compact
branches from the current element position to just past the closing
bracket, followed by the suffix `s`. -/
def rootArrTail : List Value → Nat → List Char → List Char
  | [], i, s => '\n' :: indentChars i ++ ']' :: s
  | [v], i, s => rootItemRender v ++ '\n' :: indentChars i ++ ']' :: s
  | v :: w :: t, i, s =>
    rootItemRender v ++ ',' :: '\n' :: indentChars (i + 1) ++
      rootArrTail (w :: t) i s

/-- Text following an inline element inside an array of `toToon`'s
compact branches. -/
def rootArrSepT : List Value → Nat → List Char → List Char
  | [], i, s => '\n' :: indentChars i ++ ']' :: s
  | w :: t, i, s => ',' :: '\n' :: indentChars (i + 1) ++ rootArrTail (w :: t) i s

theorem rootArrTail_cons (v : Value) (t : List Value) (i : Nat) (s : List Char) :
    rootArrTail (v :: t) i s = rootItemRender v ++ rootArrSepT t i s := by
  cases t <;> simp [rootArrTail, rootArrSepT]

/-- Rendered text of an entry's value in the root-compact object
branch of `toToon`: a non-empty array value is rendered inline with
`rootItems`, any other value renders at indent 0. -/
def rootValRender : Value → Nat → List Char
  | .arr (x :: m), i =>
    '[' :: '\n' :: indentChars (i + 1) ++
      joinSep (',' :: '\n' :: indentChars (i + 1)) (rootItems (x :: m)) ++
      '\n' :: indentChars i ++ [']']
  | v, _ => toToonChars v 0

/-- Text of the rendered entries of a root-compact `toToon` object from
the current key position to just past the closing brace, followed by
the suffix `s`. -/
def rootPairTail : List (String × Value) → Nat → List Char → List Char
  | [], i, s => '\n' :: indentChars i ++ '\x7d' :: s
  | [(k, v)], i, s =>
    '"' :: k.data ++ '"' :: ':' :: ' ' :: rootValRender v i ++
      '\n' :: indentChars i ++ '\x7d' :: s
  | (k, v) :: q :: t, i, s =>
    '"' :: k.data ++ '"' :: ':' :: ' ' :: rootValRender v i ++
      ',' :: '\n' :: indentChars (i + 1) ++ rootPairTail (q :: t) i s

/-- Text following an entry's rendered value inside a root-compact
`toToon` object. -/
def rootValSepT : List (String × Value) → Nat → List Char → List Char
  | [], i, s => '\n' :: indentChars i ++ '\x7d' :: s
  | q :: t, i, s => ',' :: '\n' :: indentChars (i + 1) ++ rootPairTail (q :: t) i s

theorem rootPairTail_cons (k : String) (v : Value) (t : List (String × Value))
    (i : Nat) (s : List Char) :
    rootPairTail ((k, v) :: t) i s =
      '"' :: k.data ++ '"' :: ':' :: ' ' :: rootValRender v i ++
        rootValSepT t i s := by
  cases t <;> simp [rootPairTail, rootValSepT]

theorem objValSepT_headOk (t : List (String × Value)) (i : Nat) (s : List Char) :
    jheadOk (objValSepT t i s) = true := by
  cases t <;> simp [objValSepT, jheadOk]

theorem arrValSepT_headOk (t : List Value) (i : Nat) (s : List Char) :
    jheadOk (arrValSepT t i s) = true := by
  cases t <;> simp [arrValSepT, jheadOk]

theorem cValSepT_headOk (t : List (String × Value)) (s : List Char) :
    jheadOk (cValSepT t s) = true := by
  cases t <;> simp [cValSepT, jheadOk]

theorem rootArrSepT_headOk (t : List Value) (i : Nat) (s : List Char) :
    jheadOk (rootArrSepT t i s) = true := by
  cases t <;> simp [rootArrSepT, jheadOk]

theorem rootValSepT_headOk (t : List (String × Value)) (i : Nat) (s : List Char) :
    jheadOk (rootValSepT t i s) = true := by
  cases t <;> simp [rootValSepT, jheadOk]

theorem compactPairs_ne (q : String × Value) (u : List (String × Value)) :
    compactPairs (q :: u) ≠ [] := by
  obtain ⟨k, v⟩ := q
  simp [compactPairs]

theorem toonPairs_ne (q : String × Value) (u : List (String × Value)) (i : Nat) :
    toonPairs (q :: u) i ≠ [] := by
  obtain ⟨k, v⟩ := q
  simp [toonPairs]

theorem toonItems_ne (w : Value) (u : List Value) (i : Nat) :
    toonItems (w :: u) i ≠ [] := by
  simp [toonItems]

theorem rootPairs_entry (k : String) (v : Value) (t : List (String × Value))
    (i : Nat) :
    rootPairs ((k, v) :: t) i =
      ('"' :: k.data ++ '"' :: ':' :: ' ' :: rootValRender v i) :: rootPairs t i := by
  cases v with
  | arr m =>
    cases m with
    | nil => simp [rootPairs, rootValRender]
    | cons x xs => simp [rootPairs, rootValRender]
  | null => simp [rootPairs, rootValRender]
  | bool b => simp [rootPairs, rootValRender]
  | num n => simp [rootPairs, rootValRender]
  | str s => simp [rootPairs, rootValRender]
  | obj p => simp [rootPairs, rootValRender]

theorem rootPairs_ne (q : String × Value) (u : List (String × Value)) (i : Nat) :
    rootPairs (q :: u) i ≠ [] := by
  obtain ⟨k, v⟩ := q
  rw [rootPairs_entry]
  simp

theorem bridge_cPair (p : String × Value) (t : List (String × Value))
    (Z : List Char) :
    joinSep ", ".data (compactPairs (p :: t)) ++ ' ' :: '\x7d' :: Z =
      cPairTail (p :: t) Z := by
  induction t generalizing p with
  | nil =>
    obtain ⟨k, v⟩ := p
    simp [compactPairs, joinSep, cPairTail, List.append_assoc]
  | cons q u ih =>
    obtain ⟨k, v⟩ := p
    have h1 : compactPairs ((k, v) :: q :: u) =
        ('"' :: k.data ++ '"' :: ':' :: ' ' :: toToonChars v 0) ::
          compactPairs (q :: u) := by
      simp [compactPairs]
    rw [h1, joinSep_cons_ne _ _ _ (compactPairs_ne q u)]
    have h2 : cPairTail ((k, v) :: q :: u) Z =
        '"' :: k.data ++ '"' :: ':' :: ' ' :: toToonChars v 0 ++
          ',' :: ' ' :: cPairTail (q :: u) Z := rfl
    rw [h2]
    have h3 := ih q
    simp only [List.append_assoc, List.cons_append] at h3 ⊢
    rw [h3]
    simp

theorem bridge_block (q : String × Value) (u : List (String × Value))
    (Z : List Char) :
    rootItemRender (.obj (q :: u)) ++ Z = '\x7b' :: ' ' :: cPairTail (q :: u) Z := by
  rw [rootItemRender, ← bridge_cPair q u Z]
  simp [List.append_assoc]

theorem bridge_rootArr (v : Value) (t : List Value) (i : Nat) (s : List Char) :
    joinSep (',' :: '\n' :: indentChars (i + 1)) (rootItems (v :: t)) ++
      '\n' :: indentChars i ++ ']' :: s = rootArrTail (v :: t) i s := by
  induction t generalizing v with
  | nil =>
    rw [rootItems_cons, rootItems, joinSep_one]
    simp [rootArrTail, List.append_assoc]
  | cons w u ih =>
    rw [rootItems_cons, joinSep_cons_ne _ _ _ (rootItems_ne w u)]
    have h2 : rootArrTail (v :: w :: u) i s =
        rootItemRender v ++ ',' :: '\n' :: indentChars (i + 1) ++
          rootArrTail (w :: u) i s := rfl
    rw [h2]
    have h3 := ih w
    simp only [List.append_assoc, List.cons_append] at h3 ⊢
    rw [h3]

theorem rootValRender_arr (x : Value) (m : List Value) (i : Nat) (Z : List Char) :
    rootValRender (.arr (x :: m)) i ++ Z =
      '[' :: '\n' :: indentChars (i + 1) ++ rootArrTail (x :: m) i Z := by
  rw [rootValRender, ← bridge_rootArr x m i Z]
  simp [List.append_assoc]

theorem bridge_rootPair (p : String × Value) (t : List (String × Value))
    (i : Nat) (s : List Char) :
    joinSep (',' :: '\n' :: indentChars (i + 1)) (rootPairs (p :: t) i) ++
      '\n' :: indentChars i ++ '\x7d' :: s = rootPairTail (p :: t) i s := by
  induction t generalizing p with
  | nil =>
    obtain ⟨k, v⟩ := p
    rw [rootPairs_entry, rootPairs, joinSep_one]
    simp [rootPairTail, List.append_assoc]
  | cons q u ih =>
    obtain ⟨k, v⟩ := p
    rw [rootPairs_entry, joinSep_cons_ne _ _ _ (rootPairs_ne q u i)]
    have h2 : rootPairTail ((k, v) :: q :: u) i s =
        '"' :: k.data ++ '"' :: ':' :: ' ' :: rootValRender v i ++
          ',' :: '\n' :: indentChars (i + 1) ++ rootPairTail (q :: u) i s := rfl
    rw [h2]
    have h3 := ih q
    simp only [List.append_assoc, List.cons_append] at h3 ⊢
    rw [h3]

theorem bridge_toonObjC (p : String × Value) (t : List (String × Value))
    (i : Nat) (s : List Char)
    (hC : (isCompactObjB (p :: t) && i == 0) = true) :
    toToonChars (.obj (p :: t)) i ++ s =
      '\x7b' :: '\n' :: indentChars (i + 1) ++ rootPairTail (p :: t) i s := by
  have h0 : toToonChars (.obj (p :: t)) i =
      ['\x7b', '\n'] ++ (indentChars (i + 1) ++
        (joinSep (',' :: '\n' :: indentChars (i + 1)) (rootPairs (p :: t) i) ++
          '\n' :: indentChars i ++ ['\x7d'])) := by
    simp [toToonChars, hC, List.append_assoc]
  rw [h0]
  have h4 := bridge_rootPair p t i s
  simp only [List.append_assoc, List.cons_append, List.nil_append] at h4 ⊢
  rw [h4]

theorem bridge_toonObjN (p : String × Value) (t : List (String × Value))
    (i : Nat) (s : List Char)
    (hC : (isCompactObjB (p :: t) && i == 0) = false) :
    toToonChars (.obj (p :: t)) i ++ s =
      '\x7b' :: '\n' :: indentChars (i + 1) ++ objTailT (p :: t) i s := by
  have aux : ∀ (t : List (String × Value)) (p : String × Value),
      joinSep [',', '\n'] (toonPairs (p :: t) (i + 1)) ++
        '\n' :: indentChars i ++ '\x7d' :: s =
      indentChars (i + 1) ++ objTailT (p :: t) i s := by
    intro t
    induction t with
    | nil =>
      intro p
      obtain ⟨k, v⟩ := p
      simp [toonPairs, joinSep, objTailT, List.append_assoc]
    | cons q u ih =>
      intro p
      obtain ⟨k, v⟩ := p
      have h1 : toonPairs ((k, v) :: q :: u) (i + 1) =
          (indentChars (i + 1) ++ '"' :: k.data ++ '"' :: ':' :: ' ' ::
            toToonChars v (i + 1)) :: toonPairs (q :: u) (i + 1) := by
        simp [toonPairs]
      rw [h1, joinSep_cons_ne _ _ _ (toonPairs_ne q u (i + 1))]
      have h2 : objTailT ((k, v) :: q :: u) i s =
          '"' :: k.data ++ '"' :: ':' :: ' ' :: toToonChars v (i + 1) ++
            ',' :: '\n' :: indentChars (i + 1) ++ objTailT (q :: u) i s := rfl
      rw [h2]
      have h3 := ih q
      simp only [List.append_assoc, List.cons_append] at h3 ⊢
      rw [h3]
      simp
  have h0 : toToonChars (.obj (p :: t)) i =
      ['\x7b', '\n'] ++ (joinSep [',', '\n'] (toonPairs (p :: t) (i + 1)) ++
        '\n' :: indentChars i ++ ['\x7d']) := by
    simp [toToonChars, hC, List.append_assoc]
  rw [h0]
  have h4 := aux t p
  simp only [List.append_assoc, List.cons_append, List.nil_append] at h4 ⊢
  rw [h4]

theorem bridge_toonArrN (v : Value) (t : List Value) (i : Nat) (s : List Char)
    (hC : isCompactArrB (v :: t) = false) :
    toToonChars (.arr (v :: t)) i ++ s =
      '[' :: '\n' :: indentChars (i + 1) ++ arrTailT (v :: t) i s := by
  have aux : ∀ (t : List Value) (v : Value),
      joinSep [',', '\n'] (toonItems (v :: t) (i + 1)) ++
        '\n' :: indentChars i ++ ']' :: s =
      indentChars (i + 1) ++ arrTailT (v :: t) i s := by
    intro t
    induction t with
    | nil =>
      intro v
      simp [toonItems, joinSep, arrTailT, List.append_assoc]
    | cons w u ih =>
      intro v
      have h1 : toonItems (v :: w :: u) (i + 1) =
          (indentChars (i + 1) ++ toToonChars v (i + 1)) ::
            toonItems (w :: u) (i + 1) := by
        simp [toonItems]
      rw [h1, joinSep_cons_ne _ _ _ (toonItems_ne w u (i + 1))]
      have h2 : arrTailT (v :: w :: u) i s =
          toToonChars v (i + 1) ++ ',' :: '\n' :: indentChars (i + 1) ++
            arrTailT (w :: u) i s := rfl
      rw [h2]
      have h3 := ih w
      simp only [List.append_assoc, List.cons_append] at h3 ⊢
      rw [h3]
      simp
  have h0 : toToonChars (.arr (v :: t)) i =
      ['[', '\n'] ++ (joinSep [',', '\n'] (toonItems (v :: t) (i + 1)) ++
        '\n' :: indentChars i ++ [']']) := by
    simp [toToonChars, hC, List.append_assoc]
  rw [h0]
  have h4 := aux t v
  simp only [List.append_assoc, List.cons_append, List.nil_append] at h4 ⊢
  rw [h4]

theorem bridge_toonArrC (v : Value) (t : List Value) (i : Nat) (s : List Char)
    (hC : isCompactArrB (v :: t) = true) :
    toToonChars (.arr (v :: t)) i ++ s =
      '[' :: '\n' :: indentChars (i + 1) ++ rootArrTail (v :: t) i s := by
  have h0 : toToonChars (.arr (v :: t)) i =
      ['[', '\n'] ++ (indentChars (i + 1) ++
        (joinSep (',' :: '\n' :: indentChars (i + 1)) (compactBlocks (v :: t)) ++
          '\n' :: indentChars i ++ [']'])) := by
    simp [toToonChars, hC, List.append_assoc]
  rw [h0, compactBlocks_eq (v :: t) hC]
  have h4 := bridge_rootArr v t i s
  simp only [List.append_assoc, List.cons_append, List.nil_append] at h4 ⊢
  rw [h4]

/-- Strict round-trip statement for `jValueF` on `toToon` output. -/
def JA (fuel : Nat) : Prop :=
  ∀ V i s, wfV V = true → safeV V = true → jheadOk s = true →
    (toToonChars V i).length + s.length + 1 ≤ fuel →
    jValueF fuel (toToonChars V i ++ s) = .ok (V, s)

/-- Strict round-trip statement for the object-member loop on the
entries of a non-compact `toToon` object. -/
def JB (fuel : Nat) : Prop :=
  ∀ (l : List (String × Value)) acc i s, l ≠ [] → wfP l = true →
    safeP l = true → nodupKeys (acc ++ l) = true → jheadOk s = true →
    (objTailT l i s).length + 1 ≤ fuel →
    jObjLoopF fuel (objTailT l i s) acc = .ok (.obj (acc ++ l), s)

/-- Strict round-trip statement for the array-element loop on the
elements of a non-compact `toToon` array. -/
def JC (fuel : Nat) : Prop :=
  ∀ (l : List Value) acc i s, l ≠ [] → wfL l = true → safeL l = true →
    jheadOk s = true → (arrTailT l i s).length + 2 ≤ fuel →
    jArrLoopF fuel (arrTailT l i s) acc = .ok (.arr (acc ++ l), s)

/-- Strict round-trip statement for the object-member loop on the pairs
of a compact brace block. -/
def JP (fuel : Nat) : Prop :=
  ∀ (l : List (String × Value)) acc s, l ≠ [] → wfP l = true →
    safeP l = true → nodupKeys (acc ++ l) = true → jheadOk s = true →
    (cPairTail l s).length + 1 ≤ fuel →
    jObjLoopF fuel (cPairTail l s) acc = .ok (.obj (acc ++ l), s)

/-- Strict round-trip statement for the object-member loop on the
entries of a root-compact `toToon` object. -/
def JR (fuel : Nat) : Prop :=
  ∀ (l : List (String × Value)) acc i s, l ≠ [] → wfP l = true →
    safeP l = true → nodupKeys (acc ++ l) = true → jheadOk s = true →
    (rootPairTail l i s).length + 1 ≤ fuel →
    jObjLoopF fuel (rootPairTail l i s) acc = .ok (.obj (acc ++ l), s)

/-- Strict round-trip statement for the array-element loop on the
inline elements of an array in `toToon`'s compact branches. -/
def JI (fuel : Nat) : Prop :=
  ∀ (l : List Value) acc i s, l ≠ [] → wfL l = true → safeL l = true →
    jheadOk s = true → (rootArrTail l i s).length + 3 ≤ fuel →
    jArrLoopF fuel (rootArrTail l i s) acc = .ok (.arr (acc ++ l), s)

theorem stepJA (fuel : Nat) (ihB : ∀ g, g < fuel → JB g)
    (ihC : ∀ g, g < fuel → JC g) (ihR : ∀ g, g < fuel → JR g)
    (ihI : ∀ g, g < fuel → JI g) : JA fuel := by
  intro V i s hwf hsafe hok hfl
  cases fuel with
  | zero => omega
  | succ f =>
  cases V with
  | null =>
    have htext : toToonChars .null i ++ s = 'n' :: 'u' :: 'l' :: 'l' :: s := by
      simp [toToonChars]
    rw [htext]
    simp only [jValueF]
    rw [jws_cons_not 'n' _ (by decide)]
    simp [headIs, numStart, startsL, List.drop,
      show isDigit 'n' = false from by decide]
  | bool b =>
    cases b with
    | false =>
      have htext : toToonChars (.bool false) i ++ s =
          'f' :: 'a' :: 'l' :: 's' :: 'e' :: s := by
        simp [toToonChars]
      rw [htext]
      simp only [jValueF]
      rw [jws_cons_not 'f' _ (by decide)]
      simp [headIs, numStart, startsL, List.drop,
        show isDigit 'f' = false from by decide]
    | true =>
      have htext : toToonChars (.bool true) i ++ s =
          't' :: 'r' :: 'u' :: 'e' :: s := by
        simp [toToonChars]
      rw [htext]
      simp only [jValueF]
      rw [jws_cons_not 't' _ (by decide)]
      simp [headIs, numStart, startsL, List.drop,
        show isDigit 't' = false from by decide]
  | num n =>
    obtain ⟨c, r, hcr, hon⟩ := numChars_head2 n
    have hcws : isWs c = false := by
      rcases hon with h | h
      · subst h; decide
      · exact isDigit_not_ws c h
    have hne : ∀ d : Char, isDigit d = false → d ≠ '-' → c ≠ d := by
      intro d hd1 hd2 he
      rcases hon with h | h
      · apply hd2; rw [← he]; exact h
      · subst he; rw [h] at hd1; cases hd1
    have htext : toToonChars (.num n) i ++ s = c :: (r ++ s) := by
      simp [toToonChars, hcr]
    have hnum := jNum_render n s hok
    have hns := numStart_render n s
    have htext2 : numChars n ++ s = c :: (r ++ s) := by simp [hcr]
    rw [htext2] at hnum hns
    rw [htext]
    simp only [jValueF]
    rw [jws_cons_not c _ hcws]
    rw [if_neg (by simp [headIs, hne '\x7b' (by decide) (by decide)])]
    rw [if_neg (by simp [headIs, hne '[' (by decide) (by decide)])]
    rw [if_neg (by simp [headIs, hne '"' (by decide) (by decide)])]
    rw [if_neg (by simp [startsL, Ne.symm (hne 't' (by decide) (by decide))])]
    rw [if_neg (by simp [startsL, Ne.symm (hne 'f' (by decide) (by decide))])]
    rw [if_neg (by simp [startsL, Ne.symm (hne 'n' (by decide) (by decide))])]
    rw [if_pos (by simp [hns])]
    rw [hnum]
  | str s0 =>
    have htext : toToonChars (.str s0) i ++ s =
        '"' :: (escapeChars s0.data ++ '"' :: s) := by
      simp [toToonChars, strLit]
    rw [htext]
    simp only [jValueF]
    rw [jws_cons_not '"' _ (by decide)]
    rw [if_neg (by simp [headIs]), if_neg (by simp [headIs]),
      if_pos (by simp [headIs])]
    have hsc : s0.data.all safeStrChar = true := by
      simpa [safeV] using hsafe
    have hdrop : (('"' :: (escapeChars s0.data ++ '"' :: s)).drop 1) =
        escapeChars s0.data ++ '"' :: s := rfl
    rw [hdrop, jstr_esc s0.data [] s hsc]
    simp [mk_data]
  | arr l =>
    cases l with
    | nil =>
      have htext : toToonChars (.arr []) i ++ s = '[' :: ']' :: s := by
        simp [toToonChars]
      rw [htext]
      simp only [jValueF]
      rw [jws_cons_not '[' _ (by decide)]
      rw [if_neg (by simp [headIs]), if_pos (by simp [headIs])]
      have hdrop : (('[' :: ']' :: s).drop 1) = ']' :: s := rfl
      rw [hdrop, jws_cons_not ']' _ (by decide)]
      rw [if_pos (by simp [headIs])]
      simp [List.drop]
    | cons v t =>
      have hwl : wfL (v :: t) = true := by simpa [wfV] using hwf
      have hsl : safeL (v :: t) = true := by simpa [safeV] using hsafe
      rcases Bool.eq_false_or_eq_true (isCompactArrB (v :: t)) with hC | hC
      · have hbr := bridge_toonArrC v t i s hC
        have hlen := congrArg List.length hbr
        simp only [List.length_append, List.length_cons, indentChars,
          List.length_replicate] at hlen
        obtain ⟨c, r, hcr, hcws, hcrb, hccb⟩ := rootItemRender_head v
        have hhead : rootArrTail (v :: t) i s =
            c :: (r ++ rootArrSepT t i s) := by
          rw [rootArrTail_cons, hcr, List.cons_append]
        cases f with
        | zero => omega
        | succ f2 =>
        rw [hbr]
        simp only [List.cons_append]
        simp only [jValueF]
        rw [jws_cons_not '[' _ (by decide)]
        rw [if_neg (by simp [headIs]), if_pos (by simp [headIs])]
        have hdrop : (('[' :: '\n' :: (indentChars (i + 1) ++
            rootArrTail (v :: t) i s)).drop 1) =
            '\n' :: (indentChars (i + 1) ++ rootArrTail (v :: t) i s) := rfl
        rw [hdrop, jws_nl_ind (i + 1) _ c (r ++ rootArrSepT t i s) hhead hcws]
        rw [if_neg (by rw [hhead]; simp [headIs, hcrb])]
        have := ihI (f2 + 1) (by omega) (v :: t) [] i s (by simp) hwl hsl hok
          (by omega)
        rw [this]
        simp
      · have hbr := bridge_toonArrN v t i s hC
        have hlen := congrArg List.length hbr
        simp only [List.length_append, List.length_cons, indentChars,
          List.length_replicate] at hlen
        obtain ⟨c, r, hcr, hcws, hcrb, hccb⟩ := toToon_head v (i + 1)
        have hhead : arrTailT (v :: t) i s =
            c :: (r ++ arrValSepT t i s) := by
          rw [arrTailT_cons, hcr, List.cons_append]
        cases f with
        | zero => omega
        | succ f2 =>
        rw [hbr]
        simp only [List.cons_append]
        simp only [jValueF]
        rw [jws_cons_not '[' _ (by decide)]
        rw [if_neg (by simp [headIs]), if_pos (by simp [headIs])]
        have hdrop : (('[' :: '\n' :: (indentChars (i + 1) ++
            arrTailT (v :: t) i s)).drop 1) =
            '\n' :: (indentChars (i + 1) ++ arrTailT (v :: t) i s) := rfl
        rw [hdrop, jws_nl_ind (i + 1) _ c (r ++ arrValSepT t i s) hhead hcws]
        rw [if_neg (by rw [hhead]; simp [headIs, hcrb])]
        have := ihC (f2 + 1) (by omega) (v :: t) [] i s (by simp) hwl hsl hok
          (by omega)
        rw [this]
        simp
  | obj l =>
    cases l with
    | nil =>
      have htext : toToonChars (.obj []) i ++ s = '\x7b' :: '\x7d' :: s := by
        simp [toToonChars]
      rw [htext]
      simp only [jValueF]
      rw [jws_cons_not '\x7b' _ (by decide)]
      rw [if_pos (by simp [headIs])]
      have hdrop : (('\x7b' :: '\x7d' :: s).drop 1) = '\x7d' :: s := rfl
      rw [hdrop, jws_cons_not '\x7d' _ (by decide)]
      rw [if_pos (by simp [headIs])]
      simp [List.drop]
    | cons p t =>
      have hwo : nodupKeys (p :: t) = true ∧ wfP (p :: t) = true := by
        simpa [wfV] using hwf
      have hso : safeP (p :: t) = true := by simpa [safeV] using hsafe
      obtain ⟨k, v⟩ := p
      rcases Bool.eq_false_or_eq_true (isCompactObjB ((k, v) :: t) && i == 0)
        with hg | hg
      · have hbr := bridge_toonObjC (k, v) t i s hg
        have hlen := congrArg List.length hbr
        simp only [List.length_append, List.length_cons, indentChars,
          List.length_replicate] at hlen
        have hhead : rootPairTail ((k, v) :: t) i s =
            '"' :: (k.data ++ '"' :: ':' :: ' ' :: rootValRender v i ++
              rootValSepT t i s) := by
          rw [rootPairTail_cons]
          simp [List.append_assoc]
        cases f with
        | zero => omega
        | succ f2 =>
        rw [hbr]
        simp only [List.cons_append]
        simp only [jValueF]
        rw [jws_cons_not '\x7b' _ (by decide)]
        rw [if_pos (by simp [headIs])]
        have hdrop : (('\x7b' :: '\n' :: (indentChars (i + 1) ++
            rootPairTail ((k, v) :: t) i s)).drop 1) =
            '\n' :: (indentChars (i + 1) ++ rootPairTail ((k, v) :: t) i s) := rfl
        rw [hdrop, jws_nl_ind (i + 1) _ '"' _ hhead (by decide)]
        rw [if_neg (by rw [hhead]; simp [headIs])]
        have := ihR (f2 + 1) (by omega) ((k, v) :: t) [] i s (by simp) hwo.2
          hso (by simpa using hwo.1) hok (by omega)
        rw [this]
        simp
      · have hbr := bridge_toonObjN (k, v) t i s hg
        have hlen := congrArg List.length hbr
        simp only [List.length_append, List.length_cons, indentChars,
          List.length_replicate] at hlen
        have hhead : objTailT ((k, v) :: t) i s =
            '"' :: (k.data ++ '"' :: ':' :: ' ' :: toToonChars v (i + 1) ++
              objValSepT t i s) := by
          rw [objTailT_cons]
          simp [List.append_assoc]
        cases f with
        | zero => omega
        | succ f2 =>
        rw [hbr]
        simp only [List.cons_append]
        simp only [jValueF]
        rw [jws_cons_not '\x7b' _ (by decide)]
        rw [if_pos (by simp [headIs])]
        have hdrop : (('\x7b' :: '\n' :: (indentChars (i + 1) ++
            objTailT ((k, v) :: t) i s)).drop 1) =
            '\n' :: (indentChars (i + 1) ++ objTailT ((k, v) :: t) i s) := rfl
        rw [hdrop, jws_nl_ind (i + 1) _ '"' _ hhead (by decide)]
        rw [if_neg (by rw [hhead]; simp [headIs])]
        have := ihB (f2 + 1) (by omega) ((k, v) :: t) [] i s (by simp) hwo.2
          hso (by simpa using hwo.1) hok (by omega)
        rw [this]
        simp

theorem stepJB (fuel : Nat) (ihA : ∀ g, g < fuel → JA g)
    (ihB : ∀ g, g < fuel → JB g) : JB fuel := by
  intro l acc i s hl hwfp hsp hnd hok hfl
  cases fuel with
  | zero => omega
  | succ g =>
  rcases l with _ | ⟨⟨k, v⟩, t⟩
  · exact absurd rfl hl
  have hsh : objTailT ((k, v) :: t) i s =
      '"' :: (k.data ++ '"' :: (':' :: ' ' ::
        (toToonChars v (i + 1) ++ objValSepT t i s))) := by
    rw [objTailT_cons]
    simp [List.append_assoc]
  have hps : k.data.all safeKeyChar = true ∧ safeV v = true ∧ safeP t = true := by
    have h' := hsp
    simp only [safeP, Bool.and_eq_true] at h'
    exact ⟨h'.1.1, h'.1.2, h'.2⟩
  have hpw : wfV v = true ∧ wfP t = true := by
    simpa [wfP] using hwfp
  have hlen := congrArg List.length hsh
  simp only [List.length_append, List.length_cons] at hlen
  rw [hsh]
  simp only [jObjLoopF]
  rw [if_pos (by simp [headIs])]
  have hstr := jstr_raw k.data []
    (':' :: ' ' :: (toToonChars v (i + 1) ++ objValSepT t i s)) hps.1
  simp only [List.nil_append, mk_data] at hstr
  have hdrop : (('"' :: (k.data ++ '"' :: (':' :: ' ' ::
      (toToonChars v (i + 1) ++ objValSepT t i s)))).drop 1) =
      k.data ++ '"' :: (':' :: ' ' ::
        (toToonChars v (i + 1) ++ objValSepT t i s)) := rfl
  rw [hdrop, hstr]
  simp only []
  rw [jws_cons_not ':' _ (by decide)]
  rw [if_pos (by simp [headIs])]
  obtain ⟨c2, r2, hcr2, hc2ws, _, _⟩ := toToon_head v (i + 1)
  have hvs : toToonChars v (i + 1) ++ objValSepT t i s =
      c2 :: (r2 ++ objValSepT t i s) := by
    rw [hcr2]; simp
  have hdrop2 : ((':' :: ' ' ::
      (toToonChars v (i + 1) ++ objValSepT t i s)).drop 1) =
      ' ' :: (toToonChars v (i + 1) ++ objValSepT t i s) := rfl
  rw [hdrop2, jws_sp _ c2 _ hvs hc2ws]
  have hA := ihA g (by omega) v (i + 1) (objValSepT t i s) hpw.1 hps.2.1
    (objValSepT_headOk t i s) (by omega)
  rw [hA]
  simp only []
  have hsk : setKey acc k v = acc ++ [(k, v)] :=
    setKey_append acc k v (nodup_mid acc k v t hnd)
  rw [hsk]
  cases t with
  | nil =>
    have h1 : objValSepT ([] : List (String × Value)) i s =
        '\n' :: (indentChars i ++ '\x7d' :: s) := by
      simp [objValSepT]
    rw [h1, jws_nl_ind i _ '\x7d' s rfl (by decide)]
    rw [if_pos (by simp [headIs])]
    simp [List.drop]
  | cons q t' =>
    have h1 : objValSepT (q :: t') i s =
        ',' :: ('\n' :: (indentChars (i + 1) ++ objTailT (q :: t') i s)) := by
      simp [objValSepT]
    rw [h1, jws_cons_not ',' _ (by decide)]
    rw [if_neg (by simp [headIs]), if_pos (by simp [headIs])]
    obtain ⟨k2, v2⟩ := q
    have hw : objTailT ((k2, v2) :: t') i s =
        '"' :: (k2.data ++ '"' :: (':' :: ' ' ::
          (toToonChars v2 (i + 1) ++ objValSepT t' i s))) := by
      rw [objTailT_cons]
      simp [List.append_assoc]
    have hdrop3 : ((',' :: ('\n' :: (indentChars (i + 1) ++
        objTailT ((k2, v2) :: t') i s))).drop 1) =
        '\n' :: (indentChars (i + 1) ++ objTailT ((k2, v2) :: t') i s) := rfl
    rw [hdrop3, jws_nl_ind (i + 1) _ '"' _ hw (by decide)]
    have hlen1 := congrArg List.length h1
    simp only [List.length_cons, List.length_append, indentChars,
      List.length_replicate] at hlen1
    have hnd2 : nodupKeys ((acc ++ [(k, v)]) ++ (k2, v2) :: t') = true := by
      rw [List.append_assoc]
      simpa using hnd
    have hB := ihB g (by omega) ((k2, v2) :: t') (acc ++ [(k, v)]) i s (by simp)
      hpw.2 hps.2.2 hnd2 hok (by omega)
    rw [hB]
    simp

theorem stepJC (fuel : Nat) (ihA : ∀ g, g < fuel → JA g)
    (ihC : ∀ g, g < fuel → JC g) : JC fuel := by
  intro l acc i s hl hwfl hsl hok hfl
  cases fuel with
  | zero => omega
  | succ g =>
  rcases l with _ | ⟨v, t⟩
  · exact absurd rfl hl
  have hwv : wfV v = true ∧ wfL t = true := by
    simpa [wfL] using hwfl
  have hsv : safeV v = true ∧ safeL t = true := by
    simpa [safeL] using hsl
  have hlen := congrArg List.length (arrTailT_cons v t i s)
  simp only [List.length_append] at hlen
  simp only [jArrLoopF]
  rw [arrTailT_cons]
  have hA := ihA g (by omega) v (i + 1) (arrValSepT t i s) hwv.1 hsv.1
    (arrValSepT_headOk t i s) (by omega)
  rw [hA]
  simp only []
  cases t with
  | nil =>
    have h1 : arrValSepT ([] : List Value) i s =
        '\n' :: (indentChars i ++ ']' :: s) := by
      simp [arrValSepT]
    rw [h1, jws_nl_ind i _ ']' s rfl (by decide)]
    rw [if_pos (by simp [headIs])]
    simp [List.drop]
  | cons w t' =>
    have h1 : arrValSepT (w :: t') i s =
        ',' :: ('\n' :: (indentChars (i + 1) ++ arrTailT (w :: t') i s)) := by
      simp [arrValSepT]
    rw [h1, jws_cons_not ',' _ (by decide)]
    rw [if_neg (by simp [headIs]), if_pos (by simp [headIs])]
    obtain ⟨c3, r3, hcr3, hc3ws, _, _⟩ := toToon_head w (i + 1)
    have hw : arrTailT (w :: t') i s = c3 :: (r3 ++ arrValSepT t' i s) := by
      rw [arrTailT_cons, hcr3]
      simp
    have hdrop : ((',' :: ('\n' :: (indentChars (i + 1) ++
        arrTailT (w :: t') i s))).drop 1) =
        '\n' :: (indentChars (i + 1) ++ arrTailT (w :: t') i s) := rfl
    rw [hdrop, jws_nl_ind (i + 1) _ c3 _ hw hc3ws]
    have hlen1 := congrArg List.length h1
    simp only [List.length_cons, List.length_append, indentChars,
      List.length_replicate] at hlen1
    have hC := ihC g (by omega) (w :: t') (acc ++ [v]) i s (by simp) hwv.2
      hsv.2 hok (by omega)
    rw [hC]
    simp

theorem stepJP (fuel : Nat) (ihA : ∀ g, g < fuel → JA g)
    (ihP : ∀ g, g < fuel → JP g) : JP fuel := by
  intro l acc s hl hwfp hsp hnd hok hfl
  cases fuel with
  | zero => omega
  | succ g =>
  rcases l with _ | ⟨⟨k, v⟩, t⟩
  · exact absurd rfl hl
  have hsh : cPairTail ((k, v) :: t) s =
      '"' :: (k.data ++ '"' :: (':' :: ' ' ::
        (toToonChars v 0 ++ cValSepT t s))) := by
    rw [cPairTail_cons]
    simp [List.append_assoc]
  have hps : k.data.all safeKeyChar = true ∧ safeV v = true ∧ safeP t = true := by
    have h' := hsp
    simp only [safeP, Bool.and_eq_true] at h'
    exact ⟨h'.1.1, h'.1.2, h'.2⟩
  have hpw : wfV v = true ∧ wfP t = true := by
    simpa [wfP] using hwfp
  have hlen := congrArg List.length hsh
  simp only [List.length_append, List.length_cons] at hlen
  rw [hsh]
  simp only [jObjLoopF]
  rw [if_pos (by simp [headIs])]
  have hstr := jstr_raw k.data []
    (':' :: ' ' :: (toToonChars v 0 ++ cValSepT t s)) hps.1
  simp only [List.nil_append, mk_data] at hstr
  have hdrop : (('"' :: (k.data ++ '"' :: (':' :: ' ' ::
      (toToonChars v 0 ++ cValSepT t s)))).drop 1) =
      k.data ++ '"' :: (':' :: ' ' :: (toToonChars v 0 ++ cValSepT t s)) := rfl
  rw [hdrop, hstr]
  simp only []
  rw [jws_cons_not ':' _ (by decide)]
  rw [if_pos (by simp [headIs])]
  obtain ⟨c2, r2, hcr2, hc2ws, _, _⟩ := toToon_head v 0
  have hvs : toToonChars v 0 ++ cValSepT t s = c2 :: (r2 ++ cValSepT t s) := by
    rw [hcr2]; simp
  have hdrop2 : ((':' :: ' ' :: (toToonChars v 0 ++ cValSepT t s)).drop 1) =
      ' ' :: (toToonChars v 0 ++ cValSepT t s) := rfl
  rw [hdrop2, jws_sp _ c2 _ hvs hc2ws]
  have hA := ihA g (by omega) v 0 (cValSepT t s) hpw.1 hps.2.1
    (cValSepT_headOk t s) (by omega)
  rw [hA]
  simp only []
  have hsk : setKey acc k v = acc ++ [(k, v)] :=
    setKey_append acc k v (nodup_mid acc k v t hnd)
  rw [hsk]
  cases t with
  | nil =>
    have h1 : cValSepT ([] : List (String × Value)) s = ' ' :: ('\x7d' :: s) := by
      simp [cValSepT]
    rw [h1, jws_sp _ '\x7d' s rfl (by decide)]
    rw [if_pos (by simp [headIs])]
    simp [List.drop]
  | cons q t' =>
    have h1 : cValSepT (q :: t') s = ',' :: (' ' :: cPairTail (q :: t') s) := by
      simp [cValSepT]
    rw [h1, jws_cons_not ',' _ (by decide)]
    rw [if_neg (by simp [headIs]), if_pos (by simp [headIs])]
    obtain ⟨k2, v2⟩ := q
    have hw : cPairTail ((k2, v2) :: t') s =
        '"' :: (k2.data ++ '"' :: (':' :: ' ' ::
          (toToonChars v2 0 ++ cValSepT t' s))) := by
      rw [cPairTail_cons]
      simp [List.append_assoc]
    have hdrop3 : ((',' :: (' ' :: cPairTail ((k2, v2) :: t') s)).drop 1) =
        ' ' :: cPairTail ((k2, v2) :: t') s := rfl
    rw [hdrop3, jws_sp _ '"' _ hw (by decide)]
    have hlen1 := congrArg List.length h1
    simp only [List.length_cons, List.length_append] at hlen1
    have hnd2 : nodupKeys ((acc ++ [(k, v)]) ++ (k2, v2) :: t') = true := by
      rw [List.append_assoc]
      simpa using hnd
    have hP := ihP g (by omega) ((k2, v2) :: t') (acc ++ [(k, v)]) s (by simp)
      hpw.2 hps.2.2 hnd2 hok (by omega)
    rw [hP]
    simp

theorem stepJI (fuel : Nat) (ihA : ∀ g, g < fuel → JA g)
    (ihP : ∀ g, g < fuel → JP g) (ihI : ∀ g, g < fuel → JI g) : JI fuel := by
  intro l acc i s hl hwfl hsl hok hfl
  cases fuel with
  | zero => omega
  | succ g =>
  rcases l with _ | ⟨v, t⟩
  · exact absurd rfl hl
  have hwv : wfV v = true ∧ wfL t = true := by simpa [wfL] using hwfl
  have hsv : safeV v = true ∧ safeL t = true := by simpa [safeL] using hsl
  have hlen := congrArg List.length (rootArrTail_cons v t i s)
  simp only [List.length_append] at hlen
  simp only [jArrLoopF]
  rw [rootArrTail_cons]
  have hval : jValueF g (rootItemRender v ++ rootArrSepT t i s) =
      .ok (v, rootArrSepT t i s) := by
    cases v with
    | obj p =>
      cases p with
      | nil =>
        have hsh : rootItemRender (.obj []) ++ rootArrSepT t i s =
            '\x7b' :: ' ' :: ' ' :: '\x7d' :: rootArrSepT t i s := by
          simp [rootItemRender, compactPairs, joinSep]
        have hlen0 : (rootItemRender (Value.obj [])).length = 4 := by
          simp [rootItemRender, compactPairs, joinSep]
        cases g with
        | zero => omega
        | succ g2 =>
        rw [hsh]
        simp only [jValueF]
        rw [jws_cons_not '\x7b' _ (by decide)]
        rw [if_pos (by simp [headIs])]
        have hdrop : (('\x7b' :: ' ' :: ' ' :: '\x7d' ::
            rootArrSepT t i s).drop 1) =
            ' ' :: ' ' :: '\x7d' :: rootArrSepT t i s := rfl
        rw [hdrop, jws_sp2]
        rw [if_pos (by simp [headIs])]
        simp [List.drop]
      | cons q u =>
        have hbb := bridge_block q u (rootArrSepT t i s)
        have hlen2 := congrArg List.length hbb
        simp only [List.length_append, List.length_cons] at hlen2
        have hpw : nodupKeys (q :: u) = true ∧ wfP (q :: u) = true := by
          simpa [wfV] using hwv.1
        have hpsafe : safeP (q :: u) = true := by simpa [safeV] using hsv.1
        cases g with
        | zero => omega
        | succ g2 =>
        rw [hbb]
        simp only [jValueF]
        rw [jws_cons_not '\x7b' _ (by decide)]
        rw [if_pos (by simp [headIs])]
        obtain ⟨k2, v2⟩ := q
        have hw : cPairTail ((k2, v2) :: u) (rootArrSepT t i s) =
            '"' :: (k2.data ++ '"' :: (':' :: ' ' ::
              (toToonChars v2 0 ++ cValSepT u (rootArrSepT t i s)))) := by
          rw [cPairTail_cons]
          simp [List.append_assoc]
        have hdrop : (('\x7b' :: ' ' :: cPairTail ((k2, v2) :: u)
            (rootArrSepT t i s)).drop 1) =
            ' ' :: cPairTail ((k2, v2) :: u) (rootArrSepT t i s) := rfl
        rw [hdrop, jws_sp _ '"' _ hw (by decide)]
        rw [if_neg (by rw [hw]; simp [headIs])]
        have hP := ihP g2 (by omega) ((k2, v2) :: u) [] (rootArrSepT t i s)
          (by simp) hpw.2 hpsafe (by simpa using hpw.1)
          (rootArrSepT_headOk t i s) (by omega)
        rw [hP]
        simp
    | null =>
      have hre : rootItemRender .null = toToonChars .null 0 := rfl
      have hl2 := congrArg List.length hre
      rw [hre]
      exact ihA g (by omega) .null 0 (rootArrSepT t i s) hwv.1 hsv.1
        (rootArrSepT_headOk t i s) (by omega)
    | bool b =>
      have hre : rootItemRender (.bool b) = toToonChars (.bool b) 0 := rfl
      have hl2 := congrArg List.length hre
      rw [hre]
      exact ihA g (by omega) (.bool b) 0 (rootArrSepT t i s) hwv.1 hsv.1
        (rootArrSepT_headOk t i s) (by omega)
    | num n =>
      have hre : rootItemRender (.num n) = toToonChars (.num n) 0 := rfl
      have hl2 := congrArg List.length hre
      rw [hre]
      exact ihA g (by omega) (.num n) 0 (rootArrSepT t i s) hwv.1 hsv.1
        (rootArrSepT_headOk t i s) (by omega)
    | str s0 =>
      have hre : rootItemRender (.str s0) = toToonChars (.str s0) 0 := rfl
      have hl2 := congrArg List.length hre
      rw [hre]
      exact ihA g (by omega) (.str s0) 0 (rootArrSepT t i s) hwv.1 hsv.1
        (rootArrSepT_headOk t i s) (by omega)
    | arr m =>
      have hre : rootItemRender (.arr m) = toToonChars (.arr m) 0 := rfl
      have hl2 := congrArg List.length hre
      rw [hre]
      exact ihA g (by omega) (.arr m) 0 (rootArrSepT t i s) hwv.1 hsv.1
        (rootArrSepT_headOk t i s) (by omega)
  rw [hval]
  simp only []
  cases t with
  | nil =>
    have h1 : rootArrSepT ([] : List Value) i s =
        '\n' :: (indentChars i ++ ']' :: s) := by
      simp [rootArrSepT]
    rw [h1, jws_nl_ind i _ ']' s rfl (by decide)]
    rw [if_pos (by simp [headIs])]
    simp [List.drop]
  | cons w t' =>
    have h1 : rootArrSepT (w :: t') i s =
        ',' :: ('\n' :: (indentChars (i + 1) ++ rootArrTail (w :: t') i s)) := by
      simp [rootArrSepT]
    rw [h1, jws_cons_not ',' _ (by decide)]
    rw [if_neg (by simp [headIs]), if_pos (by simp [headIs])]
    obtain ⟨c3, r3, hcr3, hc3ws, _, _⟩ := rootItemRender_head w
    have hw : rootArrTail (w :: t') i s = c3 :: (r3 ++ rootArrSepT t' i s) := by
      rw [rootArrTail_cons, hcr3]
      simp
    have hdrop : ((',' :: ('\n' :: (indentChars (i + 1) ++
        rootArrTail (w :: t') i s))).drop 1) =
        '\n' :: (indentChars (i + 1) ++ rootArrTail (w :: t') i s) := rfl
    rw [hdrop, jws_nl_ind (i + 1) _ c3 _ hw hc3ws]
    have hlen1 := congrArg List.length h1
    simp only [List.length_cons, List.length_append, indentChars,
      List.length_replicate] at hlen1
    have hI := ihI g (by omega) (w :: t') (acc ++ [v]) i s (by simp) hwv.2
      hsv.2 hok (by omega)
    rw [hI]
    simp

theorem stepJR (fuel : Nat) (ihA : ∀ g, g < fuel → JA g)
    (ihI : ∀ g, g < fuel → JI g) (ihR : ∀ g, g < fuel → JR g) : JR fuel := by
  intro l acc i s hl hwfp hsp hnd hok hfl
  cases fuel with
  | zero => omega
  | succ g =>
  rcases l with _ | ⟨⟨k, v⟩, t⟩
  · exact absurd rfl hl
  have hsh : rootPairTail ((k, v) :: t) i s =
      '"' :: (k.data ++ '"' :: (':' :: ' ' ::
        (rootValRender v i ++ rootValSepT t i s))) := by
    rw [rootPairTail_cons]
    simp [List.append_assoc]
  have hps : k.data.all safeKeyChar = true ∧ safeV v = true ∧ safeP t = true := by
    have h' := hsp
    simp only [safeP, Bool.and_eq_true] at h'
    exact ⟨h'.1.1, h'.1.2, h'.2⟩
  have hpw : wfV v = true ∧ wfP t = true := by
    simpa [wfP] using hwfp
  have hlen := congrArg List.length hsh
  simp only [List.length_append, List.length_cons] at hlen
  rw [hsh]
  simp only [jObjLoopF]
  rw [if_pos (by simp [headIs])]
  have hstr := jstr_raw k.data []
    (':' :: ' ' :: (rootValRender v i ++ rootValSepT t i s)) hps.1
  simp only [List.nil_append, mk_data] at hstr
  have hdrop : (('"' :: (k.data ++ '"' :: (':' :: ' ' ::
      (rootValRender v i ++ rootValSepT t i s)))).drop 1) =
      k.data ++ '"' :: (':' :: ' ' ::
        (rootValRender v i ++ rootValSepT t i s)) := rfl
  rw [hdrop, hstr]
  simp only []
  rw [jws_cons_not ':' _ (by decide)]
  rw [if_pos (by simp [headIs])]
  have hval : jValueF g (rootValRender v i ++ rootValSepT t i s) =
      .ok (v, rootValSepT t i s) := by
    cases v with
    | arr m =>
      cases m with
      | nil =>
        have hre : rootValRender (.arr []) i = toToonChars (.arr []) 0 := rfl
        have hl2 := congrArg List.length hre
        rw [hre]
        exact ihA g (by omega) (.arr []) 0 (rootValSepT t i s) hpw.1 hps.2.1
          (rootValSepT_headOk t i s) (by omega)
      | cons x xs =>
        have hrva := rootValRender_arr x xs i (rootValSepT t i s)
        have hlen2 := congrArg List.length hrva
        simp only [List.length_append, List.length_cons, indentChars,
          List.length_replicate] at hlen2
        have hwm : wfL (x :: xs) = true := by simpa [wfV] using hpw.1
        have hsm : safeL (x :: xs) = true := by simpa [safeV] using hps.2.1
        obtain ⟨c3, r3, hcr3, hc3ws, hc3rb, _⟩ := rootItemRender_head x
        have hw : rootArrTail (x :: xs) i (rootValSepT t i s) =
            c3 :: (r3 ++ rootArrSepT xs i (rootValSepT t i s)) := by
          rw [rootArrTail_cons, hcr3]
          simp
        cases g with
        | zero => omega
        | succ g2 =>
        rw [hrva]
        simp only [List.cons_append]
        simp only [jValueF]
        rw [jws_cons_not '[' _ (by decide)]
        rw [if_neg (by simp [headIs]), if_pos (by simp [headIs])]
        have hdrop2 : (('[' :: '\n' :: (indentChars (i + 1) ++
            rootArrTail (x :: xs) i (rootValSepT t i s))).drop 1) =
            '\n' :: (indentChars (i + 1) ++
              rootArrTail (x :: xs) i (rootValSepT t i s)) := rfl
        rw [hdrop2, jws_nl_ind (i + 1) _ c3 _ hw hc3ws]
        rw [if_neg (by rw [hw]; simp [headIs, hc3rb])]
        have hI := ihI g2 (by omega) (x :: xs) [] i (rootValSepT t i s)
          (by simp) hwm hsm (rootValSepT_headOk t i s) (by omega)
        rw [hI]
        simp
    | null =>
      have hre : rootValRender .null i = toToonChars .null 0 := rfl
      have hl2 := congrArg List.length hre
      rw [hre]
      exact ihA g (by omega) .null 0 (rootValSepT t i s) hpw.1 hps.2.1
        (rootValSepT_headOk t i s) (by omega)
    | bool b =>
      have hre : rootValRender (.bool b) i = toToonChars (.bool b) 0 := rfl
      have hl2 := congrArg List.length hre
      rw [hre]
      exact ihA g (by omega) (.bool b) 0 (rootValSepT t i s) hpw.1 hps.2.1
        (rootValSepT_headOk t i s) (by omega)
    | num n =>
      have hre : rootValRender (.num n) i = toToonChars (.num n) 0 := rfl
      have hl2 := congrArg List.length hre
      rw [hre]
      exact ihA g (by omega) (.num n) 0 (rootValSepT t i s) hpw.1 hps.2.1
        (rootValSepT_headOk t i s) (by omega)
    | str s0 =>
      have hre : rootValRender (.str s0) i = toToonChars (.str s0) 0 := rfl
      have hl2 := congrArg List.length hre
      rw [hre]
      exact ihA g (by omega) (.str s0) 0 (rootValSepT t i s) hpw.1 hps.2.1
        (rootValSepT_headOk t i s) (by omega)
    | obj p =>
      have hre : rootValRender (.obj p) i = toToonChars (.obj p) 0 := rfl
      have hl2 := congrArg List.length hre
      rw [hre]
      exact ihA g (by omega) (.obj p) 0 (rootValSepT t i s) hpw.1 hps.2.1
        (rootValSepT_headOk t i s) (by omega)
  have hdrop4 : ((':' :: ' ' :: (rootValRender v i ++ rootValSepT t i s)).drop 1) =
      ' ' :: (rootValRender v i ++ rootValSepT t i s) := rfl
  obtain ⟨c2, r2, hcr2, hc2ws⟩ : ∃ c2 r2,
      rootValRender v i ++ rootValSepT t i s = c2 :: r2 ∧ isWs c2 = false := by
    cases v with
    | arr m =>
      cases m with
      | nil =>
        obtain ⟨c2, r2, hcr2, hc2ws, _, _⟩ := toToon_head (.arr []) 0
        refine ⟨c2, r2 ++ rootValSepT t i s, ?_, hc2ws⟩
        rw [show rootValRender (.arr []) i = toToonChars (.arr []) 0 from rfl, hcr2]
        simp
      | cons x xs =>
        refine ⟨'[', '\n' :: (indentChars (i + 1) ++
          rootArrTail (x :: xs) i (rootValSepT t i s)), ?_, by decide⟩
        rw [rootValRender_arr]
        simp
    | null =>
      obtain ⟨c2, r2, hcr2, hc2ws, _, _⟩ := toToon_head .null 0
      refine ⟨c2, r2 ++ rootValSepT t i s, ?_, hc2ws⟩
      rw [show rootValRender .null i = toToonChars .null 0 from rfl, hcr2]
      simp
    | bool b =>
      obtain ⟨c2, r2, hcr2, hc2ws, _, _⟩ := toToon_head (.bool b) 0
      refine ⟨c2, r2 ++ rootValSepT t i s, ?_, hc2ws⟩
      rw [show rootValRender (.bool b) i = toToonChars (.bool b) 0 from rfl, hcr2]
      simp
    | num n =>
      obtain ⟨c2, r2, hcr2, hc2ws, _, _⟩ := toToon_head (.num n) 0
      refine ⟨c2, r2 ++ rootValSepT t i s, ?_, hc2ws⟩
      rw [show rootValRender (.num n) i = toToonChars (.num n) 0 from rfl, hcr2]
      simp
    | str s0 =>
      obtain ⟨c2, r2, hcr2, hc2ws, _, _⟩ := toToon_head (.str s0) 0
      refine ⟨c2, r2 ++ rootValSepT t i s, ?_, hc2ws⟩
      rw [show rootValRender (.str s0) i = toToonChars (.str s0) 0 from rfl, hcr2]
      simp
    | obj p =>
      obtain ⟨c2, r2, hcr2, hc2ws, _, _⟩ := toToon_head (.obj p) 0
      refine ⟨c2, r2 ++ rootValSepT t i s, ?_, hc2ws⟩
      rw [show rootValRender (.obj p) i = toToonChars (.obj p) 0 from rfl, hcr2]
      simp
  rw [hdrop4, jws_sp _ c2 r2 hcr2 hc2ws, hval]
  simp only []
  have hsk : setKey acc k v = acc ++ [(k, v)] :=
    setKey_append acc k v (nodup_mid acc k v t hnd)
  rw [hsk]
  cases t with
  | nil =>
    have h1 : rootValSepT ([] : List (String × Value)) i s =
        '\n' :: (indentChars i ++ '\x7d' :: s) := by
      simp [rootValSepT]
    rw [h1, jws_nl_ind i _ '\x7d' s rfl (by decide)]
    rw [if_pos (by simp [headIs])]
    simp [List.drop]
  | cons q t' =>
    have h1 : rootValSepT (q :: t') i s =
        ',' :: ('\n' :: (indentChars (i + 1) ++ rootPairTail (q :: t') i s)) := by
      simp [rootValSepT]
    rw [h1, jws_cons_not ',' _ (by decide)]
    rw [if_neg (by simp [headIs]), if_pos (by simp [headIs])]
    obtain ⟨k2, v2⟩ := q
    have hw : rootPairTail ((k2, v2) :: t') i s =
        '"' :: (k2.data ++ '"' :: (':' :: ' ' ::
          (rootValRender v2 i ++ rootValSepT t' i s))) := by
      rw [rootPairTail_cons]
      simp [List.append_assoc]
    have hdrop5 : ((',' :: ('\n' :: (indentChars (i + 1) ++
        rootPairTail ((k2, v2) :: t') i s))).drop 1) =
        '\n' :: (indentChars (i + 1) ++ rootPairTail ((k2, v2) :: t') i s) := rfl
    rw [hdrop5, jws_nl_ind (i + 1) _ '"' _ hw (by decide)]
    have hlen1 := congrArg List.length h1
    simp only [List.length_cons, List.length_append, indentChars,
      List.length_replicate] at hlen1
    have hnd2 : nodupKeys ((acc ++ [(k, v)]) ++ (k2, v2) :: t') = true := by
      rw [List.append_assoc]
      simpa using hnd
    have hR := ihR g (by omega) ((k2, v2) :: t') (acc ++ [(k, v)]) i s (by simp)
      hpw.2 hps.2.2 hnd2 hok (by omega)
    rw [hR]
    simp

theorem masterT (fuel : Nat) :
    JA fuel ∧ JB fuel ∧ JC fuel ∧ JP fuel ∧ JR fuel ∧ JI fuel := by
  induction fuel using Nat.strong_induction_on with
  | _ fuel ih =>
    refine ⟨stepJA fuel (fun g hg => (ih g hg).2.1) (fun g hg => (ih g hg).2.2.1)
        (fun g hg => (ih g hg).2.2.2.2.1) (fun g hg => (ih g hg).2.2.2.2.2),
      stepJB fuel (fun g hg => (ih g hg).1) (fun g hg => (ih g hg).2.1),
      stepJC fuel (fun g hg => (ih g hg).1) (fun g hg => (ih g hg).2.2.1),
      stepJP fuel (fun g hg => (ih g hg).1) (fun g hg => (ih g hg).2.2.2.1),
      stepJR fuel (fun g hg => (ih g hg).1) (fun g hg => (ih g hg).2.2.2.2.2)
        (fun g hg => (ih g hg).2.2.2.2.1),
      stepJI fuel (fun g hg => (ih g hg).1) (fun g hg => (ih g hg).2.2.2.1)
        (fun g hg => (ih g hg).2.2.2.2.2)⟩

theorem parseToon_render (V : Value) (hwf : wfV V = true)
    (hsafe : safeV V = true) : parseToon (toToon V 0) = .ok V := by
  have hlen : (String.mk (toToonChars V 0)).length = (toToonChars V 0).length := rfl
  have hA := (masterT ((String.mk (toToonChars V 0)).length + 1)).1 V 0 []
    hwf hsafe rfl (by rw [hlen]; simp)
  rw [List.append_nil] at hA
  obtain ⟨c, r, hcr, hcws, _, _⟩ := toToon_head V 0
  rw [parseToon, toToon, jsonParse]
  have hdata : (String.mk (toToonChars V 0)).data = toToonChars V 0 := rfl
  rw [hdata]
  rw [show jws (toToonChars V 0) = toToonChars V 0 from by
    rw [hcr]; exact jws_cons_not c r hcws]
  rw [hA]
  simp [jws]

theorem isIdent_all (l : List Char) (h : isIdent l = true) :
    l.all identChar = true := by
  cases l with
  | nil => exact absurd h (by decide)
  | cons c t =>
    simp only [isIdent, Bool.and_eq_true] at h
    simp only [List.all_cons, Bool.and_eq_true]
    exact ⟨by simp [identChar, h.1], h.2⟩

theorem key_quoting_equiv (fuel : Nat) (k : String) (s : List Char)
    (acc : List (String × Value)) (hid : isIdent k.data = true)
    (hrt : rtrim s = s) :
    parseObjectLoopF fuel (k.data ++ ':' :: s) acc =
      parseObjectLoopF fuel ('"' :: k.data ++ '"' :: ':' :: s) acc := by
  cases fuel with
  | zero => rfl
  | succ g =>
  obtain ⟨c, t, hct⟩ : ∃ c t, k.data = c :: t := by
    rcases hk : k.data with _ | ⟨c, t⟩
    · rw [hk] at hid; exact absurd hid (by decide)
    · exact ⟨c, t, rfl⟩
  have hid' := hid
  rw [hct] at hid'
  simp only [isIdent, Bool.and_eq_true] at hid'
  have hcs : identStart c = true := hid'.1
  have hall : k.data.all identChar = true := isIdent_all k.data hid
  have hrt1 : rtrim (k.data ++ ':' :: s) = k.data ++ ':' :: s :=
    rt_via_ends _ k.data ':' s rfl (by decide) hrt
  have htr1 : trimJS (k.data ++ ':' :: s) = k.data ++ ':' :: s := by
    rw [hct, List.cons_append] at hrt1 ⊢
    exact trimJS_eq_self c _ (identStart_not_ws c hcs) hrt1
  have hrt2 : rtrim ('"' :: k.data ++ '"' :: ':' :: s) =
      '"' :: k.data ++ '"' :: ':' :: s :=
    rt_via_ends _ ('"' :: k.data ++ ['"']) ':' s (by simp) (by decide) hrt
  have htr2 : trimJS ('"' :: k.data ++ '"' :: ':' :: s) =
      '"' :: k.data ++ '"' :: ':' :: s := by
    rw [List.cons_append] at hrt2 ⊢
    exact trimJS_eq_self '"' _ (by decide) hrt2
  have hstr : parseStrLoop '"' (k.data ++ '"' :: ':' :: s) false [] =
      .ok (k, ':' :: s) := by
    rw [show k.data ++ '"' :: ':' :: s = escapeChars k.data ++ '"' :: (':' :: s)
      from by rw [esc_of_ident k.data hall]]
    rw [esc_rt]
    simp [mk_data]
  have hlhs : parseObjectLoopF (g + 1) (k.data ++ ':' :: s) acc =
      parseEntryTailF g (trimJS s) acc k := by
    simp only [parseObjectLoopF]
    rw [htr1]
    rw [hct, List.cons_append]
    rw [if_neg (by simp)]
    rw [if_neg (by
      simp [headIs, identStart_ne c '"' hcs (by decide),
        identStart_ne c '\'' hcs (by decide)])]
    rw [← List.cons_append, ← hct, extractIdent_render k hid]
  have hrhs : parseObjectLoopF (g + 1) ('"' :: k.data ++ '"' :: ':' :: s) acc =
      parseEntryTailF g (trimJS s) acc k := by
    simp only [parseObjectLoopF]
    rw [htr2]
    rw [if_neg (by simp), if_pos (by simp [headIs])]
    simp only [parseStringRaw, List.cons_append]
    rw [if_pos (by simp)]
    rw [show k.data ++ '"' :: ':' :: s = k.data ++ '"' :: (':' :: s) from rfl, hstr]
    simp only []
    have hrtc : rtrim (':' :: s) = ':' :: s := rt_cons ':' s (by decide) hrt
    rw [trimJS_eq_self ':' s (by decide) hrtc]
    rw [if_pos (by simp [headIs])]
    rfl
  rw [hlhs, hrhs]

theorem entry_tail_reject (r : List Char) (fuel : Nat) (hlt : ltrim r = r)
    (hrt : rtrim r = r) (hne : r ≠ []) (hb : headIs r '\x7d' = false)
    (hc : headIs r ',' = false) (hf : 5 ≤ fuel) :
    parseValueF fuel ("\x7b\"a\": 1 ".data ++ r) =
      .error ("Expected ',' or '\x7d', got: " ++ String.mk (r.take 30)) := by
  have hsh : "\x7b\"a\": 1 ".data ++ r =
      '\x7b' :: '"' :: 'a' :: '"' :: ':' :: ' ' :: '1' :: ' ' :: r := rfl
  cases fuel with
  | zero => omega
  | succ f0 =>
  cases f0 with
  | zero => omega
  | succ f1 =>
  cases f1 with
  | zero => omega
  | succ f2 =>
  cases f2 with
  | zero => omega
  | succ f3 =>
  cases f3 with
  | zero => omega
  | succ f4 =>
  rw [hsh]
  have hrt0 : rtrim ('\x7b' :: '"' :: 'a' :: '"' :: ':' :: ' ' :: '1' :: ' ' :: r) =
      '\x7b' :: '"' :: 'a' :: '"' :: ':' :: ' ' :: '1' :: ' ' :: r := by
    have := rt_append ['\x7b', '"', 'a', '"', ':', ' ', '1', ' '] r hne hrt
    simpa using this
  simp only [parseValueF]
  rw [trimJS_eq_self '\x7b' _ (by decide) hrt0]
  rw [if_pos (by simp [headIs])]
  simp only [parseObjectF]
  rw [if_pos (by simp [headIs])]
  have hdrop1 : (('\x7b' :: '"' :: 'a' :: '"' :: ':' :: ' ' :: '1' :: ' ' :: r).drop 1) =
      '"' :: 'a' :: '"' :: ':' :: ' ' :: '1' :: ' ' :: r := rfl
  rw [hdrop1]
  have hrt1 : rtrim ('"' :: 'a' :: '"' :: ':' :: ' ' :: '1' :: ' ' :: r) =
      '"' :: 'a' :: '"' :: ':' :: ' ' :: '1' :: ' ' :: r := by
    have := rt_append ['"', 'a', '"', ':', ' ', '1', ' '] r hne hrt
    simpa using this
  rw [trimJS_eq_self '"' _ (by decide) hrt1]
  rw [if_neg (by simp [headIs])]
  simp only [parseObjectLoopF]
  rw [trimJS_eq_self '"' _ (by decide) hrt1]
  rw [if_neg (by simp), if_pos (by simp [headIs])]
  simp only [parseStringRaw]
  rw [if_pos (by simp)]
  have hstr : parseStrLoop '"' ('a' :: '"' :: ':' :: ' ' :: '1' :: ' ' :: r) false [] =
      .ok ("a", ':' :: ' ' :: '1' :: ' ' :: r) := by
    simp [parseStrLoop]
  rw [hstr]
  simp only []
  have hrt2 : rtrim (':' :: ' ' :: '1' :: ' ' :: r) = ':' :: ' ' :: '1' :: ' ' :: r := by
    have := rt_append [':', ' ', '1', ' '] r hne hrt
    simpa using this
  rw [trimJS_eq_self ':' _ (by decide) hrt2]
  rw [if_pos (by simp [headIs])]
  have hdrop2 : ((':' :: ' ' :: '1' :: ' ' :: r).drop 1) = ' ' :: '1' :: ' ' :: r := rfl
  rw [hdrop2]
  have htr3 : trimJS (' ' :: '1' :: ' ' :: r) = '1' :: ' ' :: r := by
    rw [trimJS_cons_ws ' ' _ (by decide)]
    have hrt3 : rtrim ('1' :: ' ' :: r) = '1' :: ' ' :: r := by
      have := rt_append ['1', ' '] r hne hrt
      simpa using this
    exact trimJS_eq_self '1' _ (by decide) hrt3
  rw [htr3]
  simp only [parseEntryTailF]
  simp only [parseValueF]
  have hrt3 : rtrim ('1' :: ' ' :: r) = '1' :: ' ' :: r := by
    have := rt_append ['1', ' '] r hne hrt
    simpa using this
  rw [trimJS_eq_self '1' _ (by decide) hrt3]
  rw [if_neg (by simp [headIs]), if_neg (by simp [headIs]),
    if_neg (by simp [headIs]), if_pos (by simp [numStart]; decide)]
  have hnum : parseNumberP ('1' :: ' ' :: r) = .ok (1, ' ' :: r) := by
    rw [parseNumberP]
    rw [if_neg (by simp [headIs])]
    have htw : ('1' :: ' ' :: r).takeWhile isDigit = ['1'] := by
      rw [List.takeWhile_cons, if_pos (by decide), List.takeWhile_cons,
        if_neg (by decide)]
    have hdw : ('1' :: ' ' :: r).dropWhile isDigit = ' ' :: r := by
      rw [List.dropWhile_cons, if_pos (by decide), List.dropWhile_cons,
        if_neg (by decide)]
    rw [htw, hdw, if_neg (by simp)]
    rfl
  rw [hnum]
  simp only []
  have htr4 : trimJS (' ' :: r) = r := by
    rw [trimJS_cons_ws ' ' _ (by decide), trimJS, hlt, hrt]
  rw [htr4, hb, hc]
  simp only [Bool.false_eq_true, if_false]
  rw [if_neg (by
    cases r with
    | nil => exact absurd rfl hne
    | cons a b => simp)]

/-- C1: Relaxed round-trip — for every well-formed Value Tree V (unique
object keys, the data model's invariant), parsing the relaxed
serializer's output gives back V: `parseJson (toJson V 0) = .ok V`. -/
theorem C1_relaxed_round_trip (V : Value) (hwf : wfV V = true) :
    parseJson (toJson V 0) = .ok V :=
  parseJson_render V hwf

/-- Witness for C1 at a concrete Value Tree exercising nested arrays,
objects, strings, numbers, booleans and null. -/
theorem C1_relaxed_round_trip_witness :
    wfV (.obj [("id", .num 1), ("tags", .arr [.str "a", .null, .bool true]),
      ("deep", .obj [("x", .num (-2))])]) = true ∧
    parseJson (toJson (.obj [("id", .num 1),
      ("tags", .arr [.str "a", .null, .bool true]),
      ("deep", .obj [("x", .num (-2))])]) 0) =
      .ok (.obj [("id", .num 1), ("tags", .arr [.str "a", .null, .bool true]),
        ("deep", .obj [("x", .num (-2))])]) :=
  ⟨rfl, C1_relaxed_round_trip (.obj [("id", .num 1),
    ("tags", .arr [.str "a", .null, .bool true]),
    ("deep", .obj [("x", .num (-2))])]) rfl⟩

/-- C2 (counterexample): the relaxed serializer `toJson` does NOT use
the compact brace-block form on the claim's own example — it renders the
two-object array line-per-element with unquoted identifier keys. -/
theorem C2_relaxed_not_compact :
    toJson (.arr [.obj [("id", .num 1), ("name", .str "Alice")],
      .obj [("id", .num 2), ("name", .str "Bob")]]) 0 =
      "[\n  \x7b\n    id: 1,\n    name: \"Alice\"\n  \x7d,\n  \x7b\n    id: 2,\n    name: \"Bob\"\n  \x7d\n]" ∧
    toJson (.arr [.obj [("id", .num 1), ("name", .str "Alice")],
      .obj [("id", .num 2), ("name", .str "Bob")]]) 0 ≠
      "[\n  \x7b \"id\": 1, \"name\": \"Alice\" \x7d,\n  \x7b \"id\": 2, \"name\": \"Bob\" \x7d\n]" :=
  ⟨rfl, by decide⟩

/-- C2 (amended): the compact-array heuristic belongs to the strict
serializer `toToon`: a non-empty array whose elements are all non-array
objects with at most 5 keys and only scalar values renders each element
as a single-line brace block with double-quoted keys, joined by
comma-newline one indent level deeper inside the outer brackets. -/
theorem C2_compact_array_heuristic (l : List Value) (i : Nat) (hne : l ≠ [])
    (hC : isCompactArrB l = true) :
    toToon (.arr l) i = String.mk ("[\n".data ++ indentChars (i + 1) ++
      joinSep (',' :: '\n' :: indentChars (i + 1)) (l.map (fun v =>
        match v with
        | .obj p => '\x7b' :: ' ' ::
            (joinSep [',', ' '] (p.map fun kv =>
              '"' :: kv.1.data ++ '"' :: ':' :: ' ' :: toToonChars kv.2 0) ++
              [' ', '\x7d'])
        | _ => [])) ++
      '\n' :: indentChars i ++ "]".data) := by
  rcases l with _ | ⟨v, t⟩
  · exact absurd rfl hne
  rw [toToon]
  rw [show toToonChars (.arr (v :: t)) i =
    "[\n".data ++ indentChars (i + 1) ++
      joinSep (',' :: '\n' :: indentChars (i + 1)) (compactBlocks (v :: t)) ++
      '\n' :: indentChars i ++ "]".data from by rw [toToonChars, if_pos hC]]
  rw [compactBlocks_map (v :: t) hC]

/-- Witness for C2 at the claim's own two-object array, yielding
exactly the compact rendering. -/
theorem C2_compact_array_heuristic_witness :
    toToon (.arr [.obj [("id", .num 1), ("name", .str "Alice")],
      .obj [("id", .num 2), ("name", .str "Bob")]]) 0 =
      "[\n  \x7b \"id\": 1, \"name\": \"Alice\" \x7d,\n  \x7b \"id\": 2, \"name\": \"Bob\" \x7d\n]" := by
  rw [C2_compact_array_heuristic [.obj [("id", .num 1), ("name", .str "Alice")],
    .obj [("id", .num 2), ("name", .str "Bob")]] 0 (by simp) rfl]
  rfl

/-- C3 (counterexample): the strict serializer `toToon` DOES use a
single-line compact brace-block form: on `[{"id": 1}]` it does not
render line-per-element. -/
theorem C3_strict_compact_example :
    toToon (.arr [.obj [("id", .num 1)]]) 0 = "[\n  \x7b \"id\": 1 \x7d\n]" ∧
    toToon (.arr [.obj [("id", .num 1)]]) 0 ≠
      "[\n  \x7b\n    \"id\": 1\n  \x7d\n]" :=
  ⟨rfl, by decide⟩

/-- C3 (amended): `toToon` renders a non-empty array line-per-element —
each element at `indent + 1`, prefixed by two-space-per-level
indentation, joined by comma-newline — precisely when the compact-array
heuristic does not apply. -/
theorem C3_strict_line_per_element (l : List Value) (i : Nat) (hne : l ≠ [])
    (hC : isCompactArrB l = false) :
    toToon (.arr l) i = String.mk ("[\n".data ++
      joinSep ",\n".data
        (l.map (fun v => indentChars (i + 1) ++ toToonChars v (i + 1))) ++
      '\n' :: indentChars i ++ "]".data) := by
  rcases l with _ | ⟨v, t⟩
  · exact absurd rfl hne
  rw [toToon]
  rw [show toToonChars (.arr (v :: t)) i =
    "[\n".data ++ joinSep ",\n".data (toonItems (v :: t) (i + 1)) ++
      '\n' :: indentChars i ++ "]".data from by
    rw [toToonChars, if_neg (by simp [hC])]]
  rw [toonItems_map]

/-- Witness for C3 at a two-number array (the heuristic does not apply
to scalar elements), yielding the line-per-element rendering. -/
theorem C3_strict_line_per_element_witness :
    toToon (.arr [.num 1, .num 2]) 0 = "[\n  1,\n  2\n]" := by
  rw [C3_strict_line_per_element [.num 1, .num 2] 0 (by simp) rfl]
  rfl

/-- C4 (counterexample): the strict round-trip fails on a well-formed
Value Tree whose object key contains a double quote — `toToon`
interpolates keys raw, so the rendered text is not valid JSON and the
strict parser rejects it. -/
theorem C4_quote_key_counterexample :
    wfV (.obj [("a\"b", .num 1)]) = true ∧
    parseToon (toToon (.obj [("a\"b", .num 1)]) 0) =
      .error "Invalid TOON format: Expected colon in object" :=
  ⟨rfl, rfl⟩

/-- C4 (amended): the strict round-trip holds for every well-formed
Value Tree that is strictly serializable — object keys contain no
characters needing JSON escaping and strings contain no control
characters beyond the newline/carriage-return/tab that `toToon`
escapes: `parseToon (toToon V 0) = .ok V`. -/
theorem C4_strict_round_trip (V : Value) (hwf : wfV V = true)
    (hsafe : safeV V = true) : parseToon (toToon V 0) = .ok V :=
  parseToon_render V hwf hsafe

/-- Witness for C4 at a concrete Value Tree exercising the root-compact
object branch with an inline array of a compact brace block and a
scalar. -/
theorem C4_strict_round_trip_witness :
    wfV (.obj [("id", .num 1),
      ("tags", .arr [.obj [("a", .num 2)], .str "x"])]) = true ∧
    safeV (.obj [("id", .num 1),
      ("tags", .arr [.obj [("a", .num 2)], .str "x"])]) = true ∧
    parseToon (toToon (.obj [("id", .num 1),
      ("tags", .arr [.obj [("a", .num 2)], .str "x"])]) 0) =
      .ok (.obj [("id", .num 1),
        ("tags", .arr [.obj [("a", .num 2)], .str "x"])]) :=
  ⟨rfl, rfl, C4_strict_round_trip (.obj [("id", .num 1),
    ("tags", .arr [.obj [("a", .num 2)], .str "x"])]) rfl rfl⟩

/-- C5: Unquoted-key acceptance — the relaxed parser accepts
`{name: "Alice", age: 30}` and produces the same Value Tree as the
strict parser on `{"name": "Alice", "age": 30}`; in general, inside the
relaxed object loop an unquoted identifier key followed by a colon
parses identically to the same key double-quoted. -/
theorem C5_unquoted_key_acceptance :
    parseJson "\x7bname: \"Alice\", age: 30\x7d" =
      .ok (.obj [("name", .str "Alice"), ("age", .num 30)]) ∧
    parseToon "\x7b\"name\": \"Alice\", \"age\": 30\x7d" =
      .ok (.obj [("name", .str "Alice"), ("age", .num 30)]) ∧
    (∀ (fuel : Nat) (k : String) (s : List Char) (acc : List (String × Value)),
      isIdent k.data = true → rtrim s = s →
      parseObjectLoopF fuel (k.data ++ ':' :: s) acc =
        parseObjectLoopF fuel ('"' :: k.data ++ '"' :: ':' :: s) acc) :=
  ⟨rfl, rfl, fun fuel k s acc hid hrt => key_quoting_equiv fuel k s acc hid hrt⟩

/-- C6: Conversion composition — the JSON→TOON conversion equals
`toToon` applied to the result of `parseJson`, and it fails with the
parser's error exactly when the relaxed parse fails. -/
theorem C6_conversion_composition (text : String) :
    (∀ v, parseJson text = .ok v → jsonToToon text = .ok (toToon v 0)) ∧
    (∀ e, parseJson text = .error e → jsonToToon text = .error e) := by
  constructor
  · intro v h
    rw [jsonToToon, h]
  · intro e h
    rw [jsonToToon, h]

/-- Witness for C6 at a concrete relaxed-JSON text. -/
theorem C6_conversion_composition_witness :
    jsonToToon "\x7ba: 1\x7d" = .ok (toToon (.obj [("a", .num 1)]) 0) :=
  (C6_conversion_composition "\x7ba: 1\x7d").1 (.obj [("a", .num 1)]) rfl

/-- C7: Duplicate-key overwrite — in both parsers a later duplicate key
silently overwrites the earlier one (`{"a": 1, "a": 2}` parses to the
single entry `a ↦ 2`, in first-appearance order), and every parsed
value has unique keys in all its objects. -/
theorem C7_duplicate_key_overwrite :
    parseJson "\x7b\"a\": 1, \"a\": 2\x7d" = .ok (.obj [("a", .num 2)]) ∧
    parseToon "\x7b\"a\": 1, \"a\": 2\x7d" = .ok (.obj [("a", .num 2)]) ∧
    parseJson "\x7b\"a\": 1, \"b\": 2, \"a\": 3\x7d" =
      .ok (.obj [("a", .num 3), ("b", .num 2)]) ∧
    (∀ (input : String) (v : Value), parseJson input = .ok v → wfV v = true) ∧
    (∀ (input : String) (v : Value), parseToon input = .ok v → wfV v = true) :=
  ⟨rfl, rfl, rfl, parseJson_wf, parseToon_wf⟩

/-- C8: Relaxed-parser failure conditions — `parseJson` fails with the
empty-input error on every whitespace-only input, and with the
trailing-content error (naming the first 20 trailing characters) when
non-whitespace remains after a complete top-level value. -/
theorem C8_failure_conditions :
    parseJson "" = .error "Empty input" ∧
    parseJson "   " = .error "Empty input" ∧
    parseJson "1 x" = .error "Unexpected characters after parsed value:  x" ∧
    (∀ input : String, input.data.all isWs = true →
      parseJson input = .error "Empty input") ∧
    (∀ (input : String) (res : ParseResult),
      (trimJS input.data).isEmpty = false →
      parseValueF (input.length + 1) (trimJS input.data) = .ok res →
      (trimJS res.remaining).isEmpty = false →
      parseJson input = .error ("Unexpected characters after parsed value: " ++
        String.mk (res.remaining.take 20))) := by
  refine ⟨rfl, rfl, rfl, ?_, ?_⟩
  · intro input hws
    rw [parseJson]
    have hlt : ltrim input.data = [] := by
      rw [ltrim, List.dropWhile_eq_nil_iff]
      intro x hx
      exact List.all_eq_true.mp hws x hx
    have ht : trimJS input.data = [] := by
      rw [trimJS, hlt, rtrim_nil]
    rw [ht]
    rfl
  · intro input res hne hok htr
    rw [parseJson]
    simp only [hne, Bool.false_eq_true, if_false, hok, htr]

/-- C9: Object implicit-end tolerance — exhausting the input between
entries is tolerated as an implicit end of the object
(`parseJson "{\"a\": 1"` succeeds), while any remaining content other
than `}` or `,` after an entry's value is the missing-delimiter error
naming the first 30 offending characters. -/
theorem C9_implicit_end_tolerance :
    parseJson "\x7b\"a\": 1" = .ok (.obj [("a", .num 1)]) ∧
    parseJson "\x7b\"a\": 1, \"b\": 2" =
      .ok (.obj [("a", .num 1), ("b", .num 2)]) ∧
    (∀ r : List Char, ltrim r = r → rtrim r = r → r ≠ [] →
      headIs r '\x7d' = false → headIs r ',' = false →
      parseJson (String.mk ("\x7b\"a\": 1 ".data ++ r)) =
        .error ("Expected ',' or '\x7d', got: " ++ String.mk (r.take 30))) := by
  refine ⟨rfl, rfl, ?_⟩
  intro r hlt hrt hne hb hc
  rw [parseJson]
  have hdata : (String.mk ("\x7b\"a\": 1 ".data ++ r)).data =
      "\x7b\"a\": 1 ".data ++ r := rfl
  rw [hdata]
  have hsh : "\x7b\"a\": 1 ".data ++ r =
      '\x7b' :: ('"' :: 'a' :: '"' :: ':' :: ' ' :: '1' :: ' ' :: r) := rfl
  have hrt0 : rtrim ("\x7b\"a\": 1 ".data ++ r) = "\x7b\"a\": 1 ".data ++ r :=
    rt_append _ r hne hrt
  have htr : trimJS ("\x7b\"a\": 1 ".data ++ r) = "\x7b\"a\": 1 ".data ++ r := by
    rw [hsh] at hrt0 ⊢
    exact trimJS_eq_self '\x7b' _ (by decide) hrt0
  rw [htr]
  rw [if_neg (by rw [hsh]; simp)]
  have hlen : (String.mk ("\x7b\"a\": 1 ".data ++ r)).length = 8 + r.length := by
    have : (String.mk ("\x7b\"a\": 1 ".data ++ r)).length =
        ("\x7b\"a\": 1 ".data ++ r).length := rfl
    rw [this]
    simp
    omega
  have hval := entry_tail_reject r
    ((String.mk ("\x7b\"a\": 1 ".data ++ r)).length + 1) hlt hrt hne hb hc
    (by omega)
  rw [hval]

/-- C10: No Unicode escapes in the relaxed parser — in a relaxed-parsed
string a backslash followed by any character other than `n`, `t`, `r`
yields that character itself, so `\uXXXX` is not decoded: on the input
`"\u0041"` the relaxed parser returns the five-character string
`u0041` while the strict parser returns `A`. -/
theorem C10_no_unicode_escape_relaxed :
    parseJson "\"\\u0041\"" = .ok (.str "u0041") ∧
    parseToon "\"\\u0041\"" = .ok (.str "A") ∧
    (∀ (c : Char) (rest acc : List Char), c ≠ 'n' → c ≠ 't' → c ≠ 'r' →
      parseStrLoop '"' ('\\' :: c :: rest) false acc =
        parseStrLoop '"' rest false (acc ++ [c])) := by
  refine ⟨rfl, rfl, ?_⟩
  intro c rest acc h1 h2 h3
  simp [parseStrLoop, escDecode, h1, h2, h3]
